import Mathlib

/-!
Verification of the livegrep core search engine (`src/codesearch.cc`).

We shallowly embed the corpus builder (`code_searcher::update_stats`),
the per-chunk searcher (`searcher::operator()`, `filtered_search`,
`search_lines`, `full_search`, `next_range`, `find_match`,
`find_match_brute`, `try_match`, `finish_group`) and the sequential
driver (`search_thread::match_internal`) into Lean.

Modelling conventions:
* machine bytes are `Nat` values `< 256`; `'\n'` is `NL = 10`;
* C pointers into chunk arenas become pairs `(chunk index, byte offset)`;
* the external collaborators that are not part of `src/` (the chunk
  allocator of `chunk.cc`/`chunk_allocator.cc`, the suffix-array and
  chunk-file-tree construction performed by `chunk::finalize`, the regex
  engine RE2, the `indexRE` analyzer of `indexer.cc`, the UTF-8 helpers
  of `utf8.h` and the radix sort) are modelled from the spec, each marked
  `Modelled from the spec:` in its doc comment;
* the git blob hash (oid) is a cryptographic content hash, so it is
  modelled by the blob content itself (equal content iff equal oid);
* the search driver is modelled single-threaded: the dispatcher hands
  each chunk to the searcher in corpus order, which fixes one
  interleaving of the parallel execution;
* the wall-clock timeout check in `exit_early` is outside the embedding
  (real time); the match-count limit check is embedded faithfully.
-/

set_option maxHeartbeats 4000000
set_option maxRecDepth 8000

namespace Codesearch

/-- A machine byte. -/
abbrev Byte := Nat

/-- The newline byte `'\n'`. -/
def NL : Byte := 10

/-! ## Byte-scanning primitives (`memchr`, `memrchr`, `count`) -/

/-- `memrchr d c n`: index of the last occurrence of byte `c` among
`d[0..n)`, if any (C `memrchr(d, c, n)`). -/
def memrchr (d : List Byte) (c : Byte) : Nat → Option Nat
  | 0 => none
  | n + 1 => if d.getD n 0 = c then some n else memrchr d c n

/-- First index `i` with `pos ≤ i < pos + rem` and `d[i] = c`
(C `memchr(d + pos, c, rem)`, returning an absolute index). -/
def memchrFrom (d : List Byte) (c : Byte) : Nat → Nat → Option Nat
  | _, 0 => none
  | pos, rem + 1 => if d.getD pos 0 = c then some pos else memchrFrom d c (pos + 1) rem

/-- `std::count(first, last, '\n')` over byte indices `[a, b)` of `d`. -/
def countNL (d : List Byte) (a b : Nat) : Nat :=
  ((d.drop a).take (b - a)).countP (fun x => x = NL)

/-! ## Tuning constants (`codesearch.cc` lines 34-38) -/

def kContextLines : Nat := 3
def kMinSkip : Nat := 250
def kMinFilterRatio : Nat := 50
def kMaxScan : Nat := 1 <<< 20

/-- Modelled from the spec: `kChunkSize`, the fixed chunk capacity, is
defined in `chunk.h` which is not part of `src/`; the spec only calls it
`chunk_capacity`.  We keep it as a section-level parameter where it
matters and use this default elsewhere. -/
def kChunkSize : Nat := 1 <<< 25

/-! ## Data model: paths, segments, search files, chunk files -/

/-- A `(ref, path)` pair (`struct git_path`). -/
structure GitPath where
  ref : String
  path : String
deriving DecidableEq, Repr

/-- A `StringPiece` pointing into a chunk arena: chunk index `c`, byte
offset `off`, length `len` (the pointer model of the embedding). -/
structure Piece where
  c : Nat
  off : Nat
  len : Nat
deriving DecidableEq, Repr

/-- `struct search_file`: the deduplicated file unit.  The oid is the
blob content itself (content hash model). -/
structure SearchFile where
  no : Nat
  oid : List Byte
  paths : List GitPath
  content : List Piece
deriving DecidableEq, Repr

/-- `struct chunk_file`: byte interval `[left, right]` of one chunk
together with the (numbers of the) search files whose content includes
those bytes. -/
structure ChunkFile where
  left : Nat
  right : Nat
  files : List Nat
deriving DecidableEq, Repr

/-- A chunk while the corpus is being built: its bytes, its closed
`chunk_file` records, and the currently open record if any.
Modelled from the spec: `chunk.cc` is not part of `src/`; §4.1 of the
spec describes `add_chunk_file` / `finish_file`. -/
structure ChunkB where
  bytes : List Byte
  cfiles : List ChunkFile
  cur : Option ChunkFile
deriving DecidableEq, Repr

/-- Ingestion statistics (`code_searcher::index_stats`). -/
structure Stats where
  bytes : Nat
  dedup_bytes : Nat
  lines : Nat
  dedup_lines : Nat
  files : Nat
  dedup_files : Nat
deriving DecidableEq, Repr

def Stats.zero : Stats := ⟨0, 0, 0, 0, 0, 0⟩

/-- Corpus-builder state (`class code_searcher`): the file arena
`files_`, the oid-keyed map `file_map_` (as an association list), the
line-intern set `lines_` (line bytes, without the trailing `'\n'`,
mapped to the interned position), and the allocator's chunks. -/
structure CState where
  files : List SearchFile
  fileMap : List (List Byte × Nat)
  lines : List (List Byte × (Nat × Nat))
  chunks : List ChunkB
  stats : Stats
deriving DecidableEq, Repr

def CState.empty : CState := ⟨[], [], [], [], Stats.zero⟩

/-- Association-list lookup used for `file_map_` and `lines_`. -/
def alookup {β : Type} (m : List (List Byte × β)) (k : List Byte) : Option β :=
  match m with
  | [] => none
  | (k0, v0) :: rest => if k0 = k then some v0 else alookup rest k

/-- Replace the `i`-th element of a list by `f` of it. -/
def modifyNth {α : Type} (l : List α) (i : Nat) (f : α → α) : List α :=
  match l[i]? with
  | some x => l.set i (f x)
  | none => l

/-! ## The corpus builder (`code_searcher::update_stats`, lines 449-515) -/

/-- Complete `'\n'`-terminated lines of a blob, in order; a final line
without a trailing `'\n'` is dropped, exactly as the `memchr` loop of
`update_stats` only consumes up to the last `'\n'`. -/
def splitLines : List Byte → List (List Byte)
  | [] => []
  | b :: rest =>
    if b = NL then [] :: splitLines rest
    else
      match splitLines rest with
      | [] => []
      | L :: ls => (b :: L) :: ls

/-- Modelled from the spec: the chunk allocator (`chunk_allocator.cc`,
not in `src/`) appends `payload` to the current (last) chunk if it fits
in the fixed capacity `cap`, and otherwise opens a fresh chunk; returns
the new chunk list and the chunk index / byte offset of the allocation
(spec §4.1 step 2: "the allocator may roll to a new chunk"). -/
def allocBytes (cap : Nat) (chunks : List ChunkB) (payload : List Byte) :
    List ChunkB × Nat × Nat :=
  match chunks.getLast? with
  | some c =>
    if c.bytes.length + payload.length ≤ cap then
      (chunks.dropLast ++ [{ c with bytes := c.bytes ++ payload }],
       chunks.length - 1, c.bytes.length)
    else
      (chunks ++ [⟨payload, [], none⟩], chunks.length, 0)
  | none => ([⟨payload, [], none⟩], 0, 0)

/-- Modelled from the spec: `chunk::add_chunk_file` (spec §4.1 step 4).
`off`/`len` are the interned line's offset and length (without its
terminator); the record's interval covers the line plus its terminator,
so `right = off + len`.  If the open record is for the same single file
and is byte-adjacent (`right + 1 = off`), it is extended; otherwise the
open record is closed and a fresh one is opened. -/
def addChunkFile (cb : ChunkB) (sfno off len : Nat) : ChunkB :=
  match cb.cur with
  | some f =>
    if f.files = [sfno] ∧ f.right + 1 = off then
      { cb with cur := some { f with right := off + len } }
    else
      { cb with cfiles := cb.cfiles ++ [f], cur := some ⟨off, off + len, [sfno]⟩ }
  | none => { cb with cur := some ⟨off, off + len, [sfno]⟩ }

/-- Modelled from the spec: `chunk::finish_file` closes the open record
(spec §4.1: "after each blob is processed, every chunk's open ChunkFile
for this SearchFile is finish_file-closed"). -/
def finishFile (cb : ChunkB) : ChunkB :=
  match cb.cur with
  | some f => { cb with cfiles := cb.cfiles ++ [f], cur := none }
  | none => cb

/-- The segment-append step of `update_stats` (lines 498-507): if the
file's last content segment satisfies
`back.data() + back.size() == line.data()` (pointer equality, hence same
chunk and offset equality) the segment is replaced by
`StringPiece(back.data(), line.data() - back.data() + line.size())`;
otherwise the line's piece is appended. -/
def appendSegment (content : List Piece) (c off len : Nat) : List Piece :=
  match content.getLast? with
  | some b =>
    if b.c = c ∧ b.off + b.len = off then
      content.dropLast ++ [⟨b.c, b.off, off - b.off + len⟩]
    else
      content ++ [⟨c, off, len⟩]
  | none => content ++ [⟨c, off, len⟩]

/-- One iteration of the line loop of `update_stats` (lines 480-510) for
the new file number `sfno`: intern the line (allocating `line + '\n'` on
a miss), notify the owning chunk (`add_chunk_file`), append/extend the
file's content segment, and update the statistics. -/
def processLine (cap sfno : Nat) (st : CState) (L : List Byte) : CState :=
  let (st, c, off) :=
    match alookup st.lines L with
    | none =>
      let stats := { st.stats with
        dedup_bytes := st.stats.dedup_bytes + L.length + 1,
        dedup_lines := st.stats.dedup_lines + 1 }
      let (chunks, c, off) := allocBytes cap st.chunks (L ++ [NL])
      ({ st with stats := stats, chunks := chunks,
                 lines := st.lines ++ [(L, (c, off))] }, c, off)
    | some (c, off) => (st, c, off)
  let st := { st with chunks := modifyNth st.chunks c (fun cb => addChunkFile cb sfno off L.length) }
  let st := { st with files := (modifyNth st.files sfno
                (fun sf => { sf with content := appendSegment sf.content c off L.length })) }
  { st with stats := { st.stats with lines := st.stats.lines + 1 } }

/-- `code_searcher::update_stats` (lines 449-515): skip blobs holding a
NUL byte; bump the raw statistics; if the content hash is known, only
record the additional `(ref, path)`; otherwise create the next
`search_file` and run the line loop, then `finish_file` every chunk. -/
def update_stats (cap : Nat) (ref path : String) (bytes : List Byte) (st : CState) : CState :=
  if bytes.contains 0 then st
  else
    let st := { st with stats := { st.stats with
      bytes := st.stats.bytes + bytes.length,
      files := st.stats.files + 1 } }
    match alookup st.fileMap bytes with
    | some i =>
      { st with files := (modifyNth st.files i
          (fun sf => { sf with paths := sf.paths ++ [⟨ref, path⟩] })) }
    | none =>
      let sfno := st.files.length
      let st := { st with
        stats := { st.stats with dedup_files := st.stats.dedup_files + 1 },
        files := st.files ++ [⟨st.files.length, bytes, [⟨ref, path⟩], []⟩],
        fileMap := st.fileMap ++ [(bytes, sfno)] }
      let st := (splitLines bytes).foldl (processLine cap sfno) st
      { st with chunks := st.chunks.map finishFile }

/-! ## Finalization (`code_searcher::finalize` / `chunk::finalize`) -/

/-- Insertion sort by a boolean "less or equal" predicate; structural,
so that concrete corpora evaluate inside `decide`/`rfl`. -/
def isortBy {α : Type} (le : α → α → Bool) (l : List α) : List α :=
  l.foldr (fun x acc => acc.takeWhile (fun y => !le x y) ++ x :: acc.dropWhile (fun y => !le x y)) []

/-- Suffix comparison with `'\n'` as string terminator: comparison stops
at `'\n'` on either side, and `'\n'` sorts below any real byte
(spec §3, "suffix array").  Out-of-range reads yield the terminator.
`fuel` bounds the scan; `d.length + 1` always suffices. -/
def suffixLEAux (d : List Byte) : Nat → Nat → Nat → Bool
  | 0, _, _ => true
  | fuel + 1, i, j =>
    let bi := d.getD i NL
    let bj := d.getD j NL
    if bi = NL then true
    else if bj = NL then false
    else if bi < bj then true
    else if bj < bi then false
    else suffixLEAux d fuel (i + 1) (j + 1)

/-- `suffixLE d i j`: the suffix of `d` at `i` is at most the one at `j`
in the `'\n'`-terminator order. -/
def suffixLE (d : List Byte) (i j : Nat) : Bool := suffixLEAux d (d.length + 1) i j

/-- The chunk-file BST (spec §3: keyed by `left`, each node storing
`right_limit`, the maximum `right` over its subtree).
Modelled from the spec: built by `chunk::finalize` (`chunk.cc`, not in
`src/`). -/
inductive CFTree where
  | nil
  | node (cf : ChunkFile) (l : CFTree) (r : CFTree) (right_limit : Nat)
deriving DecidableEq, Repr

def CFTree.rlimit : CFTree → Nat
  | .nil => 0
  | .node _ _ _ rl => rl

/-- Midpoint tree construction, with recursion depth bounded by `fuel`
(structural, so that concrete corpora evaluate in the kernel;
`l.length + 1` always suffices since both halves are shorter). -/
def buildTreeF : Nat → List ChunkFile → CFTree
  | 0, _ => .nil
  | _, [] => .nil
  | fuel + 1, x :: xs =>
    let mid := (x :: xs).length / 2
    let cf := (x :: xs).getD mid ⟨0, 0, []⟩
    let lt := buildTreeF fuel ((x :: xs).take mid)
    let rt := buildTreeF fuel ((x :: xs).drop (mid + 1))
    .node cf lt rt (max cf.right (max lt.rlimit rt.rlimit))

/-- Modelled from the spec: build the chunk-file BST from the record
list (which the builder produced in ascending `left` order) by midpoint
recursion, computing `right_limit = max(right, children's limits)`
(spec §4.1 (b)-(c)). -/
def buildTree (l : List ChunkFile) : CFTree := buildTreeF (l.length + 1) l

/-- A finalized chunk: data bytes, suffix array, `chunk_file` records
and their BST. -/
structure Chunk where
  data : List Byte
  suffixes : List Nat
  cfiles : List ChunkFile
  tree : CFTree
deriving DecidableEq, Repr

/-- Modelled from the spec: `chunk::finalize` computes the suffix array
(offsets sorted in the `'\n'`-terminator order) and the chunk-file tree. -/
def finalizeChunk (cb : ChunkB) : Chunk :=
  ⟨cb.bytes, isortBy (suffixLE cb.bytes) (List.range cb.bytes.length),
   cb.cfiles, buildTree cb.cfiles⟩

/-- A finalized corpus. -/
structure Corpus where
  files : List SearchFile
  chunks : List Chunk
deriving Repr

/-- `code_searcher::finalize` (lines 423-427): seal all chunks. -/
def code_finalize (st : CState) : Corpus :=
  ⟨st.files, st.chunks.map finalizeChunk⟩

/-! ## Line primitives of the searcher (lines 240-273) -/

/-- `searcher::line_start` (lines 240-246).  NOTE: the code returns the
index of the previous `'\n'` itself (`return start - chunk->data;`, with
`start` pointing at the `'\n'`), not the position just after it; 0 when
there is no `'\n'` before `pos`. -/
def line_start (d : List Byte) (pos : Nat) : Nat :=
  match memrchr d NL pos with
  | some i => i
  | none => 0

/-- `searcher::line_end` (lines 248-254): index of the next `'\n'` at or
after `pos`, or the chunk size. -/
def line_end (d : List Byte) (pos : Nat) : Nat :=
  match memchrFrom d NL pos (d.length - pos) with
  | some i => i
  | none => d.length

/-- `searcher::find_line` (lines 256-273): the maximal `'\n'`-free run
of `base` (a piece of chunk `base.c` with data `d`) around the match
`[moff, moff + mlen)`.  The start is one past the last `'\n'` of
`[base.off, moff)` (or `base.off`), the end is the first `'\n'` of
`[moff + mlen, base.off + base.len)` (or the base's end). -/
def find_line (d : List Byte) (base : Piece) (moff mlen : Nat) : Piece :=
  let s := match memrchr d NL moff with
    | some i => if base.off ≤ i then i + 1 else base.off
    | none => base.off
  let e := match memchrFrom d NL (moff + mlen) (base.off + base.len - (moff + mlen)) with
    | some i => i
    | none => base.off + base.len
  ⟨base.c, s, e - s⟩

/-! ## UTF-8 collaborator (out of scope in the spec, `utf8.h`) -/

/-- A UTF-8 continuation byte. -/
def isCont (b : Byte) : Bool := decide (128 ≤ b) && decide (b < 192)

/-- Modelled from the spec: `utf8::distance` counts codepoints, i.e.
non-continuation bytes. -/
def utf8_distance (l : List Byte) : Nat := l.countP (fun b => !isCont b)

/-- Modelled from the spec: `utf8::is_valid`, the byte-range UTF-8
structure validator. -/
def utf8_valid : List Byte → Bool
  | [] => true
  | b :: rest =>
    if b < 128 then utf8_valid rest
    else if b < 192 then false
    else if b < 224 then
      match rest with
      | c1 :: r => isCont c1 && utf8_valid r
      | [] => false
    else if b < 240 then
      match rest with
      | c1 :: c2 :: r => isCont c1 && isCont c2 && utf8_valid r
      | _ => false
    else if b < 248 then
      match rest with
      | c1 :: c2 :: c3 :: r => isCont c1 && isCont c2 && isCont c3 && utf8_valid r
      | _ => false
    else false

/-! ## Query-time state (`class searcher`) -/

/-- `exit_reason` of `codesearch.h`. -/
inductive ExitReason where
  | kExitNone
  | kExitMatchLimit
  | kExitTimeout
deriving DecidableEq, Repr

/-- Modelled from the spec: RE2's unanchored `Match(text, startpos,
endpos)` collaborator.  Given the chunk bytes and a window
`[pos, limit)`, it returns the span `[s, e)` of a match lying within the
window, or `none`. -/
def Matcher : Type := List Byte → Nat → Nat → Option (Nat × Nat)

/-- The per-query environment: the corpus's file arena and chunk data
(for pointer dereferences), the optional file-path regex (as its
acceptance predicate), the `--index` flag, the match cap
(`--max_matches`; `none` models the cap removed), and the
`files_density` fallback comparison of `search_lines` line 638 (the
density is estimated by random sampling, so the comparison outcome is a
parameter; it is reachable only when a file pattern is present). -/
structure Env where
  files : List SearchFile
  chunksData : List (List Byte)
  filePat : Option (String → Bool)
  flagIndex : Bool
  maxMatches : Option Nat
  densityFallback : Nat → Nat → Bool

/-- One match delivered to the result queue (`struct match_context`). -/
structure MatchContext where
  file : Nat
  lno : Nat
  context_before : List Piece
  context_after : List Piece
  paths : List GitPath
deriving DecidableEq, Repr

/-- `struct match_result`. -/
structure MatchResult where
  line : Piece
  matchleft : Nat
  matchright : Nat
  context : List MatchContext
deriving DecidableEq, Repr

/-- The searcher's mutable query state: the atomic match counter
`matches_`, `exit_reason_`, and the result queue contents (modelled as
the list of pushed `match_result`s, in push order). -/
structure SState where
  nmatches : Nat
  exitr : ExitReason
  out : List MatchResult
deriving DecidableEq, Repr

def SState.init : SState := ⟨0, .kExitNone, []⟩

/-- `searcher::exit_early` (lines 275-297).  The wall-clock deadline
check is outside the embedding (real time); the match-cap check is
embedded faithfully: once the counter reaches the cap, `exit_reason_`
is set to `kExitMatchLimit` and every later call returns true. -/
def exit_early (env : Env) (s : SState) : Bool × SState :=
  if s.exitr ≠ .kExitNone then (true, s)
  else
    match env.maxMatches with
    | some m => if m ≤ s.nmatches then (true, { s with exitr := .kExitMatchLimit }) else (false, s)
    | none => (false, s)

/-- `searcher::accept(const git_path&)` (lines 160-165). -/
def acceptPath (env : Env) (p : GitPath) : Bool :=
  match env.filePat with
  | none => true
  | some f => f p.path

/-- `searcher::accept(search_file*)` (lines 167-185).  The `files_`
byte cache memoizes an idempotent pure computation, so it is modelled by
the computation itself. -/
def acceptSF (env : Env) (sf : SearchFile) : Bool :=
  match env.filePat with
  | none => true
  | some _ => sf.paths.any (acceptPath env)

def dummySF : SearchFile := ⟨0, [], [], []⟩

/-- `searcher::accept(const list<search_file*>&)` (lines 187-194),
with files referenced by number into the arena. -/
def acceptList (env : Env) (fnos : List Nat) : Bool :=
  fnos.any (fun n => acceptSF env (env.files.getD n dummySF))

/-- `struct match_group` (lines 764-775): the shared match/line pieces,
the codepoint offsets of the match within the line, and the per-path map
of contexts.  `std::map` iterates keys in sorted order; the claims under
verification are insensitive to that order, so the map is modelled as an
association list in insertion order. -/
structure Group where
  gmatch : Piece
  gline : Piece
  left : Nat
  right : Nat
  gmap : List (String × List MatchContext)

/-- The `match_group` constructor (lines 769-774): codepoint distances
from line start to match start, and across the match. -/
def mkGroup (d : List Byte) (mtch line : Piece) : Group :=
  let left := utf8_distance ((d.drop line.off).take (mtch.off - line.off))
  ⟨mtch, line, left, left + utf8_distance ((d.drop mtch.off).take mtch.len), []⟩

def mapLookup (m : List (String × List MatchContext)) (k : String) : Option (List MatchContext) :=
  match m with
  | [] => none
  | (k0, v0) :: rest => if k0 = k then some v0 else mapLookup rest k

def mapUpdate (m : List (String × List MatchContext)) (k : String)
    (f : List MatchContext → List MatchContext) : List (String × List MatchContext) :=
  match m with
  | [] => []
  | (k0, v0) :: rest => if k0 = k then (k0, f v0) :: rest else (k0, v0) :: mapUpdate rest k f

/-- Append `p` to the `paths` of the last context of a list
(`group->matches[...].back().paths.push_back(*it)`). -/
def pushPathToBack (l : List MatchContext) (p : GitPath) : List MatchContext :=
  match l.getLast? with
  | some c => l.dropLast ++ [{ c with paths := c.paths ++ [p] }]
  | none => l

/-- One iteration of the path loop of `try_match` (lines 940-953): an
unaccepted path is skipped; a first insertion for a path name bumps the
match counter and starts the context list; a later insertion for a
different file identity appends the context; in every case the current
path is recorded on the last context of that path name. -/
def tmStep (env : Env) (sf : SearchFile) (ctx : MatchContext)
    (gs : Group × SState) (p : GitPath) : Group × SState :=
  let (g, s) := gs
  if !acceptPath env p then (g, s)
  else
    match mapLookup g.gmap p.path with
    | none =>
      let s := { s with nmatches := s.nmatches + 1 }
      let g := { g with gmap := g.gmap ++ [(p.path, [ctx])] }
      ({ g with gmap := mapUpdate g.gmap p.path (fun l => pushPathToBack l p) }, s)
    | some l =>
      let g :=
        if (l.getLast?.getD ctx).file ≠ sf.no then
          { g with gmap := mapUpdate g.gmap p.path (fun l0 => l0 ++ [ctx]) }
        else g
      ({ g with gmap := mapUpdate g.gmap p.path (fun l0 => pushPathToBack l0 p) }, s)

/-- The path loop of `try_match` (lines 940-953). -/
def tryMatchPaths (env : Env) (sf : SearchFile) (ctx : MatchContext)
    (acc : Group × SState) : Group × SState :=
  sf.paths.foldl (tmStep env sf ctx) acc

/-- The line-number loop of `try_match` (lines 892-903): walk the file's
content segments; a segment containing the line pointer (same chunk,
`seg.off ≤ line.off ≤ seg.off + seg.len`) contributes the `'\n'` count
up to the line pointer and stops; a passed segment contributes its
`'\n'` count plus one.  Returns the line number and the index of the
containing segment, if any. -/
def lnoLoop (chunksData : List (List Byte)) (line : Piece) :
    List Piece → Nat → Nat → Nat × Option Nat
  | [], lno, _ => (lno, none)
  | seg :: rest, lno, idx =>
    if line.c = seg.c ∧ seg.off ≤ line.off ∧ line.off ≤ seg.off + seg.len then
      (lno + countNL (chunksData.getD seg.c []) seg.off line.off, some idx)
    else
      lnoLoop chunksData line rest
        (lno + countNL (chunksData.getD seg.c []) seg.off (seg.off + seg.len) + 1) (idx + 1)

def dummyPiece : Piece := ⟨0, 0, 0⟩

/-- The `context_before` loop of `try_match` (lines 917-926).  `si` is
the current segment index, `l` the current line piece; when `l` sits at
the segment start, step to the previous segment (stopping at the first).
Each iteration takes the line around position `l.off - 1` (the previous
line's terminator) within the current segment. -/
def ctxBefore (chunksData : List (List Byte)) (content : List Piece) :
    Nat → Nat → Piece → List Piece → List Piece
  | 0, _, _, acc => acc
  | k + 1, si, l, acc =>
    let seg := content.getD si dummyPiece
    if l.c = seg.c ∧ l.off = seg.off then
      if si = 0 then acc
      else
        let si := si - 1
        let seg := content.getD si dummyPiece
        let l := find_line (chunksData.getD seg.c []) seg (seg.off + seg.len + 1 - 1) 0
        ctxBefore chunksData content k si l (acc ++ [l])
    else
      let l := find_line (chunksData.getD seg.c []) seg (l.off - 1) 0
      ctxBefore chunksData content k si l (acc ++ [l])

/-- The `context_after` loop of `try_match` (lines 930-938), symmetric:
when `l` ends at the segment end, step to the next segment (stopping at
the last); each iteration takes the line around position
`l.off + l.len + 1` (just past the terminator).  After a step to segment
`seg` that position is `seg.off` (`it->data() - 1` then `+ 0 + 1`). -/
def ctxAfter (chunksData : List (List Byte)) (content : List Piece) :
    Nat → Nat → Piece → List Piece → List Piece
  | 0, _, _, acc => acc
  | k + 1, si, l, acc =>
    let seg := content.getD si dummyPiece
    if l.c = seg.c ∧ l.off + l.len = seg.off + seg.len then
      if si + 1 = content.length then acc
      else
        let si := si + 1
        let seg := content.getD si dummyPiece
        let l := find_line (chunksData.getD seg.c []) seg seg.off 0
        ctxAfter chunksData content k si l (acc ++ [l])
    else
      let l := find_line (chunksData.getD seg.c []) seg (l.off + l.len + 1) 0
      ctxAfter chunksData content k si l (acc ++ [l])

/-- `searcher::try_match` (lines 887-953): compute the line number by
the segment walk; bail out if no segment contains the line pointer;
build the context; run the path loop. -/
def try_match (env : Env) (g : Group) (line mtch : Piece) (sf : SearchFile)
    (s : SState) : Group × SState :=
  match lnoLoop env.chunksData line sf.content 1 0 with
  | (_, none) => (g, s)
  | (lno, some si) =>
    let ctx : MatchContext :=
      ⟨sf.no, lno,
       ctxBefore env.chunksData sf.content kContextLines si line [],
       ctxAfter env.chunksData sf.content kContextLines si line [], []⟩
    tryMatchPaths env sf ctx (g, s)

/-- `searcher::finish_group` (lines 955-964): one `match_result` per
path name of the group, pushed to the queue. -/
def finish_group (g : Group) (s : SState) : SState :=
  { s with out := (s.out ++ g.gmap.map
      (fun kv => ⟨g.gline, g.left, g.right, kv.2⟩)) }

/-! ## File resolution (`find_match`, lines 777-884) -/

/-- One iteration of the inner file loop shared by both resolvers
(lines 789-797 and 858-865): skip an unaccepted file; check
`exit_early` (whose outcome is persistent once true, so the C++ `break`
is equivalent to skipping the remaining files) and try the match. -/
def vfStep (env : Env) (line mtch : Piece) (gs : Group × SState) (fno : Nat) :
    Group × SState :=
  if !acceptSF env (env.files.getD fno dummySF) then gs
  else
    let es := exit_early env gs.2
    if es.1 then (gs.1, es.2)
    else try_match env gs.1 line mtch (env.files.getD fno dummySF) es.2

/-- The inner file loop of the resolvers. -/
def visitFiles (env : Env) (line mtch : Piece) (fnos : List Nat)
    (gs : Group × SState) : Group × SState :=
  fnos.foldl (vfStep env line mtch) gs

/-- One iteration of the linear record walk of `find_match_brute`
(lines 786-799): a record whose interval contains the line offset has
its files visited. -/
def fmbStep (env : Env) (line mtch : Piece) (loff : Nat)
    (gs : Group × SState) (cf : ChunkFile) : Group × SState :=
  if cf.left ≤ loff ∧ loff ≤ cf.right then visitFiles env line mtch cf.files gs
  else gs

/-- `searcher::find_match_brute` (lines 777-808): linear walk over the
chunk's records, visiting every record whose interval contains the
line's offset. -/
def find_match_brute (env : Env) (chunk : Chunk) (mtch line : Piece)
    (s : SState) : SState :=
  let loff := line.off
  let g := mkGroup chunk.data mtch line
  let gs := chunk.cfiles.foldl (fmbStep env line mtch loff) (g, s)
  finish_group gs.1 gs.2

/-- The chunk-file-tree walk of `find_match` (lines 838-883).  The C++
explicit two-phase stack realizes an in-order traversal with pruning;
popping a frame first checks `exit_reason_`; `loff > right_limit` prunes
the subtree; the left child is always visited, the node itself when
`left ≤ loff ≤ right`, the right child when `loff ≥ left`. -/
def findMatchTree (env : Env) (line mtch : Piece) (loff : Nat) :
    CFTree → Group × SState → Group × SState
  | .nil, gs => gs
  | .node cf l r rl, gs =>
    if gs.2.exitr ≠ .kExitNone then gs
    else if loff > rl then gs
    else
      let gs := findMatchTree env line mtch loff l gs
      let gs :=
        if cf.left ≤ loff ∧ loff ≤ cf.right then visitFiles env line mtch cf.files gs
        else gs
      if cf.left ≤ loff then findMatchTree env line mtch loff r gs else gs

/-- `searcher::find_match` (lines 810-884): brute-force linear walk when
indexing is disabled, chunk-file BST walk otherwise. -/
def find_match (env : Env) (chunk : Chunk) (mtch line : Piece) (s : SState) : SState :=
  if !env.flagIndex then find_match_brute env chunk mtch line s
  else
    let g := mkGroup chunk.data mtch line
    let gs := findMatchTree env line mtch line.off chunk.tree (g, s)
    finish_group gs.1 gs.2

/-! ## Scan-range selection (`next_range`, lines 678-724) -/

def dummyCF : ChunkFile := ⟨0, 0, []⟩

/-- The first loop of `next_range` (lines 690-693): advance the finger
past records that end before `pos` or have no accepted file, while they
start before `maxpos`. -/
def nrSkip (env : Env) (cfs : List ChunkFile) (pos maxpos : Nat) :
    Nat → Nat → Nat
  | 0, it => it
  | fuel + 1, it =>
    match cfs.get? it with
    | none => it
    | some cf =>
      if (cf.right < pos ∨ !acceptList env cf.files) ∧ cf.left < maxpos then
        nrSkip env cfs pos maxpos fuel (it + 1)
      else it

/-- The do-while loop of `next_range` (lines 709-721): absorb adjacent
accepted records into `[.., endpos]`, stopping at a gap of `kMinSkip`,
when the whole range is proven accepted, or past `maxpos`. -/
def nrExtend (env : Env) (cfs : List ChunkFile) (maxpos : Nat) :
    Nat → Nat → Nat → Nat × Nat
  | 0, it, endpos => (it, endpos)
  | fuel + 1, it, endpos =>
    match cfs.get? it with
    | none => (it, endpos)
    | some cf =>
      if cf.left ≥ endpos + kMinSkip then (it, endpos)
      else
        let step : Nat → Nat × Nat := fun ep =>
          let it := it + 1
          match cfs.get? it with
          | none => (it, ep)
          | some cf2 =>
            if cf2.left < maxpos then nrExtend env cfs maxpos fuel it ep
            else (it, ep)
        if cf.right ≥ endpos ∧ acceptList env cf.files then
          let ep := max endpos cf.right
          if ep ≥ maxpos then (it, ep) else step ep
        else step endpos

/-- `searcher::next_range` (lines 678-724).  Returns the advanced finger
and the updated `(pos, endpos)`.  A no-op without a file pattern or with
indexing disabled. -/
def next_range (env : Env) (cfs : List ChunkFile) (finger pos endpos maxpos : Nat) :
    Nat × Nat × Nat :=
  if env.filePat.isNone ∨ !env.flagIndex then (finger, pos, endpos)
  else
    let it := nrSkip env cfs pos maxpos (cfs.length + 1) finger
    match cfs.get? it with
    | none => (it, maxpos, maxpos)
    | some cf =>
      if cf.left ≥ maxpos then (it, maxpos, maxpos)
      else
        let pos := max pos cf.left
        let p := nrExtend env cfs maxpos (cfs.length + 1) it cf.right
        (p.1, pos, min p.2 maxpos)

/-! ## The confirmation scan (`full_search`, lines 726-762 and 672-676) -/

/-- The body of `searcher::full_search(match_finger*, chunk, minpos,
maxpos)` (lines 726-762), with the loop's progress bounded by `fuel`
(the C++ loop asserts strict progress; `maxpos + 1` iterations always
suffice for a well-behaved matcher).  `ci` is the chunk's index (the
identity of its data pointer).  Returns the advanced finger and state. -/
def fsLoop (env : Env) (M : Matcher) (ci : Nat) (chunk : Chunk) (maxpos : Nat) :
    Nat → Nat → Nat → Nat → SState → Nat × SState
  | 0, finger, _, _, s => (finger, s)
  | fuel + 1, finger, pos, endv, s =>
    if pos ≥ maxpos then (finger, s)
    else
      let es := exit_early env s
      if es.1 then (finger, es.2)
      else
        let tri :=
          if pos ≥ endv then next_range env chunk.cfiles finger pos maxpos maxpos
          else (finger, pos, endv)
        if tri.2.1 ≥ maxpos then (tri.1, es.2)
        else
          let limit :=
            if tri.2.2 - tri.2.1 > kMaxScan then line_end chunk.data (tri.2.1 + kMaxScan)
            else tri.2.2
          match M chunk.data tri.2.1 limit with
          | none => fsLoop env M ci chunk maxpos fuel tri.1 (limit + 1) tri.2.2 es.2
          | some (ms, me) =>
            let line := find_line chunk.data ⟨ci, 0, chunk.data.length⟩ ms (me - ms)
            let s2 :=
              if utf8_valid ((chunk.data.drop line.off).take line.len) then
                find_match env chunk ⟨ci, ms, me - ms⟩ line es.2
              else es.2
            fsLoop env M ci chunk maxpos fuel tri.1 (line.off + line.len + 1) tri.2.2 s2

/-- `full_search` over a byte range: `pos` and `end` both start at
`minpos`, so the first iteration computes the range. -/
def full_search_range (env : Env) (M : Matcher) (ci : Nat) (chunk : Chunk)
    (finger minpos maxpos : Nat) (s : SState) : Nat × SState :=
  fsLoop env M ci chunk maxpos (chunk.data.length + 2) finger minpos minpos s

/-- `searcher::full_search(const chunk*)` (lines 672-676): scan the
whole chunk, `[0, size - 1)`, with a fresh finger. -/
def full_search_chunk (env : Env) (M : Matcher) (ci : Nat) (chunk : Chunk)
    (s : SState) : SState :=
  (full_search_range env M ci chunk 0 0 (chunk.data.length - 1) s).2

/-! ## The line search driver (`search_lines`, lines 625-670) -/

/-- The candidate loop of `search_lines` (lines 651-669): `rest` holds
the remaining sorted candidates, `minv`/`maxv` delimit the line range
being grown; a candidate within `kMinSkip` of `maxv` extends the range,
a farther one flushes `[minv, line_end(maxv))` through `full_search`;
the empty case is the trailing `i == count` flush iteration. -/
def slLoop (env : Env) (M : Matcher) (ci : Nat) (chunk : Chunk) :
    List Nat → Nat → Nat → Nat → SState → Nat × SState
  | [], finger, minv, maxv, s =>
    let es := exit_early env s
    if es.1 then (finger, es.2)
    else full_search_range env M ci chunk finger minv (line_end chunk.data maxv) es.2
  | x :: xs, finger, minv, maxv, s =>
    let es := exit_early env s
    if es.1 then (finger, es.2)
    else if x < maxv then slLoop env M ci chunk xs finger minv maxv es.2
    else if x < maxv + kMinSkip then slLoop env M ci chunk xs finger minv x es.2
    else
      let fs := full_search_range env M ci chunk finger minv (line_end chunk.data maxv) es.2
      slLoop env M ci chunk xs fs.1 (line_start chunk.data x) x fs.2

/-- `searcher::search_lines` (lines 625-670): nothing for zero
candidates; full chunk scan when the filter is not selective
(`count * kMinFilterRatio > size`) or, with a file pattern, when the
density comparison of line 638 fires; otherwise sort the candidates
(the external radix sort, modelled by a sort) and run the candidate
loop with a fresh finger. -/
def search_lines (env : Env) (M : Matcher) (ci : Nat) (chunk : Chunk)
    (indexes : List Nat) (count : Nat) (s : SState) : SState :=
  if count = 0 then s
  else if count * kMinFilterRatio > chunk.data.length then
    full_search_chunk env M ci chunk s
  else if env.filePat.isSome && env.densityFallback count chunk.data.length then
    full_search_chunk env M ci chunk s
  else
    match isortBy (fun a b => decide (a ≤ b)) (indexes.take count) with
    | [] => s
    | x0 :: rest =>
      (slLoop env M ci chunk rest 0 (line_start chunk.data x0) x0 s).2

/-! ## The index walker (`filtered_search`, lines 528-616) -/

/-- The regex index key (spec §3): an `empty` flag ("any suffix may
match") and byte ranges `[lo, hi]`, each mapping to a child key.
Modelled from the spec: `IndexKey` lives in `indexer.h`/`indexer.cc`,
which are not part of `src/`. -/
inductive IndexKey where
  | node (emptyf : Bool) (ranges : List (Nat × Nat × IndexKey))

def IndexKey.ranges : IndexKey → List (Nat × Nat × IndexKey)
  | .node _ rs => rs

/-- `IndexKey::empty()` as used by the walker and by `operator()` (spec
§4.2: "if key is empty, or key has no ranges"). -/
def IndexKey.empt : IndexKey → Bool
  | .node e rs => e || rs.isEmpty

/-- `lt_index::operator()` (lines 534-552): compare the `depth`-th byte
of the suffix `sa[i]` against byte value `val`, a stored `'\n'`
comparing below every value.  Out-of-range reads yield `'\n'`, the
terminator (chunk data never runs out before a `'\n'` in real corpora). -/
def ltIdx (d : List Byte) (sa : List Nat) (depth i val : Nat) : Bool :=
  let lc := d.getD (sa.getD i 0 + depth) NL
  if lc = NL then true else decide (lc < val)

/-- `std::lower_bound` over suffix-array index range
`[first, first + len)` with the `lt_index` comparison at `depth`:
halve the range until it is empty (`fuel` bounds the halving; `len`
always suffices since the length strictly shrinks). -/
def lbAux (d : List Byte) (sa : List Nat) (depth val : Nat) :
    Nat → Nat → Nat → Nat
  | 0, first, _ => first
  | fuel + 1, first, len =>
    if len = 0 then first
    else
      let half := len / 2
      if ltIdx d sa depth (first + half) val then
        lbAux d sa depth val fuel (first + half + 1) (len - half - 1)
      else
        lbAux d sa depth val fuel first half

/-- `lower_bound(firstPtr, lastPtr, val, lt)` on suffix-array indices. -/
def lowerB (d : List Byte) (sa : List Nat) (depth val first last : Nat) : Nat :=
  lbAux d sa depth val (last - first) first (last - first)

/-- `struct walk_state` (lines 528-533): a DFS frame over a suffix-array
slice `[l, r)` at byte `depth` with the remaining key. -/
structure WFrame where
  l : Nat
  r : Nat
  key : Option IndexKey
  depth : Nat

mutual

/-- Termination weight of an index key for the DFS: 1 plus, for each
range, its width times the child's weight (the walker pushes at most
one frame per concrete byte of each range). -/
def walkW : IndexKey → Nat
  | .node _ rs => 1 + walkWL rs

/-- Weight of a range list. -/
def walkWL : List (Nat × Nat × IndexKey) → Nat
  | [] => 0
  | (lo, hi, c) :: rest => (hi + 1 - lo) * walkW c + walkWL rest

end

def frameW (fr : WFrame) : Nat :=
  match fr.key with
  | none => 1
  | some k => walkW k

theorem walkW_pos (k : IndexKey) : 1 ≤ walkW k := by
  cases k with
  | node e rs => simp [walkW]

theorem frameW_pos (fr : WFrame) : 1 ≤ frameW fr := by
  unfold frameW
  cases fr.key with
  | none => simp
  | some k => simpa using walkW_pos k

/-- The inner `for (ch = lo; ch <= hi; ...)` loop of `filtered_search`
(lines 603-610): split `[l, rightB)` into equal-byte sub-slices by
`lower_bound(l, rightB, ch + 1)` and emit a frame for each nonempty one
(`width` counts the remaining bytes; the `(unsigned char)` cast of
`ch + 1` is the mod-256 wrap). -/
def chFrames (d : List Byte) (sa : List Nat) (depth : Nat) (child : IndexKey)
    (rightB : Nat) : Nat → Nat → Nat → List WFrame
  | _, _, 0 => []
  | l, ch, width + 1 =>
    let r := lowerB d sa depth ((ch + 1) % 256) l rightB
    (if r ≠ l then [⟨l, r, some child, depth + 1⟩] else [])
      ++ chFrames d sa depth child rightB r (ch + 1) width

/-- The outer range loop of `filtered_search` (lines 582-611): for each
byte range, locate its slice with two `lower_bound`s and push the
per-byte frames; an empty slice is skipped. -/
def keyFrames (d : List Byte) (sa : List Nat) (depth stl str : Nat) :
    List (Nat × Nat × IndexKey) → List WFrame
  | [] => []
  | (lo, hi, child) :: rest =>
    let l := lowerB d sa depth lo stl str
    let rightB := lowerB d sa depth ((hi + 1) % 256) l str
    (if l = rightB then [] else chFrames d sa depth child rightB l lo (hi + 1 - lo))
      ++ keyFrames d sa depth stl str rest

theorem chFrames_weight (d : List Byte) (sa : List Nat) (depth : Nat)
    (child : IndexKey) (rightB : Nat) :
    ∀ width l ch,
      ((chFrames d sa depth child rightB l ch width).map frameW).sum ≤ width * walkW child := by
  intro width
  induction width with
  | zero => intro l ch; simp [chFrames]
  | succ w ih =>
    intro l ch
    simp only [chFrames, List.map_append, List.sum_append]
    have h2 := ih (lowerB d sa depth ((ch + 1) % 256) l rightB) (ch + 1)
    by_cases h : lowerB d sa depth ((ch + 1) % 256) l rightB ≠ l
    · simp only [if_pos h, List.map_cons, List.map_nil, List.sum_cons, List.sum_nil]
      have : frameW ⟨l, lowerB d sa depth ((ch + 1) % 256) l rightB, some child, depth + 1⟩
          = walkW child := rfl
      rw [this]
      calc walkW child + 0 + ((chFrames d sa depth child rightB
              (lowerB d sa depth ((ch + 1) % 256) l rightB) (ch + 1) w).map frameW).sum
          ≤ walkW child + 0 + w * walkW child := by omega
        _ = (w + 1) * walkW child := by ring
    · simp only [if_neg h, List.map_nil, List.sum_nil]
      calc 0 + ((chFrames d sa depth child rightB
              (lowerB d sa depth ((ch + 1) % 256) l rightB) (ch + 1) w).map frameW).sum
          ≤ w * walkW child := by omega
        _ ≤ (w + 1) * walkW child := by
            have := walkW_pos child; nlinarith

theorem keyFrames_weight (d : List Byte) (sa : List Nat) (depth stl str : Nat) :
    ∀ rs, ((keyFrames d sa depth stl str rs).map frameW).sum ≤ walkWL rs := by
  intro rs
  induction rs with
  | nil => simp [keyFrames, walkWL]
  | cons hd rest ih =>
    obtain ⟨lo, hi, child⟩ := hd
    simp only [keyFrames, List.map_append, List.sum_append, walkWL]
    set l := lowerB d sa depth lo stl str with hl
    set rightB := lowerB d sa depth ((hi + 1) % 256) l str with hr
    by_cases h : l = rightB
    · simp only [if_pos h, List.map_nil, List.sum_nil]
      omega
    · simp only [if_neg h]
      have := chFrames_weight d sa depth child rightB (hi + 1 - lo) l lo
      omega

/-- The DFS loop of `filtered_search` (lines 564-612), over the explicit
stack (head is the top, matching the vector's back).  A frame whose key
is absent or empty, or whose slice is at most 100 wide, is copied into
the candidate buffer — unless that would push `count` past the budget
`B`, in which case `count` is set to `B + 1` and the walk stops.
Otherwise the key's ranges generate child frames (pushed in loop order,
hence popped in reverse).  `fuel` bounds the iterations (structural, so
that the walk evaluates in the kernel); the summed frame weight always
suffices, as each iteration strictly decreases it. -/
def walkLoopF (d : List Byte) (sa : List Nat) (B : Nat) :
    Nat → List WFrame → Nat → List Nat → Nat × List Nat
  | 0, _, count, buf => (count, buf)
  | _ + 1, [], count, buf => (count, buf)
  | fuel + 1, fr :: stack, count, buf =>
    match fr.key with
    | none =>
      if count + (fr.r - fr.l) > B then (B + 1, buf)
      else walkLoopF d sa B fuel stack (count + (fr.r - fr.l))
             (buf ++ (sa.drop fr.l).take (fr.r - fr.l))
    | some k =>
      if k.empt || decide (fr.r - fr.l ≤ 100) then
        if count + (fr.r - fr.l) > B then (B + 1, buf)
        else walkLoopF d sa B fuel stack (count + (fr.r - fr.l))
               (buf ++ (sa.drop fr.l).take (fr.r - fr.l))
      else
        walkLoopF d sa B fuel
          ((keyFrames d sa fr.depth fr.l fr.r k.ranges).reverse ++ stack) count buf

/-- The DFS with enough fuel to run to completion: the summed frame
weight strictly decreases at each iteration (`keyFrames_weight`). -/
def walkLoop (d : List Byte) (sa : List Nat) (B : Nat)
    (stack : List WFrame) (count : Nat) (buf : List Nat) : Nat × List Nat :=
  walkLoopF d sa B ((stack.map frameW).sum + 1) stack count buf

/-- `searcher::filtered_search` (lines 555-616): run the walk from the
whole suffix array with budget `B = kChunkSize / kMinFilterRatio`, then
hand the candidates to `search_lines`. -/
def filtered_search (env : Env) (M : Matcher) (ci : Nat) (chunk : Chunk)
    (key : IndexKey) (s : SState) : SState :=
  let B := kChunkSize / kMinFilterRatio
  let cb := walkLoop chunk.data chunk.suffixes B
      [⟨0, chunk.data.length, some key, 0⟩] 0 []
  search_lines env M ci chunk cb.2 cb.1 s

/-! ## Dispatch (`operator()`, lines 517-526) and the driver -/

/-- `searcher::operator()` (lines 517-526): nothing once an exit reason
is set; `filtered_search` only when `--index` is on and the analyzer
produced a non-empty key; otherwise a full scan. -/
def searcher_step (env : Env) (M : Matcher) (idx : Option IndexKey)
    (ci : Nat) (chunk : Chunk) (s : SState) : SState :=
  if s.exitr ≠ .kExitNone then s
  else
    match idx with
    | some k =>
      if env.flagIndex && !k.empt then filtered_search env M ci chunk k s
      else full_search_chunk env M ci chunk s
    | none => full_search_chunk env M ci chunk s

def emptyChunk : Chunk := ⟨[], [], [], .nil⟩

/-- `search_thread::match_internal` (lines 970-1008) under the
sequential scheduling model: each chunk is handed to the searcher in
corpus order; the queue contents are the concatenated per-chunk pushes. -/
def run_search (cor : Corpus) (M : Matcher) (idx : Option IndexKey)
    (fp : Option (String → Bool)) (fi : Bool) (mm : Option Nat)
    (df : Nat → Nat → Bool) : SState :=
  let env : Env := ⟨cor.files, cor.chunks.map Chunk.data, fp, fi, mm, df⟩
  (List.range cor.chunks.length).foldl
    (fun s i => searcher_step env M idx i (cor.chunks.getD i emptyChunk) s)
    SState.init

/-- The `(file number, line number)` pairs carried by the emitted
results. -/
def outPairs (out : List MatchResult) : List (Nat × Nat) :=
  out.flatMap (fun r => r.context.map (fun c => (c.file, c.lno)))

/-! ## Concrete corpora and matchers for the end-to-end scenarios -/

/-- The bytes a piece points at. -/
def pieceBytes (cor : Corpus) (p : Piece) : List Byte :=
  ((cor.chunks.getD p.c emptyChunk).data.drop p.off).take p.len

/-- Leftmost-match scan for a literal byte string (a concrete RE2
instance for the scenarios): the span `[s, s + |t|)` of the first
occurrence of `t` with `s ≥ pos` and end at most `limit`. -/
def scanLit (t d : List Byte) (limit : Nat) : Nat → Nat → Option (Nat × Nat)
  | _, 0 => none
  | s, fuel + 1 =>
    if s + t.length ≤ limit ∧ (List.range t.length).all (fun j => d.getD (s + j) 0 == t.getD j 0)
    then some (s, s + t.length)
    else scanLit t d limit (s + 1) fuel

def litMatcher (t : List Byte) : Matcher :=
  fun d pos limit => scanLit t d limit pos (limit + 1 - pos)

/-- Leftmost-match scan for the regex `"ba."` (`'b'`, `'a'`, then any
byte other than `'\n'`). -/
def scanBaDot (d : List Byte) (limit : Nat) : Nat → Nat → Option (Nat × Nat)
  | _, 0 => none
  | s, fuel + 1 =>
    if s + 3 ≤ limit ∧ d.getD s 0 = 98 ∧ d.getD (s + 1) 0 = 97 ∧ d.getD (s + 2) 0 ≠ NL
    then some (s, s + 3)
    else scanBaDot d limit (s + 1) fuel

def matchBaDot : Matcher := fun d pos limit => scanBaDot d limit pos (limit + 1 - pos)

/-- Scenario (a): the single blob `"foo\nbar\nbaz\n"`. -/
def bytesA : List Byte := [102, 111, 111, 10, 98, 97, 114, 10, 98, 97, 122, 10]

def corpusA : Corpus := code_finalize (update_stats kChunkSize "r" "f" bytesA CState.empty)

/-- A faithful `indexRE` output for `"ba."`: first byte `'b'`, then
`'a'`, then anything. -/
def keyBa : IndexKey := .node false [(98, 98, .node false [(97, 97, .node true [])])]

/-- Scenario (a) run with the default configuration (`--index` on, cap
50, no file pattern), once with the analyzer yielding no key (full
scan) and once with the `"ba."` key (suffix-array walk). -/
def runA : SState := run_search corpusA matchBaDot none none true (some 50) (fun _ _ => false)

def runA2 : SState :=
  run_search corpusA matchBaDot (some keyBa) none true (some 50) (fun _ _ => false)

/-- C2: the corpus `"foo\nbar\nbaz\n"` searched for `"ba."` with no file
filter and `max_matches = 50` emits exactly two matches: line 2 with
line bytes `"bar"` and line 3 with line bytes `"baz"`, each with
`match_left_codepoints = 0` and `match_right_codepoints = 3` — on both
the indexing-disabled path and the suffix-array path. -/
theorem scenario_a_eval :
    (runA.out.map (fun r =>
        (pieceBytes corpusA r.line, r.matchleft, r.matchright,
         r.context.map (fun c => (c.file, c.lno))))
      = [([98, 97, 114], 0, 3, [(0, 2)]), ([98, 97, 122], 0, 3, [(0, 3)])])
    ∧ runA2.out = runA.out := by
  constructor
  · decide
  · decide

/-- The blob `"a\nb\n"` of the segment-coalescing counterexample. -/
def bytesB : List Byte := [97, 10, 98, 10]

def stB : CState := update_stats kChunkSize "r" "f" bytesB CState.empty

/-- C6: ingesting `"a\nb\n"` interns `"a"` at chunk offset 0 (length 1)
and `"b"` at chunk offset 2 (length 1) — byte-adjacent including the
`'\n'` terminator at offset 1 — yet `update_stats` appends a second
segment instead of extending the first: the adjacency test of line 499
compares `back.data() + back.size()` (the terminator position, here 1)
with `line.data()` (here 2) without the `+ 1` for the terminator, so the
claimed coalescing never happens for adjacent lines.  (The `assert` on
line 502, `back.data()[back.size()] == '\n'`, shows the intended test:
the byte between the old segment and the new line is the terminator.) -/
theorem coalesce_bug_eval :
    alookup stB.lines [97] = some (0, 0)
    ∧ alookup stB.lines [98] = some (0, 2)
    ∧ (stB.chunks.getD 0 ⟨[], [], none⟩).bytes = [97, 10, 98, 10]
    ∧ (stB.files.getD 0 dummySF).content = [⟨0, 0, 1⟩, ⟨0, 2, 1⟩] := by
  decide

/-- The blob `"x\n\n\ny\n"` of the line-number counterexample: the two
consecutive empty lines make the buggy adjacency test of line 499 fire
(`back.data() + back.size() == line.data()` holds for the interned empty
line against itself), merging two blob lines into one segment. -/
def bytesC : List Byte := [120, 10, 10, 10, 121, 10]

def corpusC : Corpus := code_finalize (update_stats kChunkSize "r" "f" bytesC CState.empty)

def runC : SState := run_search corpusC (litMatcher [121]) none none true (some 50) (fun _ _ => false)

/-- C3: searching the corpus built from the single blob `"x\n\n\ny\n"`
for `"y"` emits one match whose reported line number is 3, while the
matched line `"y"` starts at blob offset 4 and is preceded by three
`'\n'` bytes, so the number of `'\n'` preceding it plus one is 4: the
segment walk of `try_match` under-counts because the two consecutive
empty blob lines were merged into a single zero-length segment by the
buggy adjacency test of line 499 (see `coalesce_bug_eval`). -/
theorem lno_bug_eval :
    (runC.out.map (fun r =>
        (pieceBytes corpusC r.line, r.context.map (fun c => (c.file, c.lno)))))
      = [([121], [(0, 3)])]
    ∧ 1 + countNL bytesC 0 4 = 4 := by
  constructor
  · decide
  · decide

/-- C9: `update_stats` on a blob containing a NUL byte returns before
touching any state: the whole corpus-builder state is unchanged. -/
theorem nul_skip (cap : Nat) (ref path : String) (B : List Byte) (st : CState)
    (h : B.contains 0 = true) : update_stats cap ref path B st = st := by
  unfold update_stats
  rw [if_pos h]

theorem nul_skip_witness :
    (([0, 97, 10] : List Byte).contains 0 = true)
    ∧ update_stats kChunkSize "r" "f" [0, 97, 10] CState.empty = CState.empty :=
  ⟨by decide, nul_skip kChunkSize "r" "f" [0, 97, 10] CState.empty (by decide)⟩

/-- The corpus of the match-cap counterexample: one blob `"y\n"` ingested
under two path names, so one `search_file` with two paths. -/
def corpusE : Corpus :=
  code_finalize
    (update_stats kChunkSize "r" "b" [121, 10]
      (update_stats kChunkSize "r" "a" [121, 10] CState.empty))

def runE : SState := run_search corpusE (litMatcher [121]) none none true (some 1) (fun _ _ => false)

/-- C5 counterexample: with `max_matches = 1`, searching `"y"` over a
file carrying two path names emits two `match_result`s: the path loop of
`try_match` (lines 940-953) bumps the counter once per new path name
with no cap check in between, and `finish_group` publishes one result
per path name. -/
theorem match_cap_cex : ¬ (runE.out.length ≤ 1) := by decide

/-- C8 counterexample: in `d = "a\nb\n"` the previous `'\n'` before
position 2 is at index 1, so "the position just after the previous
`'\n'`" is 2; `line_start` returns 1, the position of the `'\n'`
itself (`return start - chunk->data;` with no `+ 1`, line 245). -/
theorem line_start_cex :
    memrchr [97, 10, 98, 10] NL 2 = some 1
    ∧ line_start [97, 10, 98, 10] 2 = 1
    ∧ line_start [97, 10, 98, 10] 2 ≠ 2 := by decide

/-! ## Characterization of the scanning primitives -/

theorem memrchr_eq (d : List Byte) (c : Byte) :
    ∀ n, memrchr d c n = ((List.range n).filter (fun i => d.getD i 0 == c)).getLast? := by
  intro n
  induction n with
  | zero => simp [memrchr]
  | succ m ih =>
    rw [List.range_succ, List.filter_append]
    simp only [memrchr]
    by_cases h : d.getD m 0 = c <;>
      [skip; skip] <;> simp only [List.getD, List.get?_eq_getElem?] at h <;>
      simp [h, ih, Option.or]

theorem memchrFrom_eq (d : List Byte) (c : Byte) :
    ∀ rem pos, memchrFrom d c pos rem
      = ((List.range' pos rem).filter (fun i => d.getD i 0 == c)).head? := by
  intro rem
  induction rem with
  | zero => intro pos; simp [memchrFrom, List.range']
  | succ m ih =>
    intro pos
    simp only [memchrFrom, List.range']
    by_cases h : d.getD pos 0 = c <;>
      [skip; skip] <;> simp only [List.getD, List.get?_eq_getElem?] at h <;>
      simp [h, ih, Option.or]

/-- Spec wording: the index of the previous `'\n'` strictly before `x`. -/
def prevNL (d : List Byte) (x : Nat) : Option Nat :=
  ((List.range x).filter (fun i => d.getD i 0 == NL)).getLast?

/-- Spec wording: the index of the next `'\n'` at or after `x` inside
the chunk. -/
def nextNL (d : List Byte) (x : Nat) : Option Nat :=
  ((List.range' x (d.length - x)).filter (fun i => d.getD i 0 == NL)).head?

/-- C8 amended: `line_start x` returns the position OF the previous
`'\n'` before `x` (not the position just after it), or 0 when there is
none; `line_end x` returns, as claimed, the position of the next `'\n'`
at or after `x`, or the chunk size when there is none. -/
theorem line_bounds_amended (d : List Byte) (x : Nat) :
    line_start d x = (prevNL d x).getD 0
    ∧ line_end d x = (nextNL d x).getD d.length := by
  constructor
  · unfold line_start prevNL
    rw [← memrchr_eq]
    cases memrchr d NL x <;> simp
  · unfold line_end nextNL
    rw [← memchrFrom_eq]
    cases memchrFrom d NL x (d.length - x) <;> simp

/-! ## C4: deduplication of identical blobs -/

/-- The content-independent projection of a search file: its number, its
oid and its paths (the line loop of `update_stats` only changes content
segments). -/
def sfKey (sf : SearchFile) : Nat × List Byte × List GitPath := (sf.no, sf.oid, sf.paths)

theorem modifyNth_cons_succ {α : Type} (x : α) (xs : List α) (j : Nat) (f : α → α) :
    modifyNth (x :: xs) (j + 1) f = x :: modifyNth xs j f := by
  unfold modifyNth
  cases h : xs[j]? <;> simp [h]

theorem modifyNth_length {α : Type} (f : α → α) :
    ∀ (l : List α) (i : Nat), (modifyNth l i f).length = l.length := by
  intro l
  induction l with
  | nil => intro i; rfl
  | cons x xs ih =>
    intro i
    cases i with
    | zero => simp [modifyNth]
    | succ j => rw [modifyNth_cons_succ]; simp [ih]

/-- `modifyNth` under a projection the update preserves. -/
theorem modifyNth_map_invariant {α β : Type} (f : α → α) (g : α → β)
    (hg : ∀ x, g (f x) = g x) :
    ∀ (l : List α) (i : Nat), (modifyNth l i f).map g = l.map g := by
  intro l
  induction l with
  | nil => intro i; rfl
  | cons x xs ih =>
    intro i
    cases i with
    | zero => simp [modifyNth, hg]
    | succ j => rw [modifyNth_cons_succ]; simp [ih]

/-- `modifyNth` under an arbitrary projection: the image is the image of
the original with the `i`-th entry replaced. -/
theorem modifyNth_map {α β : Type} (f : α → α) (g : α → β) :
    ∀ (l : List α) (i : Nat) (x : α), l[i]? = some x →
      (modifyNth l i f).map g = (l.map g).set i (g (f x)) := by
  intro l
  induction l with
  | nil => intro i x hx; simp at hx
  | cons y ys ih =>
    intro i x hx
    cases i with
    | zero =>
      simp at hx
      subst hx
      simp [modifyNth]
    | succ j =>
      simp at hx
      rw [modifyNth_cons_succ]
      simp [ih j x hx]

theorem alookup_append_of_none {β : Type} (m₁ m₂ : List (List Byte × β)) (k : List Byte)
    (h : alookup m₁ k = none) : alookup (m₁ ++ m₂) k = alookup m₂ k := by
  induction m₁ with
  | nil => rfl
  | cons kv rest ih =>
    obtain ⟨k0, v0⟩ := kv
    simp only [alookup] at h
    by_cases hk : k0 = k
    · rw [if_pos hk] at h
      exact absurd h (by simp)
    · rw [if_neg hk] at h
      simp only [List.cons_append, alookup, if_neg hk]
      exact ih h

/-- One line-loop iteration touches only content segments, interned
lines, chunks and statistics: file numbers, oids, paths and the file map
are untouched. -/
theorem processLine_preserves (cap n : Nat) (st : CState) (L : List Byte) :
    (processLine cap n st L).files.map sfKey = st.files.map sfKey
    ∧ (processLine cap n st L).fileMap = st.fileMap := by
  unfold processLine
  cases h : alookup st.lines L with
  | none =>
    cases hab : allocBytes cap st.chunks (L ++ [NL]) with
    | mk chunks' rest =>
      cases rest with
      | mk c' off' =>
        simp only [h, hab]
        constructor
        · refine modifyNth_map_invariant _ sfKey ?_ _ n
          intro x
          rfl
        · trivial
  | some coff =>
    cases coff with
    | mk c' off' =>
      simp only [h]
      constructor
      · refine modifyNth_map_invariant _ sfKey ?_ _ n
        intro x
        rfl
      · trivial

theorem foldl_processLine_preserves (cap n : Nat) (Ls : List (List Byte)) :
    ∀ st : CState,
      (Ls.foldl (processLine cap n) st).files.map sfKey = st.files.map sfKey
      ∧ (Ls.foldl (processLine cap n) st).fileMap = st.fileMap := by
  induction Ls with
  | nil => intro st; exact ⟨rfl, rfl⟩
  | cons L rest ih =>
    intro st
    have h1 := processLine_preserves cap n st L
    have h2 := ih (processLine cap n st L)
    exact ⟨h2.1.trans h1.1, h2.2.trans h1.2⟩

theorem foldl_processLine_files (cap n : Nat) (Ls : List (List Byte)) (st : CState) :
    (Ls.foldl (processLine cap n) st).files.map sfKey = st.files.map sfKey :=
  (foldl_processLine_preserves cap n Ls st).1

theorem foldl_processLine_fileMap (cap n : Nat) (Ls : List (List Byte)) (st : CState) :
    (Ls.foldl (processLine cap n) st).fileMap = st.fileMap :=
  (foldl_processLine_preserves cap n Ls st).2

/-- Setting the entry just past a list (appended singleton). -/
theorem set_append_length {α : Type} (b : α) :
    ∀ (A : List α) (a : α), (A ++ [a]).set A.length b = A ++ [b] := by
  intro A
  induction A with
  | nil => intro a; rfl
  | cons x xs ih => intro a; simp [List.set, ih]

/-- Filtering by oid commutes with the `sfKey` projection. -/
theorem filter_map_sfKey (B : List Byte) :
    ∀ l : List SearchFile,
      (l.filter (fun sf => sf.oid == B)).map sfKey
        = (l.map sfKey).filter (fun t => t.2.1 == B) := by
  intro l
  induction l with
  | nil => rfl
  | cons sf rest ih =>
    by_cases h : sf.oid = B
    · simp [sfKey, h, ih]
    · simp [sfKey, h, ih]

/-- The first ingestion of fresh content `B` (no NUL, unknown hash)
appends one search file carrying `(r1, p1)` and registers its hash. -/
theorem update_stats_fresh (cap : Nat) (r1 p1 : String) (B : List Byte) (st : CState)
    (hnul : B.contains 0 = false)
    (hmap : alookup st.fileMap B = none) :
    (update_stats cap r1 p1 B st).files.map sfKey
        = st.files.map sfKey ++ [(st.files.length, B, [⟨r1, p1⟩])]
    ∧ (update_stats cap r1 p1 B st).fileMap = st.fileMap ++ [(B, st.files.length)] := by
  simp only [update_stats, hnul, Bool.false_eq_true, if_false, hmap]
  constructor
  · rw [foldl_processLine_files]
    simp [sfKey]
  · rw [foldl_processLine_fileMap]

/-- C4: ingesting the same byte content twice (under `(r1, p1)` then
`(r2, p2)`, from a state that has not seen that content) leaves exactly
one search file with that content, whose paths are the two ingested
pairs in ingestion order; the second ingestion creates no search file,
interns no line, allocates no chunk bytes and registers no hash. -/
theorem dedup_single_searchfile
    (cap : Nat) (r1 p1 r2 p2 : String) (B : List Byte) (st : CState)
    (hnul : B.contains 0 = false)
    (hmap : alookup st.fileMap B = none)
    (hfiles : ∀ t ∈ st.files.map sfKey, t.2.1 ≠ B) :
    ((update_stats cap r2 p2 B (update_stats cap r1 p1 B st)).files.filter
        (fun sf => sf.oid == B)).map sfKey
      = [(st.files.length, B, [⟨r1, p1⟩, ⟨r2, p2⟩])]
    ∧ (update_stats cap r2 p2 B (update_stats cap r1 p1 B st)).files.length
      = (update_stats cap r1 p1 B st).files.length
    ∧ (update_stats cap r2 p2 B (update_stats cap r1 p1 B st)).lines
      = (update_stats cap r1 p1 B st).lines
    ∧ (update_stats cap r2 p2 B (update_stats cap r1 p1 B st)).chunks
      = (update_stats cap r1 p1 B st).chunks
    ∧ (update_stats cap r2 p2 B (update_stats cap r1 p1 B st)).fileMap
      = (update_stats cap r1 p1 B st).fileMap := by
  obtain ⟨hf1, hm1⟩ := update_stats_fresh cap r1 p1 B st hnul hmap
  set st1 := update_stats cap r1 p1 B st with hst1
  have hn : st.files.length = (st.files.map sfKey).length := (List.length_map _ _).symm
  have hlook : alookup st1.fileMap B = some st.files.length := by
    rw [hm1, alookup_append_of_none _ _ _ hmap]
    simp [alookup]
  have hget : ∃ x, st1.files[st.files.length]? = some x
      ∧ sfKey x = (st.files.length, B, [⟨r1, p1⟩]) := by
    have hmapget : (st1.files.map sfKey)[st.files.length]?
        = some (st.files.length, B, [⟨r1, p1⟩]) := by
      rw [hf1, hn]
      rw [List.getElem?_append_right (Nat.le_refl _)]
      simp
    rw [List.getElem?_map] at hmapget
    cases hx : st1.files[st.files.length]? with
    | none => rw [hx] at hmapget; simp at hmapget
    | some x =>
      rw [hx] at hmapget
      simp at hmapget
      exact ⟨x, rfl, hmapget⟩
  obtain ⟨x, hx, hxkey⟩ := hget
  have e1 : x.no = st.files.length := congrArg Prod.fst hxkey
  have e2 : x.oid = B := congrArg (fun t => t.2.1) hxkey
  have e3 : x.paths = [⟨r1, p1⟩] := congrArg (fun t => t.2.2) hxkey
  -- unfold the second ingestion into the hash-hit branch
  simp only [update_stats, hnul, Bool.false_eq_true, if_false, hlook]
  have hmod := modifyNth_map
      (fun sf => { sf with paths := sf.paths ++ [⟨r2, p2⟩] }) sfKey
      st1.files st.files.length x hx
  have hkey2 : sfKey { x with paths := x.paths ++ [⟨r2, p2⟩] }
      = (st.files.length, B, [⟨r1, p1⟩, ⟨r2, p2⟩]) := by
    simp [sfKey, e1, e2, e3]
  refine ⟨?_, ?_, ?_, ?_, ?_⟩
  · rw [filter_map_sfKey]
    show ((modifyNth st1.files st.files.length _).map sfKey).filter _ = _
    rw [hmod, hkey2, hf1, hn, set_append_length]
    rw [List.filter_append]
    have hA : (st.files.map sfKey).filter (fun t => t.2.1 == B) = [] := by
      rw [List.filter_eq_nil_iff]
      intro t ht
      simpa using hfiles t ht
    rw [hA]
    simp
  · exact modifyNth_length _ _ _
  · trivial
  · trivial
  · trivial

theorem dedup_single_searchfile_witness :
    (([121, 10] : List Byte).contains 0 = false)
    ∧ (alookup CState.empty.fileMap [121, 10] = none)
    ∧ (∀ t ∈ CState.empty.files.map sfKey, t.2.1 ≠ [121, 10])
    ∧ (((update_stats kChunkSize "r2" "b" [121, 10]
          (update_stats kChunkSize "r1" "a" [121, 10] CState.empty)).files.filter
            (fun sf => sf.oid == [121, 10])).map sfKey
        = [(0, [121, 10], [⟨"r1", "a"⟩, ⟨"r2", "b"⟩])]) :=
  ⟨by decide, by decide, by decide,
   (dedup_single_searchfile kChunkSize "r1" "a" "r2" "b" [121, 10] CState.empty
      (by decide) (by decide) (by decide)).1⟩

/-- C10: once no exit reason is pending, the searcher does a full
(unfiltered) scan of the chunk whenever the analyzer produced no
`IndexKey` or an empty one, or the `--index` flag is off; and it invokes
`filtered_search` exactly when the flag is on and a non-empty key
exists. -/
theorem dispatch_full_iff (env : Env) (M : Matcher) (idx : Option IndexKey)
    (ci : Nat) (chunk : Chunk) (s : SState) (hs : s.exitr = .kExitNone) :
    ((idx = none ∨ ∃ k, idx = some k ∧ (k.empt = true ∨ env.flagIndex = false)) →
      searcher_step env M idx ci chunk s = full_search_chunk env M ci chunk s)
    ∧ (∀ k, idx = some k → k.empt = false → env.flagIndex = true →
      searcher_step env M idx ci chunk s = filtered_search env M ci chunk k s) := by
  constructor
  · rintro (h | ⟨k, hk, hcase⟩)
    · subst h
      simp [searcher_step, hs]
    · subst hk
      rcases hcase with he | hf
      · simp [searcher_step, hs, he]
      · simp [searcher_step, hs, hf]
  · intro k hk he hf
    subst hk
    simp [searcher_step, hs, he, hf]

def envW : Env := ⟨[], [], none, true, some 1, fun _ _ => false⟩

theorem dispatch_full_iff_witness :
    SState.init.exitr = .kExitNone
    ∧ searcher_step envW (litMatcher [121]) none 0 emptyChunk SState.init
      = full_search_chunk envW (litMatcher [121]) 0 emptyChunk SState.init :=
  ⟨rfl, (dispatch_full_iff envW (litMatcher [121]) none 0 emptyChunk SState.init rfl).1
          (Or.inl rfl)⟩

/-! ## C5 amended: accounting for the match budget

The match counter `matches_` is incremented exactly once per path name
inserted into a group, and `finish_group` emits exactly one
`match_result` per path name of the group, so the emitted total equals
the final counter value.  The counter is only ever increased inside
`try_match`, which every caller guards with `exit_early`, so each
`try_match` starts below the cap and adds at most the file's number of
paths. -/

theorem mapUpdate_length (k : String) (f : List MatchContext → List MatchContext) :
    ∀ m, (mapUpdate m k f).length = m.length := by
  intro m
  induction m with
  | nil => rfl
  | cons kv rest ih =>
    obtain ⟨k0, v0⟩ := kv
    unfold mapUpdate
    by_cases h : k0 = k <;> simp [h, ih]

theorem exit_early_frame (env : Env) (s : SState) :
    (exit_early env s).2.nmatches = s.nmatches ∧ (exit_early env s).2.out = s.out := by
  unfold exit_early
  split_ifs with h1
  · exact ⟨rfl, rfl⟩
  · cases env.maxMatches with
    | none => exact ⟨rfl, rfl⟩
    | some m =>
      dsimp only
      split_ifs with h2
      · exact ⟨rfl, rfl⟩
      · exact ⟨rfl, rfl⟩

theorem exit_early_false_lt (env : Env) (s : SState) (m : Nat)
    (hm : env.maxMatches = some m) (h : (exit_early env s).1 = false) :
    s.nmatches < m := by
  unfold exit_early at h
  rw [hm] at h
  by_cases h1 : s.exitr ≠ ExitReason.kExitNone
  · rw [if_pos h1] at h
    exact Bool.noConfusion h
  · rw [if_neg h1] at h
    dsimp only at h
    by_cases h2 : m ≤ s.nmatches
    · rw [if_pos h2] at h
      exact Bool.noConfusion h
    · rw [if_neg h2] at h
      omega

theorem tmStep_frame (env : Env) (sf : SearchFile) (ctx : MatchContext)
    (gs : Group × SState) (p : GitPath) :
    (tmStep env sf ctx gs p).2.out = gs.2.out
    ∧ (tmStep env sf ctx gs p).2.exitr = gs.2.exitr
    ∧ (tmStep env sf ctx gs p).2.nmatches + gs.1.gmap.length
        = gs.2.nmatches + (tmStep env sf ctx gs p).1.gmap.length
    ∧ gs.2.nmatches ≤ (tmStep env sf ctx gs p).2.nmatches
    ∧ (tmStep env sf ctx gs p).2.nmatches ≤ gs.2.nmatches + 1 := by
  obtain ⟨g, s⟩ := gs
  unfold tmStep
  by_cases ha : acceptPath env p
  · simp only [ha, Bool.not_true, Bool.false_eq_true, if_false]
    cases hl : mapLookup g.gmap p.path with
    | none =>
      dsimp only
      repeat' apply And.intro
      all_goals first
        | trivial
        | (simp only [mapUpdate_length, List.length_append, List.length_cons,
             List.length_nil]; omega)
        | omega
    | some l =>
      dsimp only
      split_ifs with h2 <;> (repeat' apply And.intro) <;>
        first
          | trivial
          | (simp [mapUpdate_length] <;> omega)
          | omega
  · simp only [ha, Bool.not_false, if_true]
    repeat' apply And.intro
    all_goals first | trivial | omega

theorem pathsFold_frame (env : Env) (sf : SearchFile) (ctx : MatchContext) :
    ∀ (ps : List GitPath) (gs : Group × SState),
      (ps.foldl (tmStep env sf ctx) gs).2.out = gs.2.out
      ∧ (ps.foldl (tmStep env sf ctx) gs).2.exitr = gs.2.exitr
      ∧ (ps.foldl (tmStep env sf ctx) gs).2.nmatches + gs.1.gmap.length
          = gs.2.nmatches + (ps.foldl (tmStep env sf ctx) gs).1.gmap.length
      ∧ gs.2.nmatches ≤ (ps.foldl (tmStep env sf ctx) gs).2.nmatches
      ∧ (ps.foldl (tmStep env sf ctx) gs).2.nmatches ≤ gs.2.nmatches + ps.length := by
  intro ps
  induction ps with
  | nil =>
    intro gs
    exact ⟨rfl, rfl, rfl, Nat.le_refl _, Nat.le_add_right _ _⟩
  | cons p rest ih =>
    intro gs
    rw [List.foldl_cons]
    obtain ⟨o1, e1, n1, l1, u1⟩ := tmStep_frame env sf ctx gs p
    obtain ⟨o2, e2, n2, l2, u2⟩ := ih (tmStep env sf ctx gs p)
    refine ⟨o2.trans o1, e2.trans e1, ?_, ?_, ?_⟩
    · omega
    · omega
    · rw [List.length_cons]
      omega

theorem try_match_frame (env : Env) (g : Group) (line mtch : Piece)
    (sf : SearchFile) (s : SState) :
    (try_match env g line mtch sf s).2.out = s.out
    ∧ (try_match env g line mtch sf s).2.exitr = s.exitr
    ∧ (try_match env g line mtch sf s).2.nmatches + g.gmap.length
        = s.nmatches + (try_match env g line mtch sf s).1.gmap.length
    ∧ s.nmatches ≤ (try_match env g line mtch sf s).2.nmatches
    ∧ (try_match env g line mtch sf s).2.nmatches ≤ s.nmatches + sf.paths.length := by
  unfold try_match
  cases hl : lnoLoop env.chunksData line sf.content 1 0 with
  | mk lno oi =>
    cases oi with
    | none =>
      exact ⟨rfl, rfl, rfl, Nat.le_refl _, Nat.le_add_right _ _⟩
    | some si =>
      exact pathsFold_frame env sf _ sf.paths (g, s)

theorem vfStep_frame (env : Env) (line mtch : Piece) (m P : Nat)
    (hm : env.maxMatches = some m)
    (hPf : ∀ fno : Nat, (env.files.getD fno dummySF).paths.length ≤ P)
    (gs : Group × SState) (fno : Nat) :
    (vfStep env line mtch gs fno).2.out = gs.2.out
    ∧ (vfStep env line mtch gs fno).2.nmatches + gs.1.gmap.length
        = gs.2.nmatches + (vfStep env line mtch gs fno).1.gmap.length
    ∧ gs.2.nmatches ≤ (vfStep env line mtch gs fno).2.nmatches
    ∧ (vfStep env line mtch gs fno).2.nmatches ≤ max gs.2.nmatches (m - 1 + P) := by
  unfold vfStep
  by_cases ha : acceptSF env (env.files.getD fno dummySF)
  · rw [if_neg (by rw [ha]; simp)]
    dsimp only
    obtain ⟨hfn, hfo⟩ := exit_early_frame env gs.2
    by_cases hb : (exit_early env gs.2).1 = true
    · rw [if_pos hb]
      dsimp only
      repeat' apply And.intro
      all_goals first | exact hfo | omega
    · rw [if_neg hb]
      have hb2 : (exit_early env gs.2).1 = false := by
        revert hb
        cases (exit_early env gs.2).1 <;> simp
      have hlt : gs.2.nmatches < m := exit_early_false_lt env gs.2 m hm hb2
      obtain ⟨o1, _, n1, l1, u1⟩ :=
        try_match_frame env gs.1 line mtch (env.files.getD fno dummySF)
          (exit_early env gs.2).2
      have hp := hPf fno
      repeat' apply And.intro
      all_goals first | exact o1.trans hfo | omega
  · have ha2 : acceptSF env (env.files.getD fno dummySF) = false := by
      revert ha
      cases acceptSF env (env.files.getD fno dummySF) <;> simp
    rw [if_pos (by rw [ha2]; rfl)]
    exact ⟨rfl, rfl, Nat.le_refl _, Nat.le_max_left _ _⟩

theorem visitFiles_frame (env : Env) (line mtch : Piece) (m P : Nat)
    (hm : env.maxMatches = some m)
    (hPf : ∀ fno : Nat, (env.files.getD fno dummySF).paths.length ≤ P) :
    ∀ (fnos : List Nat) (gs : Group × SState),
      (visitFiles env line mtch fnos gs).2.out = gs.2.out
      ∧ (visitFiles env line mtch fnos gs).2.nmatches + gs.1.gmap.length
          = gs.2.nmatches + (visitFiles env line mtch fnos gs).1.gmap.length
      ∧ gs.2.nmatches ≤ (visitFiles env line mtch fnos gs).2.nmatches
      ∧ (visitFiles env line mtch fnos gs).2.nmatches
          ≤ max gs.2.nmatches (m - 1 + P) := by
  intro fnos
  induction fnos with
  | nil =>
    intro gs
    exact ⟨rfl, rfl, Nat.le_refl _, Nat.le_max_left _ _⟩
  | cons fno rest ih =>
    intro gs
    unfold visitFiles at ih ⊢
    rw [List.foldl_cons]
    obtain ⟨o1, n1, l1, u1⟩ := vfStep_frame env line mtch m P hm hPf gs fno
    obtain ⟨o2, n2, l2, u2⟩ := ih (vfStep env line mtch gs fno)
    refine ⟨o2.trans o1, ?_, ?_, ?_⟩ <;> omega

theorem fmbFold_frame (env : Env) (line mtch : Piece) (loff : Nat) (m P : Nat)
    (hm : env.maxMatches = some m)
    (hPf : ∀ fno : Nat, (env.files.getD fno dummySF).paths.length ≤ P) :
    ∀ (cfs : List ChunkFile) (gs : Group × SState),
      (cfs.foldl (fmbStep env line mtch loff) gs).2.out = gs.2.out
      ∧ (cfs.foldl (fmbStep env line mtch loff) gs).2.nmatches + gs.1.gmap.length
          = gs.2.nmatches + (cfs.foldl (fmbStep env line mtch loff) gs).1.gmap.length
      ∧ gs.2.nmatches ≤ (cfs.foldl (fmbStep env line mtch loff) gs).2.nmatches
      ∧ (cfs.foldl (fmbStep env line mtch loff) gs).2.nmatches
          ≤ max gs.2.nmatches (m - 1 + P) := by
  intro cfs
  induction cfs with
  | nil =>
    intro gs
    exact ⟨rfl, rfl, Nat.le_refl _, Nat.le_max_left _ _⟩
  | cons cf rest ih =>
    intro gs
    rw [List.foldl_cons]
    have h1 : (fmbStep env line mtch loff gs cf).2.out = gs.2.out
        ∧ (fmbStep env line mtch loff gs cf).2.nmatches + gs.1.gmap.length
            = gs.2.nmatches + (fmbStep env line mtch loff gs cf).1.gmap.length
        ∧ gs.2.nmatches ≤ (fmbStep env line mtch loff gs cf).2.nmatches
        ∧ (fmbStep env line mtch loff gs cf).2.nmatches
            ≤ max gs.2.nmatches (m - 1 + P) := by
      unfold fmbStep
      split_ifs with hc
      · exact visitFiles_frame env line mtch m P hm hPf cf.files gs
      · exact ⟨rfl, rfl, Nat.le_refl _, Nat.le_max_left _ _⟩
    obtain ⟨o1, n1, l1, u1⟩ := h1
    obtain ⟨o2, n2, l2, u2⟩ := ih (fmbStep env line mtch loff gs cf)
    refine ⟨o2.trans o1, ?_, ?_, ?_⟩ <;> omega

theorem findMatchTree_frame (env : Env) (line mtch : Piece) (loff : Nat) (m P : Nat)
    (hm : env.maxMatches = some m)
    (hPf : ∀ fno : Nat, (env.files.getD fno dummySF).paths.length ≤ P) :
    ∀ (t : CFTree) (gs : Group × SState),
      (findMatchTree env line mtch loff t gs).2.out = gs.2.out
      ∧ (findMatchTree env line mtch loff t gs).2.nmatches + gs.1.gmap.length
          = gs.2.nmatches + (findMatchTree env line mtch loff t gs).1.gmap.length
      ∧ gs.2.nmatches ≤ (findMatchTree env line mtch loff t gs).2.nmatches
      ∧ (findMatchTree env line mtch loff t gs).2.nmatches
          ≤ max gs.2.nmatches (m - 1 + P) := by
  intro t
  induction t with
  | nil =>
    intro gs
    exact ⟨rfl, rfl, Nat.le_refl _, Nat.le_max_left _ _⟩
  | node cf l r rl ihl ihr =>
    intro gs
    unfold findMatchTree
    by_cases h1 : gs.2.exitr ≠ ExitReason.kExitNone
    · rw [if_pos h1]
      exact ⟨rfl, rfl, Nat.le_refl _, Nat.le_max_left _ _⟩
    · rw [if_neg h1]
      by_cases hrl : loff > rl
      · rw [if_pos hrl]
        exact ⟨rfl, rfl, Nat.le_refl _, Nat.le_max_left _ _⟩
      · rw [if_neg hrl]
        dsimp only
        obtain ⟨o1, n1, l1, u1⟩ := ihl gs
        have hmid : ∀ gs2 : Group × SState,
            (if cf.left ≤ loff ∧ loff ≤ cf.right
              then visitFiles env line mtch cf.files gs2 else gs2).2.out = gs2.2.out
            ∧ (if cf.left ≤ loff ∧ loff ≤ cf.right
                then visitFiles env line mtch cf.files gs2 else gs2).2.nmatches
                  + gs2.1.gmap.length
                = gs2.2.nmatches + (if cf.left ≤ loff ∧ loff ≤ cf.right
                    then visitFiles env line mtch cf.files gs2 else gs2).1.gmap.length
            ∧ gs2.2.nmatches ≤ (if cf.left ≤ loff ∧ loff ≤ cf.right
                then visitFiles env line mtch cf.files gs2 else gs2).2.nmatches
            ∧ (if cf.left ≤ loff ∧ loff ≤ cf.right
                then visitFiles env line mtch cf.files gs2 else gs2).2.nmatches
                ≤ max gs2.2.nmatches (m - 1 + P) := by
          intro gs2
          by_cases hc : cf.left ≤ loff ∧ loff ≤ cf.right
          · rw [if_pos hc]
            exact visitFiles_frame env line mtch m P hm hPf cf.files gs2
          · rw [if_neg hc]
            exact ⟨rfl, rfl, Nat.le_refl _, Nat.le_max_left _ _⟩
        obtain ⟨o2, n2, l2, u2⟩ := hmid (findMatchTree env line mtch loff l gs)
        have hlast : ∀ gs3 : Group × SState,
            (if cf.left ≤ loff then findMatchTree env line mtch loff r gs3
              else gs3).2.out = gs3.2.out
            ∧ (if cf.left ≤ loff then findMatchTree env line mtch loff r gs3
                else gs3).2.nmatches + gs3.1.gmap.length
                = gs3.2.nmatches + (if cf.left ≤ loff
                    then findMatchTree env line mtch loff r gs3 else gs3).1.gmap.length
            ∧ gs3.2.nmatches ≤ (if cf.left ≤ loff
                then findMatchTree env line mtch loff r gs3 else gs3).2.nmatches
            ∧ (if cf.left ≤ loff then findMatchTree env line mtch loff r gs3
                else gs3).2.nmatches ≤ max gs3.2.nmatches (m - 1 + P) := by
          intro gs3
          by_cases hc : cf.left ≤ loff
          · rw [if_pos hc]
            exact ihr gs3
          · rw [if_neg hc]
            exact ⟨rfl, rfl, Nat.le_refl _, Nat.le_max_left _ _⟩
        obtain ⟨o3, n3, l3, u3⟩ := hlast
          (if cf.left ≤ loff ∧ loff ≤ cf.right
            then visitFiles env line mtch cf.files (findMatchTree env line mtch loff l gs)
            else findMatchTree env line mtch loff l gs)
        refine ⟨(o3.trans o2).trans o1, ?_, ?_, ?_⟩ <;> omega

theorem finish_group_frame (g : Group) (s : SState) :
    (finish_group g s).out.length = s.out.length + g.gmap.length
    ∧ (finish_group g s).nmatches = s.nmatches := by
  unfold finish_group
  constructor
  · simp
  · rfl

theorem mkGroup_gmap (d : List Byte) (mtch line : Piece) :
    (mkGroup d mtch line).gmap = [] := rfl

theorem find_match_frame (env : Env) (chunk : Chunk) (mtch line : Piece)
    (s : SState) (m P : Nat)
    (hm : env.maxMatches = some m)
    (hPf : ∀ fno : Nat, (env.files.getD fno dummySF).paths.length ≤ P) :
    (find_match env chunk mtch line s).out.length + s.nmatches
      = s.out.length + (find_match env chunk mtch line s).nmatches
    ∧ s.nmatches ≤ (find_match env chunk mtch line s).nmatches
    ∧ (find_match env chunk mtch line s).nmatches
        ≤ max s.nmatches (m - 1 + P) := by
  unfold find_match
  by_cases hidx : env.flagIndex
  · rw [if_neg (by rw [hidx]; simp)]
    dsimp only
    set X := findMatchTree env line mtch line.off chunk.tree
      (mkGroup chunk.data mtch line, s) with hX
    obtain ⟨o1, n1, l1, u1⟩ := findMatchTree_frame env line mtch line.off m P hm hPf
      chunk.tree (mkGroup chunk.data mtch line, s)
    rw [← hX] at o1 n1 l1 u1
    dsimp only at o1 n1 l1 u1
    simp only [mkGroup_gmap, List.length_nil] at n1
    obtain ⟨fo, fn⟩ := finish_group_frame X.1 X.2
    have ho1 := congrArg List.length o1
    refine ⟨?_, ?_, ?_⟩ <;> omega
  · have hflag : env.flagIndex = false := by
      revert hidx
      cases env.flagIndex <;> simp
    rw [if_pos (by rw [hflag]; rfl)]
    unfold find_match_brute
    dsimp only
    set X := chunk.cfiles.foldl (fmbStep env line mtch line.off)
      (mkGroup chunk.data mtch line, s) with hX
    obtain ⟨o1, n1, l1, u1⟩ := fmbFold_frame env line mtch line.off m P hm hPf
      chunk.cfiles (mkGroup chunk.data mtch line, s)
    rw [← hX] at o1 n1 l1 u1
    dsimp only at o1 n1 l1 u1
    simp only [mkGroup_gmap, List.length_nil] at n1
    obtain ⟨fo, fn⟩ := finish_group_frame X.1 X.2
    have ho1 := congrArg List.length o1
    refine ⟨?_, ?_, ?_⟩ <;> omega

/-- The per-query invariant: every pushed `match_result` was counted, so
the queue length equals the counter, and the counter respects the
amended budget. -/
def SInv (m P : Nat) (s : SState) : Prop :=
  s.out.length = s.nmatches ∧ s.nmatches ≤ m - 1 + P

theorem exit_early_inv (env : Env) (s : SState) (m P : Nat) (h : SInv m P s) :
    SInv m P (exit_early env s).2 := by
  obtain ⟨hfn, hfo⟩ := exit_early_frame env s
  exact ⟨by rw [hfo, hfn]; exact h.1, by rw [hfn]; exact h.2⟩

theorem find_match_inv (env : Env) (chunk : Chunk) (mtch line : Piece)
    (s : SState) (m P : Nat)
    (hm : env.maxMatches = some m)
    (hPf : ∀ fno : Nat, (env.files.getD fno dummySF).paths.length ≤ P)
    (h : SInv m P s) : SInv m P (find_match env chunk mtch line s) := by
  obtain ⟨e1, l1, u1⟩ := find_match_frame env chunk mtch line s m P hm hPf
  obtain ⟨h1, h2⟩ := h
  constructor <;> omega

theorem fsLoop_inv (env : Env) (M : Matcher) (ci : Nat) (chunk : Chunk)
    (maxpos m P : Nat)
    (hm : env.maxMatches = some m)
    (hPf : ∀ fno : Nat, (env.files.getD fno dummySF).paths.length ≤ P) :
    ∀ (fuel finger pos endv : Nat) (s : SState), SInv m P s →
      SInv m P (fsLoop env M ci chunk maxpos fuel finger pos endv s).2 := by
  intro fuel
  induction fuel with
  | zero => intro finger pos endv s h; exact h
  | succ f ih =>
    intro finger pos endv s h
    show SInv m P (fsLoop env M ci chunk maxpos (f + 1) finger pos endv s).2
    unfold fsLoop
    by_cases h1 : pos ≥ maxpos
    · rw [if_pos h1]
      exact h
    · rw [if_neg h1]
      dsimp only
      have hes := exit_early_inv env s m P h
      by_cases hb : (exit_early env s).1 = true
      · rw [if_pos hb]
        exact hes
      · rw [if_neg hb]
        by_cases h2 : (if pos ≥ endv
            then next_range env chunk.cfiles finger pos maxpos maxpos
            else (finger, pos, endv)).2.1 ≥ maxpos
        · rw [if_pos h2]
          exact hes
        · rw [if_neg h2]
          cases hM : M chunk.data
              (if pos ≥ endv then next_range env chunk.cfiles finger pos maxpos maxpos
                else (finger, pos, endv)).2.1
              (if (if pos ≥ endv then next_range env chunk.cfiles finger pos maxpos maxpos
                    else (finger, pos, endv)).2.2 -
                  (if pos ≥ endv then next_range env chunk.cfiles finger pos maxpos maxpos
                    else (finger, pos, endv)).2.1 > kMaxScan
                then line_end chunk.data
                  ((if pos ≥ endv then next_range env chunk.cfiles finger pos maxpos maxpos
                    else (finger, pos, endv)).2.1 + kMaxScan)
                else (if pos ≥ endv then next_range env chunk.cfiles finger pos maxpos maxpos
                  else (finger, pos, endv)).2.2) with
          | none => exact ih _ _ _ _ hes
          | some sp =>
            cases sp with
            | mk ms me =>
              dsimp only
              by_cases hu : utf8_valid
                  ((chunk.data.drop (find_line chunk.data ⟨ci, 0, chunk.data.length⟩
                      ms (me - ms)).off).take
                    (find_line chunk.data ⟨ci, 0, chunk.data.length⟩ ms (me - ms)).len)
              · rw [if_pos hu]
                exact ih _ _ _ _ (find_match_inv env chunk _ _ _ m P hm hPf hes)
              · rw [if_neg hu]
                exact ih _ _ _ _ hes

theorem full_search_range_inv (env : Env) (M : Matcher) (ci : Nat) (chunk : Chunk)
    (finger minpos maxpos m P : Nat)
    (hm : env.maxMatches = some m)
    (hPf : ∀ fno : Nat, (env.files.getD fno dummySF).paths.length ≤ P)
    (s : SState) (h : SInv m P s) :
    SInv m P (full_search_range env M ci chunk finger minpos maxpos s).2 :=
  fsLoop_inv env M ci chunk maxpos m P hm hPf _ _ _ _ s h

theorem full_search_chunk_inv (env : Env) (M : Matcher) (ci : Nat) (chunk : Chunk)
    (m P : Nat)
    (hm : env.maxMatches = some m)
    (hPf : ∀ fno : Nat, (env.files.getD fno dummySF).paths.length ≤ P)
    (s : SState) (h : SInv m P s) :
    SInv m P (full_search_chunk env M ci chunk s) :=
  full_search_range_inv env M ci chunk 0 0 (chunk.data.length - 1) m P hm hPf s h

theorem slLoop_inv (env : Env) (M : Matcher) (ci : Nat) (chunk : Chunk)
    (m P : Nat)
    (hm : env.maxMatches = some m)
    (hPf : ∀ fno : Nat, (env.files.getD fno dummySF).paths.length ≤ P) :
    ∀ (rest : List Nat) (finger minv maxv : Nat) (s : SState), SInv m P s →
      SInv m P (slLoop env M ci chunk rest finger minv maxv s).2 := by
  intro rest
  induction rest with
  | nil =>
    intro finger minv maxv s h
    unfold slLoop
    dsimp only
    have hes := exit_early_inv env s m P h
    by_cases hb : (exit_early env s).1 = true
    · rw [if_pos hb]
      exact hes
    · rw [if_neg hb]
      exact full_search_range_inv env M ci chunk _ _ _ m P hm hPf _ hes
  | cons x xs ih =>
    intro finger minv maxv s h
    unfold slLoop
    dsimp only
    have hes := exit_early_inv env s m P h
    by_cases hb : (exit_early env s).1 = true
    · rw [if_pos hb]
      exact hes
    · rw [if_neg hb]
      by_cases h2 : x < maxv
      · rw [if_pos h2]
        exact ih _ _ _ _ hes
      · rw [if_neg h2]
        by_cases h3 : x < maxv + kMinSkip
        · rw [if_pos h3]
          exact ih _ _ _ _ hes
        · rw [if_neg h3]
          exact ih _ _ _ _
            (full_search_range_inv env M ci chunk _ _ _ m P hm hPf _ hes)

theorem search_lines_inv (env : Env) (M : Matcher) (ci : Nat) (chunk : Chunk)
    (indexes : List Nat) (count : Nat) (m P : Nat)
    (hm : env.maxMatches = some m)
    (hPf : ∀ fno : Nat, (env.files.getD fno dummySF).paths.length ≤ P)
    (s : SState) (h : SInv m P s) :
    SInv m P (search_lines env M ci chunk indexes count s) := by
  unfold search_lines
  by_cases h0 : count = 0
  · rw [if_pos h0]
    exact h
  · rw [if_neg h0]
    by_cases h1 : count * kMinFilterRatio > chunk.data.length
    · rw [if_pos h1]
      exact full_search_chunk_inv env M ci chunk m P hm hPf s h
    · rw [if_neg h1]
      by_cases h2 : (env.filePat.isSome && env.densityFallback count chunk.data.length) = true
      · rw [if_pos h2]
        exact full_search_chunk_inv env M ci chunk m P hm hPf s h
      · rw [if_neg h2]
        cases isortBy (fun a b => decide (a ≤ b)) (indexes.take count) with
        | nil => exact h
        | cons x0 rest =>
          exact slLoop_inv env M ci chunk m P hm hPf rest 0
            (line_start chunk.data x0) x0 s h

theorem filtered_search_inv (env : Env) (M : Matcher) (ci : Nat) (chunk : Chunk)
    (key : IndexKey) (m P : Nat)
    (hm : env.maxMatches = some m)
    (hPf : ∀ fno : Nat, (env.files.getD fno dummySF).paths.length ≤ P)
    (s : SState) (h : SInv m P s) :
    SInv m P (filtered_search env M ci chunk key s) :=
  search_lines_inv env M ci chunk _ _ m P hm hPf s h

theorem searcher_step_inv (env : Env) (M : Matcher) (idx : Option IndexKey)
    (ci : Nat) (chunk : Chunk) (m P : Nat)
    (hm : env.maxMatches = some m)
    (hPf : ∀ fno : Nat, (env.files.getD fno dummySF).paths.length ≤ P)
    (s : SState) (h : SInv m P s) :
    SInv m P (searcher_step env M idx ci chunk s) := by
  unfold searcher_step
  by_cases h1 : s.exitr ≠ ExitReason.kExitNone
  · rw [if_pos h1]
    exact h
  · rw [if_neg h1]
    cases idx with
    | none => exact full_search_chunk_inv env M ci chunk m P hm hPf s h
    | some k =>
      dsimp only
      by_cases h2 : (env.flagIndex && !k.empt) = true
      · rw [if_pos h2]
        exact filtered_search_inv env M ci chunk k m P hm hPf s h
      · rw [if_neg h2]
        exact full_search_chunk_inv env M ci chunk m P hm hPf s h

/-- C5 amended: the emitted total is at most `max_matches - 1 + P`,
where `P` bounds the number of `(ref, path)` pairs of any single search
file.  (In particular, when every file has one path the budget holds as
originally claimed; `match_cap_cex` shows the original bound fails for
`P = 2`.) -/
theorem match_cap_bound (cor : Corpus) (M : Matcher) (idx : Option IndexKey)
    (fp : Option (String → Bool)) (fi : Bool) (df : Nat → Nat → Bool)
    (m P : Nat)
    (hP : ∀ sf ∈ cor.files, sf.paths.length ≤ P) :
    (run_search cor M idx fp fi (some m) df).out.length ≤ m - 1 + P := by
  unfold run_search
  dsimp only
  have hPf : ∀ fno : Nat,
      ((⟨cor.files, cor.chunks.map Chunk.data, fp, fi, some m, df⟩ : Env).files.getD
        fno dummySF).paths.length ≤ P := by
    intro fno
    show (cor.files.getD fno dummySF).paths.length ≤ P
    rw [List.getD_eq_getElem?_getD]
    cases hx : cor.files[fno]? with
    | none => exact Nat.zero_le _
    | some sf =>
      have hmem : sf ∈ cor.files := by
        have hh := List.getElem?_eq_some_iff.mp hx
        obtain ⟨hlt, hget⟩ := hh
        rw [← hget]
        exact List.getElem_mem hlt
      simpa using hP sf hmem
  have hfold : ∀ (l : List Nat) (s : SState), SInv m P s →
      SInv m P (l.foldl (fun s i => searcher_step
        (⟨cor.files, cor.chunks.map Chunk.data, fp, fi, some m, df⟩ : Env) M idx i
        (cor.chunks.getD i emptyChunk) s) s) := by
    intro l
    induction l with
    | nil => intro s h; exact h
    | cons i rest ih =>
      intro s h
      rw [List.foldl_cons]
      exact ih _ (searcher_step_inv _ M idx i (cor.chunks.getD i emptyChunk)
        m P rfl hPf s h)
  have hfin := hfold (List.range cor.chunks.length) SState.init ⟨rfl, Nat.zero_le _⟩
  obtain ⟨h1, h2⟩ := hfin
  omega

theorem match_cap_bound_witness :
    (∀ sf ∈ corpusE.files, sf.paths.length ≤ 2)
    ∧ (run_search corpusE (litMatcher [121]) none none true (some 1)
        (fun _ _ => false)).out.length ≤ 1 - 1 + 2 :=
  ⟨by decide,
   match_cap_bound corpusE (litMatcher [121]) none none true (fun _ _ => false) 1 2
     (by decide)⟩

/-! ## C7: the index walker's candidate budget -/

theorem lbAux_bounds (d : List Byte) (sa : List Nat) (depth val : Nat) :
    ∀ (fuel first len : Nat),
      first ≤ lbAux d sa depth val fuel first len
      ∧ lbAux d sa depth val fuel first len ≤ first + len := by
  intro fuel
  induction fuel with
  | zero => intro first len; exact ⟨Nat.le_refl _, Nat.le_add_right _ _⟩
  | succ f ih =>
    intro first len
    unfold lbAux
    by_cases h0 : len = 0
    · rw [if_pos h0]
      omega
    · rw [if_neg h0]
      dsimp only
      by_cases hlt : ltIdx d sa depth (first + len / 2) val = true
      · rw [if_pos hlt]
        have := ih (first + len / 2 + 1) (len - len / 2 - 1)
        omega
      · rw [if_neg hlt]
        have := ih first (len / 2)
        omega

theorem lowerB_bounds (d : List Byte) (sa : List Nat) (depth val first last : Nat) :
    first ≤ lowerB d sa depth val first last
    ∧ (first ≤ last → lowerB d sa depth val first last ≤ last) := by
  unfold lowerB
  have := lbAux_bounds d sa depth val (last - first) first (last - first)
  exact ⟨this.1, fun h => by omega⟩

/-- A frame's slice is well formed: within bounds and inside the suffix
array. -/
def frameWF (sa : List Nat) (fr : WFrame) : Prop := fr.l ≤ fr.r ∧ fr.r ≤ sa.length

theorem chFrames_wf (d : List Byte) (sa : List Nat) (depth : Nat) (child : IndexKey)
    (rightB : Nat) :
    ∀ (width l ch : Nat), l ≤ rightB → rightB ≤ sa.length →
      ∀ fr ∈ chFrames d sa depth child rightB l ch width, frameWF sa fr := by
  intro width
  induction width with
  | zero => intro l ch h1 h2 fr hfr; simp [chFrames] at hfr
  | succ w ih =>
    intro l ch h1 h2 fr hfr
    unfold chFrames at hfr
    rw [List.mem_append] at hfr
    have hb := lowerB_bounds d sa depth ((ch + 1) % 256) l rightB
    cases hfr with
    | inl h =>
      by_cases hne : lowerB d sa depth ((ch + 1) % 256) l rightB ≠ l
      · rw [if_pos hne] at h
        simp at h
        subst h
        exact ⟨hb.1, Nat.le_trans (hb.2 h1) h2⟩
      · rw [if_neg hne] at h
        simp at h
    | inr h =>
      exact ih (lowerB d sa depth ((ch + 1) % 256) l rightB) (ch + 1) (hb.2 h1) h2 fr h

theorem keyFrames_wf (d : List Byte) (sa : List Nat) (depth stl str : Nat) :
    ∀ (rs : List (Nat × Nat × IndexKey)), stl ≤ str → str ≤ sa.length →
      ∀ fr ∈ keyFrames d sa depth stl str rs, frameWF sa fr := by
  intro rs
  induction rs with
  | nil => intro h1 h2 fr hfr; simp [keyFrames] at hfr
  | cons hd rest ih =>
    obtain ⟨lo, hi, child⟩ := hd
    intro h1 h2 fr hfr
    unfold keyFrames at hfr
    rw [List.mem_append] at hfr
    have hb1 := lowerB_bounds d sa depth lo stl str
    have hb2 := lowerB_bounds d sa depth ((hi + 1) % 256)
      (lowerB d sa depth lo stl str) str
    cases hfr with
    | inl h =>
      by_cases heq : lowerB d sa depth lo stl str
          = lowerB d sa depth ((hi + 1) % 256) (lowerB d sa depth lo stl str) str
      · rw [if_pos heq] at h
        simp at h
      · rw [if_neg heq] at h
        exact chFrames_wf d sa depth child
          (lowerB d sa depth ((hi + 1) % 256) (lowerB d sa depth lo stl str) str)
          (hi + 1 - lo) (lowerB d sa depth lo stl str) lo
          hb2.1 (Nat.le_trans (hb2.2 (hb1.2 h1)) h2) fr h
    | inr h =>
      exact ih h1 h2 fr h

/-- The budget invariant of the DFS loop: as long as every frame's slice
is well formed, the candidate buffer never exceeds `B` entries, and the
returned count is either the exact number of buffered candidates (and at
most `B`) or the over-budget sentinel `B + 1`. -/
theorem walkLoopF_budget (d : List Byte) (sa : List Nat) (B : Nat) :
    ∀ (fuel : Nat) (stack : List WFrame) (count : Nat) (buf : List Nat),
      (∀ fr ∈ stack, frameWF sa fr) →
      count = buf.length → buf.length ≤ B →
      (walkLoopF d sa B fuel stack count buf).2.length ≤ B
      ∧ ((walkLoopF d sa B fuel stack count buf).1 = B + 1
         ∨ ((walkLoopF d sa B fuel stack count buf).1 ≤ B
            ∧ (walkLoopF d sa B fuel stack count buf).1
              = (walkLoopF d sa B fuel stack count buf).2.length)) := by
  intro fuel
  induction fuel with
  | zero =>
    intro stack count buf hwf hc hb
    exact ⟨hb, Or.inr ⟨Nat.le_trans (Nat.le_of_eq hc) hb, hc⟩⟩
  | succ f ih =>
    intro stack count buf hwf hc hb
    cases stack with
    | nil => exact ⟨hb, Or.inr ⟨Nat.le_trans (Nat.le_of_eq hc) hb, hc⟩⟩
    | cons fr rest =>
      obtain ⟨hfl, hfrr⟩ : fr.l ≤ fr.r ∧ fr.r ≤ sa.length :=
        hwf fr (List.mem_cons_self _ _)
      have hslice : ((sa.drop fr.l).take (fr.r - fr.l)).length = fr.r - fr.l := by
        rw [List.length_take, List.length_drop]
        omega
      show (walkLoopF d sa B (f + 1) (fr :: rest) count buf).2.length ≤ B ∧ _
      unfold walkLoopF
      cases hk : fr.key with
      | none =>
        dsimp only
        by_cases hov : count + (fr.r - fr.l) > B
        · rw [if_pos hov]
          exact ⟨hb, Or.inl rfl⟩
        · rw [if_neg hov]
          apply ih rest _ _ (fun fr2 h2 => hwf fr2 (List.mem_cons_of_mem _ h2))
          · rw [List.length_append, hslice, hc]
          · rw [List.length_append, hslice]
            omega
      | some k =>
        dsimp only
        by_cases hterm : (k.empt || decide (fr.r - fr.l ≤ 100)) = true
        · rw [if_pos hterm]
          by_cases hov : count + (fr.r - fr.l) > B
          · rw [if_pos hov]
            exact ⟨hb, Or.inl rfl⟩
          · rw [if_neg hov]
            apply ih rest _ _ (fun fr2 h2 => hwf fr2 (List.mem_cons_of_mem _ h2))
            · rw [List.length_append, hslice, hc]
            · rw [List.length_append, hslice]
              omega
        · rw [if_neg hterm]
          apply ih _ _ _ _ hc hb
          intro fr2 h2
          rw [List.mem_append] at h2
          cases h2 with
          | inl h3 =>
            rw [List.mem_reverse] at h3
            exact keyFrames_wf d sa fr.depth fr.l fr.r k.ranges hfl hfrr fr2 h3
          | inr h3 => exact hwf fr2 (List.mem_cons_of_mem _ h3)

/-- C7: run from the whole suffix array with the budget
`B = kChunkSize / kMinFilterRatio` of `filtered_search`, the walker
buffers at most `B` candidate positions, and the returned count is
either exact (equal to the number of buffered candidates, at most `B`)
or exactly `B + 1`, the over-budget sentinel set the moment a slice copy
would exceed the budget. -/
theorem walker_budget (chunk : Chunk) (key : IndexKey)
    (hlen : chunk.data.length ≤ chunk.suffixes.length) :
    (walkLoop chunk.data chunk.suffixes (kChunkSize / kMinFilterRatio)
        [⟨0, chunk.data.length, some key, 0⟩] 0 []).2.length
      ≤ kChunkSize / kMinFilterRatio
    ∧ ((walkLoop chunk.data chunk.suffixes (kChunkSize / kMinFilterRatio)
          [⟨0, chunk.data.length, some key, 0⟩] 0 []).1
        = kChunkSize / kMinFilterRatio + 1
       ∨ ((walkLoop chunk.data chunk.suffixes (kChunkSize / kMinFilterRatio)
            [⟨0, chunk.data.length, some key, 0⟩] 0 []).1
          ≤ kChunkSize / kMinFilterRatio
          ∧ (walkLoop chunk.data chunk.suffixes (kChunkSize / kMinFilterRatio)
              [⟨0, chunk.data.length, some key, 0⟩] 0 []).1
            = (walkLoop chunk.data chunk.suffixes (kChunkSize / kMinFilterRatio)
                [⟨0, chunk.data.length, some key, 0⟩] 0 []).2.length)) := by
  apply walkLoopF_budget
  · intro fr hfr
    simp at hfr
    subst hfr
    exact ⟨Nat.zero_le _, hlen⟩
  · rfl
  · exact Nat.zero_le _

theorem walker_budget_witness :
    ((corpusA.chunks.getD 0 emptyChunk).data.length
      ≤ (corpusA.chunks.getD 0 emptyChunk).suffixes.length)
    ∧ (walkLoop (corpusA.chunks.getD 0 emptyChunk).data
          (corpusA.chunks.getD 0 emptyChunk).suffixes (kChunkSize / kMinFilterRatio)
          [⟨0, (corpusA.chunks.getD 0 emptyChunk).data.length, some keyBa, 0⟩] 0 []).2.length
        ≤ kChunkSize / kMinFilterRatio :=
  ⟨by decide, (walker_budget (corpusA.chunks.getD 0 emptyChunk) keyBa (by decide)).1⟩

/-! ## C1: index equivalence.

The development characterizes, for both the indexing-enabled and the
indexing-disabled paths, the set of `(file, line-number)` pairs a chunk
contributes, and shows the two characterizations coincide.  We start
with full specifications of the byte scanners. -/

theorem memrchr_some_spec (d : List Byte) (c : Byte) :
    ∀ n i, memrchr d c n = some i →
      i < n ∧ d.getD i 0 = c ∧ ∀ j, i < j → j < n → d.getD j 0 ≠ c := by
  intro n
  induction n with
  | zero => intro i h; simp [memrchr] at h
  | succ m ih =>
    intro i h
    unfold memrchr at h
    by_cases hm : d.getD m 0 = c
    · rw [if_pos hm] at h
      cases h
      exact ⟨Nat.lt_succ_self m, hm, fun j h1 h2 => by omega⟩
    · rw [if_neg hm] at h
      obtain ⟨h1, h2, h3⟩ := ih i h
      refine ⟨Nat.lt_succ_of_lt h1, h2, fun j hj1 hj2 => ?_⟩
      by_cases hjm : j = m
      · subst hjm; exact hm
      · exact h3 j hj1 (by omega)

theorem memrchr_none_spec (d : List Byte) (c : Byte) :
    ∀ n, memrchr d c n = none → ∀ j, j < n → d.getD j 0 ≠ c := by
  intro n
  induction n with
  | zero => intro _ j hj; omega
  | succ m ih =>
    intro h j hj
    unfold memrchr at h
    by_cases hm : d.getD m 0 = c
    · rw [if_pos hm] at h; simp at h
    · rw [if_neg hm] at h
      by_cases hjm : j = m
      · subst hjm; exact hm
      · exact ih h j (by omega)

theorem memchrFrom_some_spec (d : List Byte) (c : Byte) :
    ∀ rem pos i, memchrFrom d c pos rem = some i →
      pos ≤ i ∧ i < pos + rem ∧ d.getD i 0 = c
      ∧ ∀ j, pos ≤ j → j < i → d.getD j 0 ≠ c := by
  intro rem
  induction rem with
  | zero => intro pos i h; simp [memchrFrom] at h
  | succ m ih =>
    intro pos i h
    unfold memchrFrom at h
    by_cases hp : d.getD pos 0 = c
    · rw [if_pos hp] at h
      cases h
      exact ⟨Nat.le_refl _, by omega, hp, fun j h1 h2 => by omega⟩
    · rw [if_neg hp] at h
      obtain ⟨h1, h2, h3, h4⟩ := ih (pos + 1) i h
      refine ⟨by omega, by omega, h3, fun j hj1 hj2 => ?_⟩
      by_cases hjp : j = pos
      · subst hjp; exact hp
      · exact h4 j (by omega) hj2

theorem memchrFrom_none_spec (d : List Byte) (c : Byte) :
    ∀ rem pos, memchrFrom d c pos rem = none →
      ∀ j, pos ≤ j → j < pos + rem → d.getD j 0 ≠ c := by
  intro rem
  induction rem with
  | zero => intro pos _ j h1 h2; omega
  | succ m ih =>
    intro pos h j h1 h2
    unfold memchrFrom at h
    by_cases hp : d.getD pos 0 = c
    · rw [if_pos hp] at h; simp at h
    · rw [if_neg hp] at h
      by_cases hjp : j = pos
      · subst hjp; exact hp
      · exact ih (pos + 1) h j (by omega) (by omega)

/-- The position one past the previous `'\n'` before `x` (or 0): the
true start of the line containing `x`, as `find_line` computes it for a
base rooted at the chunk start. -/
def flStart (d : List Byte) (x : Nat) : Nat :=
  match memrchr d NL x with
  | some i => i + 1
  | none => 0

theorem line_end_spec (d : List Byte) (pos : Nat) :
    (line_end d pos = d.length ∧ ∀ j, pos ≤ j → j < d.length → d.getD j 0 ≠ NL)
    ∨ (pos ≤ line_end d pos ∧ line_end d pos < d.length
       ∧ d.getD (line_end d pos) 0 = NL
       ∧ ∀ j, pos ≤ j → j < line_end d pos → d.getD j 0 ≠ NL) := by
  unfold line_end
  cases he : memchrFrom d NL pos (d.length - pos) with
  | none =>
    left
    refine ⟨rfl, fun j h1 h2 => ?_⟩
    exact memchrFrom_none_spec d NL _ pos he j h1 (by omega)
  | some i =>
    right
    dsimp only
    obtain ⟨h1, h2, h3, h4⟩ := memchrFrom_some_spec d NL _ pos i he
    have hp : pos ≤ d.length := by
      by_contra hp
      have h0 : d.length - pos = 0 := by omega
      rw [h0] at he
      simp [memchrFrom] at he
    exact ⟨h1, by omega, h3, fun j hj1 hj2 => h4 j hj1 hj2⟩

theorem line_end_ge (d : List Byte) (pos : Nat) (h : pos ≤ d.length) :
    pos ≤ line_end d pos := by
  rcases line_end_spec d pos with ⟨he, _⟩ | ⟨h1, _⟩
  · omega
  · exact h1

theorem line_end_le (d : List Byte) (pos : Nat) : line_end d pos ≤ d.length := by
  rcases line_end_spec d pos with ⟨he, _⟩ | ⟨_, h2, _⟩
  · omega
  · omega

theorem line_end_no_nl (d : List Byte) (pos : Nat) :
    ∀ j, pos ≤ j → j < line_end d pos → d.getD j 0 ≠ NL := by
  intro j h1 h2
  rcases line_end_spec d pos with ⟨he, hno⟩ | ⟨_, _, _, hno⟩
  · exact hno j h1 (by omega)
  · exact hno j h1 h2

theorem line_end_min (d : List Byte) (pos q : Nat) (h1 : pos ≤ q)
    (h2 : d.getD q 0 = NL) : line_end d pos ≤ q := by
  by_contra h
  exact line_end_no_nl d pos q h1 (by omega) h2

theorem line_end_nl_or (d : List Byte) (pos : Nat) :
    line_end d pos = d.length ∨ d.getD (line_end d pos) 0 = NL := by
  rcases line_end_spec d pos with ⟨he, _⟩ | ⟨_, _, h3, _⟩
  · exact Or.inl he
  · exact Or.inr h3

theorem line_end_nl (d : List Byte) (pos : Nat) (h : line_end d pos < d.length) :
    d.getD (line_end d pos) 0 = NL := by
  rcases line_end_nl_or d pos with he | hnl
  · omega
  · exact hnl

theorem line_end_mono (d : List Byte) (pos pos' : Nat) (h : pos ≤ pos')
    (h2 : pos' ≤ d.length) : line_end d pos ≤ line_end d pos' := by
  rcases line_end_spec d pos' with ⟨he, _⟩ | ⟨h1, _, h3, _⟩
  · rw [he]; exact line_end_le d pos
  · exact line_end_min d pos _ (by omega) h3

theorem line_end_congr (d : List Byte) (a b : Nat) (hab : a ≤ b)
    (hb : b ≤ d.length) (hnl : ∀ j, a ≤ j → j < b → d.getD j 0 ≠ NL) :
    line_end d a = line_end d b := by
  have h1 : line_end d a ≤ line_end d b := line_end_mono d a b hab hb
  have h2 : b ≤ line_end d a := by
    by_contra h
    push_neg at h
    have hgea : a ≤ line_end d a := line_end_ge d a (by omega)
    rcases line_end_nl_or d a with he | hnl2
    · omega
    · exact hnl (line_end d a) hgea h hnl2
  have h3 : line_end d b ≤ line_end d a := by
    rcases line_end_nl_or d a with he | hnl2
    · have := line_end_le d b; omega
    · exact line_end_min d b _ h2 hnl2
  omega

theorem flStart_le (d : List Byte) (x : Nat) : flStart d x ≤ x := by
  unfold flStart
  cases he : memrchr d NL x with
  | none => exact Nat.zero_le x
  | some i =>
    dsimp only
    have := (memrchr_some_spec d NL x i he).1
    omega

theorem flStart_no_nl (d : List Byte) (x : Nat) :
    ∀ j, flStart d x ≤ j → j < x → d.getD j 0 ≠ NL := by
  intro j h1 h2
  unfold flStart at h1
  cases he : memrchr d NL x with
  | none => exact memrchr_none_spec d NL x he j h2
  | some i =>
    rw [he] at h1
    dsimp only at h1
    exact (memrchr_some_spec d NL x i he).2.2 j (by omega) h2

theorem flStart_base (d : List Byte) (x : Nat) :
    flStart d x = 0 ∨ (0 < flStart d x ∧ d.getD (flStart d x - 1) 0 = NL) := by
  unfold flStart
  cases he : memrchr d NL x with
  | none => exact Or.inl rfl
  | some i =>
    right
    refine ⟨Nat.succ_pos i, ?_⟩
    simpa using (memrchr_some_spec d NL x i he).2.1

theorem flStart_unique (d : List Byte) (L x : Nat) (hL : L ≤ x)
    (hbase : L = 0 ∨ (0 < L ∧ d.getD (L - 1) 0 = NL))
    (hnl : ∀ j, L ≤ j → j < x → d.getD j 0 ≠ NL) : flStart d x = L := by
  rcases Nat.lt_trichotomy (flStart d x) L with h | h | h
  · rcases hbase with h0 | ⟨hpos, hnlL⟩
    · omega
    · exact absurd hnlL (flStart_no_nl d x (L - 1) (by omega) (by omega))
  · exact h
  · rcases flStart_base d x with h0 | ⟨hpos, hnlF⟩
    · omega
    · have hle := flStart_le d x
      exact absurd hnlF (hnl (flStart d x - 1) (by omega) (by omega))

theorem flStart_of_between (d : List Byte) (x y : Nat) (h1 : x ≤ y)
    (h2 : y ≤ line_end d x) : flStart d y = flStart d x := by
  apply flStart_unique
  · exact Nat.le_trans (flStart_le d x) h1
  · exact flStart_base d x
  · intro j hj1 hj2
    by_cases hjx : j < x
    · exact flStart_no_nl d x j hj1 hjx
    · exact line_end_no_nl d x j (by omega) (by omega)

theorem find_line_whole (d : List Byte) (ci ms mlen : Nat) :
    find_line d ⟨ci, 0, d.length⟩ ms mlen
      = ⟨ci, flStart d ms, line_end d (ms + mlen) - flStart d ms⟩ := by
  unfold find_line flStart line_end
  simp only [Nat.zero_add]
  cases memrchr d NL ms with
  | none => cases memchrFrom d NL (ms + mlen) (d.length - (ms + mlen)) <;> simp
  | some i => cases memchrFrom d NL (ms + mlen) (d.length - (ms + mlen)) <;> simp

/-! ### The candidate sort of `search_lines` -/

theorem isort_insert_mem (x : Nat) (acc : List Nat) (a : Nat) :
    (a ∈ acc.takeWhile (fun y => !decide (x ≤ y))
          ++ x :: acc.dropWhile (fun y => !decide (x ≤ y)))
    ↔ a = x ∨ a ∈ acc := by
  have hsplit : acc.takeWhile (fun y => !decide (x ≤ y))
      ++ acc.dropWhile (fun y => !decide (x ≤ y)) = acc := by simp
  constructor
  · intro h
    rcases List.mem_append.mp h with h1 | h2
    · right; rw [← hsplit]; exact List.mem_append_left _ h1
    · rcases List.mem_cons.mp h2 with h3 | h4
      · exact Or.inl h3
      · right; rw [← hsplit]; exact List.mem_append_right _ h4
  · intro h
    rcases h with h | h
    · subst h; exact List.mem_append_right _ (List.mem_cons_self _ _)
    · rw [← hsplit] at h
      rcases List.mem_append.mp h with h1 | h2
      · exact List.mem_append_left _ h1
      · exact List.mem_append_right _ (List.mem_cons_of_mem _ h2)

theorem isort_insert_sorted (x : Nat) :
    ∀ (acc : List Nat), acc.Pairwise (fun a b => a ≤ b) →
      (acc.takeWhile (fun y => !decide (x ≤ y))
        ++ x :: acc.dropWhile (fun y => !decide (x ≤ y))).Pairwise (fun a b => a ≤ b) := by
  intro acc
  induction acc with
  | nil =>
    intro _
    simp
  | cons b bs ih =>
    intro hp
    rw [List.pairwise_cons] at hp
    by_cases hb : x ≤ b
    · have hcond : (!decide (x ≤ b)) = false := by simp [hb]
      rw [List.takeWhile_cons, List.dropWhile_cons, hcond]
      simp only [Bool.false_eq_true, if_false, List.nil_append]
      rw [List.pairwise_cons]
      constructor
      · intro a ha
        rcases List.mem_cons.mp ha with h1 | h2
        · omega
        · have := hp.1 a h2; omega
      · rw [List.pairwise_cons]
        exact ⟨hp.1, hp.2⟩
    · have hcond : (!decide (x ≤ b)) = true := by simp [hb]
      rw [List.takeWhile_cons, List.dropWhile_cons, hcond]
      simp only [if_true, List.cons_append]
      rw [List.pairwise_cons]
      constructor
      · intro a ha
        rcases (isort_insert_mem x bs a).mp ha with h1 | h2
        · omega
        · exact hp.1 a h2
      · exact ih hp.2

theorem isort_mem (l : List Nat) (a : Nat) :
    a ∈ isortBy (fun a b : Nat => decide (a ≤ b)) l ↔ a ∈ l := by
  unfold isortBy
  induction l with
  | nil => simp
  | cons x xs ih =>
    rw [List.foldr_cons]
    dsimp only
    rw [isort_insert_mem x _ a, List.mem_cons, ih]

theorem isort_sorted (l : List Nat) :
    (isortBy (fun a b : Nat => decide (a ≤ b)) l).Pairwise (fun a b => a ≤ b) := by
  unfold isortBy
  induction l with
  | nil => simp
  | cons x xs ih =>
    rw [List.foldr_cons]
    dsimp only
    exact isort_insert_sorted x _ ih

/-! ### Lower bound on a downward-closed predicate range -/

theorem lbAux_spec (d : List Byte) (sa : List Nat) (depth val : Nat) :
    ∀ (fuel first len : Nat), len ≤ fuel →
      (∀ i j, first ≤ i → i ≤ j → j < first + len →
        ltIdx d sa depth j val = true → ltIdx d sa depth i val = true) →
      (∀ i, first ≤ i → i < lbAux d sa depth val fuel first len →
        ltIdx d sa depth i val = true)
      ∧ (∀ i, lbAux d sa depth val fuel first len ≤ i → i < first + len →
        ltIdx d sa depth i val = false) := by
  intro fuel
  induction fuel with
  | zero =>
    intro first len hf hdc
    have hl : len = 0 := by omega
    subst hl
    simp only [lbAux]
    exact ⟨fun i h1 h2 => by omega, fun i h1 h2 => by omega⟩
  | succ f ih =>
    intro first len hf hdc
    by_cases h0 : len = 0
    · subst h0
      simp only [lbAux, if_pos]
      exact ⟨fun i h1 h2 => by omega, fun i h1 h2 => by omega⟩
    · have hmid : first + len / 2 < first + len := by omega
      by_cases hlt : ltIdx d sa depth (first + len / 2) val = true
      · have hrec := ih (first + len / 2 + 1) (len - len / 2 - 1) (by omega)
          (fun i j h1 h2 h3 h4 => hdc i j (by omega) h2 (by omega) h4)
        have heq : lbAux d sa depth val (f + 1) first len
            = lbAux d sa depth val f (first + len / 2 + 1) (len - len / 2 - 1) := by
          simp only [lbAux]
          rw [if_neg h0, if_pos hlt]
        rw [heq]
        constructor
        · intro i h1 h2
          by_cases hi : i ≤ first + len / 2
          · exact hdc i (first + len / 2) h1 hi hmid hlt
          · exact hrec.1 i (by omega) h2
        · intro i h1 h2
          exact hrec.2 i h1 (by omega)
      · have hrec := ih first (len / 2) (by omega)
          (fun i j h1 h2 h3 h4 => hdc i j h1 h2 (by omega) h4)
        have heq : lbAux d sa depth val (f + 1) first len
            = lbAux d sa depth val f first (len / 2) := by
          simp only [lbAux]
          rw [if_neg h0, if_neg hlt]
        rw [heq]
        constructor
        · exact hrec.1
        · intro i h1 h2
          by_cases hi : i < first + len / 2
          · exact hrec.2 i h1 (by omega)
          · by_contra hne
            have hit : ltIdx d sa depth i val = true := by
              cases hx : ltIdx d sa depth i val
              · exact absurd hx hne
              · rfl
            exact hlt (hdc (first + len / 2) i (by omega) (by omega) h2 hit)

/-! ### The `'\n'`-terminator byte order and the sorted suffix array -/

/-- `'\n'`-terminator byte order: the stored `'\n'` sorts below every
real byte value. -/
def byteOrd (b : Byte) : Nat := if b = NL then 0 else b + 1

/-- The byte at `depth` of the suffix `sa[i]`, as `lt_index` reads it
(returned at type `Nat` so that linear arithmetic applies directly). -/
def byteAt (d : List Byte) (sa : List Nat) (depth i : Nat) : Nat :=
  d.getD (sa.getD i 0 + depth) NL

theorem ltIdx_iff (d : List Byte) (sa : List Nat) (depth i val : Nat) :
    ltIdx d sa depth i val = true ↔ byteOrd (byteAt d sa depth i) < val + 1 := by
  unfold ltIdx byteAt byteOrd
  dsimp only
  by_cases h : d.getD (sa.getD i 0 + depth) NL = NL
  · rw [if_pos h, if_pos h]
    constructor
    · intro _; omega
    · intro _; rfl
  · rw [if_neg h, if_neg h]
    rw [decide_eq_true_eq]
    constructor
    · intro hx
      exact Nat.succ_lt_succ hx
    · intro hx
      exact Nat.lt_of_succ_lt_succ hx

theorem getD_nl_out (d : List Byte) (n : Nat) (h : d.length ≤ n) :
    d.getD n NL = NL := by
  rw [List.getD_eq_getElem?_getD, List.getElem?_eq_none h]
  rfl

theorem getD_in_range (d : List Byte) (n : Nat) (a b : Byte) (h : n < d.length) :
    d.getD n a = d.getD n b := by
  rw [List.getD_eq_getElem?_getD, List.getD_eq_getElem?_getD,
    List.getElem?_eq_getElem h]
  rfl

theorem suffixLEAux_peel (d : List Byte) :
    ∀ (t fuel i j : Nat),
      (∀ u, u < t → d.getD (i + u) NL = d.getD (j + u) NL ∧ d.getD (i + u) NL ≠ NL) →
      suffixLEAux d (t + fuel) i j = suffixLEAux d fuel (i + t) (j + t) := by
  intro t
  induction t with
  | zero => intro fuel i j _; simp
  | succ s ih =>
    intro fuel i j hpre
    have h0 := hpre 0 (Nat.succ_pos s)
    simp only [Nat.add_zero] at h0
    have hstep : s + 1 + fuel = (s + fuel) + 1 := by omega
    rw [hstep]
    simp only [suffixLEAux]
    rw [if_neg h0.2, if_neg (h0.1 ▸ h0.2), ← h0.1,
      if_neg (Nat.lt_irrefl _), if_neg (Nat.lt_irrefl _)]
    have hpre' : ∀ u, u < s →
        d.getD (i + 1 + u) NL = d.getD (j + 1 + u) NL ∧ d.getD (i + 1 + u) NL ≠ NL := by
      intro u hu
      have h := hpre (u + 1) (by omega)
      have e1 : i + (u + 1) = i + 1 + u := by omega
      have e2 : j + (u + 1) = j + 1 + u := by omega
      rw [e1, e2] at h
      exact h
    rw [ih fuel (i + 1) (j + 1) hpre']
    have e3 : i + 1 + s = i + (s + 1) := by omega
    have e4 : j + 1 + s = j + (s + 1) := by omega
    rw [e3, e4]

theorem suffixLEAux_first (d : List Byte) (fuel i j : Nat)
    (h : suffixLEAux d (fuel + 1) i j = true) :
    byteOrd (d.getD i NL) ≤ byteOrd (d.getD j NL) := by
  simp only [suffixLEAux] at h
  unfold byteOrd
  by_cases h1 : d.getD i NL = NL
  · rw [if_pos h1]
    omega
  · rw [if_neg h1]
    rw [if_neg h1] at h
    by_cases h2 : d.getD j NL = NL
    · rw [if_pos h2] at h
      exact absurd h (by simp)
    · rw [if_neg h2]
      rw [if_neg h2] at h
      by_cases h3 : d.getD i NL < d.getD j NL
      · exact Nat.succ_le_succ (Nat.le_of_lt h3)
      · rw [if_neg h3] at h
        by_cases h4 : d.getD j NL < d.getD i NL
        · rw [if_pos h4] at h
          exact absurd h (by simp)
        · have heq : d.getD i NL = d.getD j NL :=
            Nat.le_antisymm (Nat.le_of_not_lt h4) (Nat.le_of_not_lt h3)
          rw [heq]

theorem suffix_byte_mono (d : List Byte) (p q depth : Nat)
    (hle : suffixLE d p q = true)
    (hpre : ∀ u, u < depth →
      d.getD (p + u) NL = d.getD (q + u) NL ∧ d.getD (p + u) NL ≠ NL)
    (hd : depth ≤ d.length) :
    byteOrd (d.getD (p + depth) NL) ≤ byteOrd (d.getD (q + depth) NL) := by
  unfold suffixLE at hle
  have hsplit : d.length + 1 = depth + (d.length + 1 - depth) := by omega
  rw [hsplit, suffixLEAux_peel d depth (d.length + 1 - depth) p q hpre] at hle
  have hpos : d.length + 1 - depth = (d.length - depth) + 1 := by omega
  rw [hpos] at hle
  exact suffixLEAux_first d (d.length - depth) (p + depth) (q + depth) hle

/-- The frames of the suffix-array walk share a common `'\n'`-free
prefix below their depth. -/
def framePre (d : List Byte) (sa : List Nat) (l r depth : Nat) : Prop :=
  ∀ i1 i2, l ≤ i1 → i1 < r → l ≤ i2 → i2 < r →
    ∀ u, u < depth → byteAt d sa u i1 = byteAt d sa u i2 ∧ byteAt d sa u i1 ≠ NL

theorem frame_byte_mono (d : List Byte) (sa : List Nat)
    (hsorted : sa.Pairwise (fun i j => suffixLE d i j = true))
    (l r depth : Nat) (hpre : framePre d sa l r depth) (hr : r ≤ sa.length) :
    ∀ i1 i2, l ≤ i1 → i1 ≤ i2 → i2 < r →
      byteOrd (byteAt d sa depth i1) ≤ byteOrd (byteAt d sa depth i2) := by
  intro i1 i2 h1 h2 h3
  by_cases heq : i1 = i2
  · subst heq; exact Nat.le_refl _
  · have hi1 : i1 < sa.length := by omega
    have hi2 : i2 < sa.length := by omega
    have hle : suffixLE d (sa.getD i1 0) (sa.getD i2 0) = true := by
      have hpw := List.pairwise_iff_getElem.mp hsorted i1 i2 hi1 hi2 (by omega)
      rw [List.getD_eq_getElem?_getD, List.getElem?_eq_getElem hi1,
        List.getD_eq_getElem?_getD, List.getElem?_eq_getElem hi2]
      simpa using hpw
    have hpre' : ∀ u, u < depth →
        d.getD (sa.getD i1 0 + u) NL = d.getD (sa.getD i2 0 + u) NL
        ∧ d.getD (sa.getD i1 0 + u) NL ≠ NL :=
      fun u hu => hpre i1 i2 h1 (by omega) (by omega) h3 u hu
    have hdep : depth ≤ d.length := by
      cases hdd : depth with
      | zero => omega
      | succ k =>
        have hk := (hpre i1 i1 h1 (by omega) h1 (by omega) k (by omega)).2
        unfold byteAt at hk
        by_contra hc
        push_neg at hc
        exact hk (getD_nl_out d _ (by omega))
    exact suffix_byte_mono d (sa.getD i1 0) (sa.getD i2 0) depth hle hpre' hdep

theorem frame_dc (d : List Byte) (sa : List Nat)
    (hsorted : sa.Pairwise (fun i j => suffixLE d i j = true))
    (l r depth : Nat) (hpre : framePre d sa l r depth) (hr : r ≤ sa.length)
    (val : Nat) :
    ∀ i j, l ≤ i → i ≤ j → j < r →
      ltIdx d sa depth j val = true → ltIdx d sa depth i val = true := by
  intro i j h1 h2 h3 h4
  rw [ltIdx_iff] at h4 ⊢
  have := frame_byte_mono d sa hsorted l r depth hpre hr i j h1 h2 h3
  omega

/-! ### The regex index key: conservative acceptance and analyzer
well-formedness -/

/-- The byte of `d` at `n`, read with the `'\n'`-terminator default and
returned at type `Nat` (so linear arithmetic applies directly). -/
def byteD (d : List Byte) (n : Nat) : Nat := d.getD n NL

mutual

/-- Modelled from the spec: a suffix at `p` is accepted by an
`IndexKey` when the node is empty ("any suffix may match here") or some
byte range contains the byte at `p` and its child key accepts the rest
(spec §3). -/
def keyAccB (d : List Byte) : IndexKey → Nat → Bool
  | .node e rs, p => e || keyAccBL d rs p

/-- Range-list part of `keyAccB`. -/
def keyAccBL (d : List Byte) : List (Nat × Nat × IndexKey) → Nat → Bool
  | [], _ => false
  | (lo, hi, c) :: rest, p =>
    (decide (lo ≤ byteD d p) && decide (byteD d p ≤ hi) && keyAccB d c (p + 1))
    || keyAccBL d rest p

end

mutual

/-- Well-formedness of an analyzer key: every range is nonempty, stays
below 255 (so the `(unsigned char)(hi + 1)` of the walker does not
wrap) and excludes the `'\n'` terminator (literals never span lines). -/
def keyWFB : IndexKey → Bool
  | .node _ rs => keyWFBL rs

/-- Range-list part of `keyWFB`. -/
def keyWFBL : List (Nat × Nat × IndexKey) → Bool
  | [] => true
  | (lo, hi, c) :: rest =>
    decide (lo ≤ hi) && decide (hi ≤ 254)
      && (decide (hi + 1 ≤ NL) || decide (lo ≥ NL + 1))
      && keyWFB c && keyWFBL rest

end

theorem keyAccBL_exists (d : List Byte) :
    ∀ (rs : List (Nat × Nat × IndexKey)) (p : Nat), keyAccBL d rs p = true →
      ∃ lo hi c, (lo, hi, c) ∈ rs ∧ lo ≤ byteD d p
        ∧ byteD d p ≤ hi ∧ keyAccB d c (p + 1) = true := by
  intro rs
  induction rs with
  | nil => intro p h; simp [keyAccBL] at h
  | cons hd rest ih =>
    obtain ⟨lo, hi, c⟩ := hd
    intro p h
    simp only [keyAccBL, Bool.or_eq_true, Bool.and_eq_true, decide_eq_true_eq] at h
    rcases h with ⟨⟨h1, h2⟩, h3⟩ | h4
    · exact ⟨lo, hi, c, List.mem_cons_self _ _, h1, h2, h3⟩
    · obtain ⟨lo', hi', c', hm, ha, hb, hc⟩ := ih p h4
      exact ⟨lo', hi', c', List.mem_cons_of_mem _ hm, ha, hb, hc⟩

theorem keyWFBL_mem :
    ∀ (rs : List (Nat × Nat × IndexKey)), keyWFBL rs = true →
      ∀ lo hi c, (lo, hi, c) ∈ rs →
        lo ≤ hi ∧ hi ≤ 254 ∧ (hi + 1 ≤ NL ∨ lo ≥ NL + 1)
        ∧ keyWFB c = true := by
  intro rs
  induction rs with
  | nil => intro _ lo hi c hm; simp at hm
  | cons hd rest ih =>
    obtain ⟨lo0, hi0, c0⟩ := hd
    intro h lo hi c hm
    simp only [keyWFBL, Bool.and_eq_true, Bool.or_eq_true, decide_eq_true_eq] at h
    rcases List.mem_cons.mp hm with hh | ht
    · injection hh with e1 e23
      injection e23 with e2 e3
      subst e1; subst e2; subst e3
      exact ⟨h.1.1.1.1, h.1.1.1.2, h.1.1.2, h.1.2⟩
    · exact ih h.2 lo hi c ht

/-! ### The walker covers every accepted suffix -/

theorem slice_mem (sa : List Nat) (l r ipx : Nat) (h1 : l ≤ ipx) (h2 : ipx < r)
    (h3 : r ≤ sa.length) : sa.getD ipx 0 ∈ (sa.drop l).take (r - l) := by
  obtain ⟨t, rfl⟩ : ∃ t, ipx = l + t := ⟨ipx - l, by omega⟩
  have hx : l + t < sa.length := by omega
  have hlen : ((sa.drop l).take (r - l)).length = r - l := by
    rw [List.length_take, List.length_drop]
    omega
  have hidx : t < ((sa.drop l).take (r - l)).length := by omega
  refine List.mem_iff_getElem.mpr ⟨t, hidx, ?_⟩
  rw [List.getElem_take, List.getElem_drop]
  rw [List.getD_eq_getElem?_getD, List.getElem?_eq_getElem hx]
  rfl

theorem chFrames_covers (d : List Byte) (sa : List Nat) (depth : Nat)
    (child : IndexKey) (rightB : Nat) :
    ∀ (width cur ch ip : Nat),
      (∀ i j, cur ≤ i → i ≤ j → j < rightB →
        byteOrd (byteAt d sa depth i) ≤ byteOrd (byteAt d sa depth j)) →
      (∀ i, cur ≤ i → i < rightB →
        byteAt d sa depth i ≠ NL ∧ ch ≤ byteAt d sa depth i
        ∧ byteAt d sa depth i < ch + width) →
      ch + width ≤ 255 →
      cur ≤ ip → ip < rightB →
      ∃ lc rc, lc ≤ ip ∧ ip < rc ∧ cur ≤ lc ∧ rc ≤ rightB
        ∧ (⟨lc, rc, some child, depth + 1⟩ : WFrame)
            ∈ chFrames d sa depth child rightB cur ch width
        ∧ ∀ i, lc ≤ i → i < rc → byteAt d sa depth i = byteAt d sa depth ip := by
  intro width
  induction width with
  | zero =>
    intro cur ch ip hmono hlow h255 hip1 hip2
    have := (hlow ip hip1 hip2).2
    omega
  | succ w ih =>
    intro cur ch ip hmono hlow h255 hip1 hip2
    have hmod : (ch + 1) % 256 = ch + 1 := Nat.mod_eq_of_lt (by omega)
    have hcr : cur ≤ rightB := by omega
    have hspec := lbAux_spec d sa depth ((ch + 1) % 256) (rightB - cur) cur
      (rightB - cur) (Nat.le_refl _)
      (fun i j h1 h2 h3 h4 => by
        rw [ltIdx_iff] at h4 ⊢
        have := hmono i j h1 h2 (by omega)
        omega)
    have hlb : lowerB d sa depth ((ch + 1) % 256) cur rightB
        = lbAux d sa depth ((ch + 1) % 256) (rightB - cur) cur (rightB - cur) := rfl
    have htrue : ∀ i, cur ≤ i → i < lowerB d sa depth ((ch + 1) % 256) cur rightB →
        ltIdx d sa depth i ((ch + 1) % 256) = true := by
      rw [hlb]
      exact fun i hh1 hh2 => hspec.1 i hh1 hh2
    have hfalse : ∀ i, lowerB d sa depth ((ch + 1) % 256) cur rightB ≤ i →
        i < rightB → ltIdx d sa depth i ((ch + 1) % 256) = false := by
      intro i hh1 hh2
      rw [hlb] at hh1
      exact hspec.2 i hh1 (by omega)
    have hb := lowerB_bounds d sa depth ((ch + 1) % 256) cur rightB
    by_cases hbc : byteAt d sa depth ip = ch
    · -- `ip` lies in the frame for byte `ch`
      have hbne := (hlow ip hip1 hip2).1
      have hbo : byteOrd (byteAt d sa depth ip) = byteAt d sa depth ip + 1 := by
        unfold byteOrd
        rw [if_neg hbne]
      have hipr : ip < lowerB d sa depth ((ch + 1) % 256) cur rightB := by
        by_contra hc
        push_neg at hc
        have hf := hfalse ip hc hip2
        have hcontra : ltIdx d sa depth ip ((ch + 1) % 256) = true := by
          rw [ltIdx_iff, hmod, hbo]
          omega
        rw [hf] at hcontra
        exact absurd hcontra (by simp)
      have hne' : lowerB d sa depth ((ch + 1) % 256) cur rightB ≠ cur := by omega
      refine ⟨cur, lowerB d sa depth ((ch + 1) % 256) cur rightB, hip1, hipr,
        Nat.le_refl _, hb.2 hcr, ?_, ?_⟩
      · simp only [chFrames]
        apply List.mem_append_left
        rw [if_pos hne']
        exact List.mem_cons_self _ _
      · intro i hi1 hi2
        have hl := hlow i hi1 (by omega)
        have ht := htrue i hi1 hi2
        rw [ltIdx_iff, hmod] at ht
        have hbo2 : byteOrd (byteAt d sa depth i) = byteAt d sa depth i + 1 := by
          unfold byteOrd
          rw [if_neg hl.1]
        omega
    · -- `ip`'s byte is above `ch`: recurse into the tail frames
      have hgt : ch < byteAt d sa depth ip := by
        have := (hlow ip hip1 hip2).2.1
        omega
      have hbne := (hlow ip hip1 hip2).1
      have hbo : byteOrd (byteAt d sa depth ip) = byteAt d sa depth ip + 1 := by
        unfold byteOrd
        rw [if_neg hbne]
      have hipge : lowerB d sa depth ((ch + 1) % 256) cur rightB ≤ ip := by
        by_contra hc
        push_neg at hc
        have ht := htrue ip hip1 hc
        rw [ltIdx_iff, hmod, hbo] at ht
        omega
      have hrec := ih (lowerB d sa depth ((ch + 1) % 256) cur rightB) (ch + 1) ip
        (fun i j h1 h2 h3 => hmono i j (by omega) h2 h3)
        (fun i h1 h2 => by
          have hl := hlow i (by omega) h2
          have hf := hfalse i h1 h2
          have hbo2 : byteOrd (byteAt d sa depth i) = byteAt d sa depth i + 1 := by
            unfold byteOrd
            rw [if_neg hl.1]
          have hnot : ¬ (byteOrd (byteAt d sa depth i) < ch + 2) := by
            intro hcon
            have hcontra : ltIdx d sa depth i ((ch + 1) % 256) = true := by
              rw [ltIdx_iff, hmod]
              exact hcon
            rw [hf] at hcontra
            exact absurd hcontra (by simp)
          exact ⟨hl.1, by omega, by omega⟩)
        (by omega) hipge hip2
    -- repackage
      obtain ⟨lc, rc, hl1, hl2, hl3, hl4, hl5, hl6⟩ := hrec
      refine ⟨lc, rc, hl1, hl2, by omega, hl4, ?_, hl6⟩
      simp only [chFrames]
      exact List.mem_append_right _ hl5

theorem keyFrames_covers (d : List Byte) (sa : List Nat) (depth stl str : Nat)
    (hsorted : sa.Pairwise (fun i j => suffixLE d i j = true))
    (hpre : framePre d sa stl str depth) (hlen : str ≤ sa.length) :
    ∀ (rs : List (Nat × Nat × IndexKey)) (lo hi : Nat) (child : IndexKey),
      (lo, hi, child) ∈ rs →
      ∀ ip, stl ≤ ip → ip < str →
      lo ≤ byteAt d sa depth ip → byteAt d sa depth ip ≤ hi →
      byteAt d sa depth ip ≠ NL →
      hi ≤ 254 →
      ∃ lc rc, lc ≤ ip ∧ ip < rc ∧ stl ≤ lc ∧ rc ≤ str
        ∧ (⟨lc, rc, some child, depth + 1⟩ : WFrame)
            ∈ keyFrames d sa depth stl str rs
        ∧ ∀ i, lc ≤ i → i < rc → byteAt d sa depth i = byteAt d sa depth ip := by
  intro rs
  induction rs with
  | nil =>
    intro lo hi child hmem
    simp at hmem
  | cons hd rest ih =>
    obtain ⟨lo0, hi0, c0⟩ := hd
    intro lo hi child hmem ip hip1 hip2 hblo hbhi hbne h254
    rcases List.mem_cons.mp hmem with hhd | hrest
    · -- the head range is ours
      injection hhd with e1 e23
      injection e23 with e2 e3
      subst e1; subst e2; subst e3
      have hss : stl ≤ str := by omega
      have hmod : (hi + 1) % 256 = hi + 1 := Nat.mod_eq_of_lt (by omega)
      have hbo : byteOrd (byteAt d sa depth ip) = byteAt d sa depth ip + 1 := by
        unfold byteOrd
        rw [if_neg hbne]
      -- lower bound for `lo` over [stl, str)
      have hspec1 := lbAux_spec d sa depth lo (str - stl) stl (str - stl)
        (Nat.le_refl _)
        (fun i j h1 h2 h3 h4 =>
          frame_dc d sa hsorted stl str depth hpre hlen lo i j h1 h2 (by omega) h4)
      have hlb1 : lowerB d sa depth lo stl str
          = lbAux d sa depth lo (str - stl) stl (str - stl) := rfl
      have hb1 := lowerB_bounds d sa depth lo stl str
      have htrue1 : ∀ i, stl ≤ i → i < lowerB d sa depth lo stl str →
          ltIdx d sa depth i lo = true := by
        rw [hlb1]
        exact fun i hh1 hh2 => hspec1.1 i hh1 hh2
      have hfalse1 : ∀ i, lowerB d sa depth lo stl str ≤ i → i < str →
          ltIdx d sa depth i lo = false := by
        intro i hh1 hh2
        rw [hlb1] at hh1
        exact hspec1.2 i hh1 (by omega)
      have hipge : lowerB d sa depth lo stl str ≤ ip := by
        by_contra hc
        push_neg at hc
        have ht := htrue1 ip hip1 hc
        rw [ltIdx_iff, hbo] at ht
        omega
      -- lower bound for `hi + 1` over [l0, str)
      have hl0s : lowerB d sa depth lo stl str ≤ str := hb1.2 hss
      have hspec2 := lbAux_spec d sa depth ((hi + 1) % 256)
        (str - lowerB d sa depth lo stl str) (lowerB d sa depth lo stl str)
        (str - lowerB d sa depth lo stl str) (Nat.le_refl _)
        (fun i j h1 h2 h3 h4 =>
          frame_dc d sa hsorted stl str depth hpre hlen ((hi + 1) % 256) i j
            (by omega) h2 (by omega) h4)
      have hlb2 : lowerB d sa depth ((hi + 1) % 256) (lowerB d sa depth lo stl str) str
          = lbAux d sa depth ((hi + 1) % 256) (str - lowerB d sa depth lo stl str)
              (lowerB d sa depth lo stl str) (str - lowerB d sa depth lo stl str) := rfl
      have hb2 := lowerB_bounds d sa depth ((hi + 1) % 256)
        (lowerB d sa depth lo stl str) str
      have htrue2 : ∀ i, lowerB d sa depth lo stl str ≤ i →
          i < lowerB d sa depth ((hi + 1) % 256) (lowerB d sa depth lo stl str) str →
          ltIdx d sa depth i ((hi + 1) % 256) = true := by
        rw [hlb2]
        exact fun i hh1 hh2 => hspec2.1 i hh1 hh2
      have hfalse2 : ∀ i,
          lowerB d sa depth ((hi + 1) % 256) (lowerB d sa depth lo stl str) str ≤ i →
          i < str → ltIdx d sa depth i ((hi + 1) % 256) = false := by
        intro i hh1 hh2
        rw [hlb2] at hh1
        exact hspec2.2 i hh1 (by omega)
      have hiplt : ip < lowerB d sa depth ((hi + 1) % 256)
          (lowerB d sa depth lo stl str) str := by
        by_contra hc
        push_neg at hc
        have hf := hfalse2 ip hc hip2
        have hcontra : ltIdx d sa depth ip ((hi + 1) % 256) = true := by
          rw [ltIdx_iff, hmod, hbo]
          omega
        rw [hf] at hcontra
        exact absurd hcontra (by simp)
      have hlo_le_hi : lo ≤ hi := by omega
      -- the per-byte frames
      have hcov := chFrames_covers d sa depth child
        (lowerB d sa depth ((hi + 1) % 256) (lowerB d sa depth lo stl str) str)
        (hi + 1 - lo) (lowerB d sa depth lo stl str) lo ip
        (fun i j h1 h2 h3 =>
          frame_byte_mono d sa hsorted stl str depth hpre hlen i j (by omega) h2
            (by omega))
        (fun i h1 h2 => by
          have hf1 := hfalse1 i h1 (by omega)
          have ht2 := htrue2 i h1 h2
          rw [ltIdx_iff, hmod] at ht2
          have hne : byteAt d sa depth i ≠ NL := by
            intro hnl
            have : byteOrd (byteAt d sa depth i) = 0 := by
              unfold byteOrd
              rw [if_pos hnl]
            have hcontra : ltIdx d sa depth i lo = true := by
              rw [ltIdx_iff, this]
              omega
            rw [hf1] at hcontra
            exact absurd hcontra (by simp)
          have hbo2 : byteOrd (byteAt d sa depth i) = byteAt d sa depth i + 1 := by
            unfold byteOrd
            rw [if_neg hne]
          have hge : lo ≤ byteAt d sa depth i := by
            by_contra hc
            push_neg at hc
            have hcontra : ltIdx d sa depth i lo = true := by
              rw [ltIdx_iff, hbo2]
              omega
            rw [hf1] at hcontra
            exact absurd hcontra (by simp)
          exact ⟨hne, hge, by omega⟩)
        (by omega) hipge hiplt
      obtain ⟨lc, rc, hl1, hl2, hl3, hl4, hl5, hl6⟩ := hcov
      have hneq : lowerB d sa depth lo stl str
          ≠ lowerB d sa depth ((hi + 1) % 256) (lowerB d sa depth lo stl str) str := by
        omega
      refine ⟨lc, rc, hl1, hl2, by omega, by omega, ?_, hl6⟩
      simp only [keyFrames]
      apply List.mem_append_left
      rw [if_neg hneq]
      exact hl5
    · obtain ⟨lc, rc, hl1, hl2, hl3, hl4, hl5, hl6⟩ :=
        ih lo hi child hrest ip hip1 hip2 hblo hbhi hbne h254
      refine ⟨lc, rc, hl1, hl2, hl3, hl4, ?_, hl6⟩
      simp only [keyFrames]
      exact List.mem_append_right _ hl5

theorem walkW_node (e : Bool) (rs : List (Nat × Nat × IndexKey)) :
    walkW (.node e rs) = 1 + walkWL rs := by
  rw [walkW]

theorem stack_weight_tail (fr : WFrame) (rest : List WFrame) (f : Nat)
    (h : (((fr :: rest).map frameW).sum) < f + 1) : ((rest.map frameW).sum) < f := by
  simp only [List.map_cons, List.sum_cons] at h
  have := frameW_pos fr
  omega

theorem stack_weight_expand (d : List Byte) (sa : List Nat) (fr : WFrame)
    (k : IndexKey) (rest : List WFrame) (f : Nat) (hk : fr.key = some k)
    (h : (((fr :: rest).map frameW).sum) < f + 1) :
    (((((keyFrames d sa fr.depth fr.l fr.r k.ranges).reverse ++ rest).map
        frameW).sum) < f) := by
  simp only [List.map_append, List.sum_append, List.map_reverse, List.sum_reverse]
  have hkw := keyFrames_weight d sa fr.depth fr.l fr.r k.ranges
  have hfw : frameW fr = walkW k := by
    unfold frameW
    rw [hk]
  have hwk : walkW k = 1 + walkWL k.ranges := by
    cases k with
    | node e rs => rw [walkW_node]; rfl
  simp only [List.map_cons, List.sum_cons] at h
  omega

/-- Conservativeness of the DFS walk: a suffix-array position accepted
by the key of some stack frame that contains it (with the frame's
common-prefix invariant) ends up in the candidate buffer, unless the
walk aborts over budget. -/
theorem walkLoopF_conservative (d : List Byte) (sa : List Nat) (B : Nat)
    (hsorted : sa.Pairwise (fun i j => suffixLE d i j = true)) (p : Nat) :
    ∀ (fuel : Nat) (stack : List WFrame) (count : Nat) (buf : List Nat),
      (((stack.map frameW).sum) < fuel) →
      (p ∈ buf ∨ ∃ fr ∈ stack, ∃ k, fr.key = some k ∧ keyWFB k = true
        ∧ keyAccB d k (p + fr.depth) = true
        ∧ (∃ ipx, fr.l ≤ ipx ∧ ipx < fr.r ∧ sa.getD ipx 0 = p)
        ∧ fr.r ≤ sa.length
        ∧ framePre d sa fr.l fr.r fr.depth) →
      (walkLoopF d sa B fuel stack count buf).1 = B + 1
      ∨ p ∈ (walkLoopF d sa B fuel stack count buf).2 := by
  intro fuel
  induction fuel with
  | zero =>
    intro stack count buf hfuel hinv
    exact absurd hfuel (Nat.not_lt_zero _)
  | succ f ih =>
    intro stack count buf hfuel hinv
    cases stack with
    | nil =>
      rcases hinv with hbuf | ⟨fr, hfr, _⟩
      · right
        simp only [walkLoopF]
        exact hbuf
      · simp at hfr
    | cons fr rest =>
      rcases hinv with hbuf | ⟨fr0, hfr0, k0, hk0, hwf0, hacc0, hcont0, hrlen0, hpre0⟩
      · -- the target is already buffered
        simp only [walkLoopF]
        cases hk : fr.key with
        | none =>
          dsimp only
          by_cases hov : count + (fr.r - fr.l) > B
          · rw [if_pos hov]
            exact Or.inl rfl
          · rw [if_neg hov]
            exact ih rest _ _ (stack_weight_tail fr rest f hfuel)
              (Or.inl (List.mem_append_left _ hbuf))
        | some k =>
          dsimp only
          by_cases hterm : (k.empt || decide (fr.r - fr.l ≤ 100)) = true
          · rw [if_pos hterm]
            by_cases hov : count + (fr.r - fr.l) > B
            · rw [if_pos hov]
              exact Or.inl rfl
            · rw [if_neg hov]
              exact ih rest _ _ (stack_weight_tail fr rest f hfuel)
                (Or.inl (List.mem_append_left _ hbuf))
          · rw [if_neg hterm]
            exact ih _ _ _ (stack_weight_expand d sa fr k rest f hk hfuel)
              (Or.inl hbuf)
      · rcases List.mem_cons.mp hfr0 with hfrh | hfrt
        · -- the popped frame is the target frame
          subst hfrh
          obtain ⟨ipx, hip1, hip2, hipp⟩ := hcont0
          simp only [walkLoopF]
          rw [hk0]
          dsimp only
          by_cases hterm : (k0.empt || decide (fr0.r - fr0.l ≤ 100)) = true
          · -- terminal frame: the whole slice (containing p) is copied
            rw [if_pos hterm]
            by_cases hov : count + (fr0.r - fr0.l) > B
            · rw [if_pos hov]
              exact Or.inl rfl
            · rw [if_neg hov]
              apply ih rest _ _ (stack_weight_tail fr0 rest f hfuel)
              left
              apply List.mem_append_right
              have := slice_mem sa fr0.l fr0.r ipx hip1 hip2 hrlen0
              rw [hipp] at this
              exact this
          · -- descend: some range of `k0` re-captures `p`
            rw [if_neg hterm]
            have hke : k0.empt = false := by
              cases hx : k0.empt
              · rfl
              · rw [hx] at hterm
                simp at hterm
            cases k0 with
            | node e rs =>
              simp only [IndexKey.empt, Bool.or_eq_false_iff] at hke
              simp only [keyAccB, hke.1, Bool.false_or] at hacc0
              simp only [keyWFB] at hwf0
              obtain ⟨lo, hi, c, hmem, hlo, hhi, hcacc⟩ :=
                keyAccBL_exists d rs (p + fr0.depth) hacc0
              obtain ⟨hlohi, h254, hNL, hcwf⟩ := keyWFBL_mem rs hwf0 lo hi c hmem
              have hba : byteAt d sa fr0.depth ipx = byteD d (p + fr0.depth) := by
                unfold byteAt byteD
                rw [hipp]
              obtain ⟨lc, rc, hl1, hl2, hl3, hl4, hl5, hl6⟩ :=
                keyFrames_covers d sa fr0.depth fr0.l fr0.r hsorted hpre0 hrlen0
                  rs lo hi c hmem ipx hip1 hip2
                  (by rw [hba]; exact hlo) (by rw [hba]; exact hhi)
                  (by rw [hba]; omega) h254
              apply ih _ _ _
                (stack_weight_expand d sa fr0 (.node e rs) rest f hk0 hfuel)
              right
              have hframe : framePre d sa lc rc (fr0.depth + 1) := by
                intro i1 i2 hi1 hi2 hi3 hi4 u hu
                by_cases hud : u < fr0.depth
                · exact hpre0 i1 i2 (by omega) (by omega) (by omega) (by omega) u hud
                · have hu' : u = fr0.depth := by omega
                  subst hu'
                  constructor
                  · rw [hl6 i1 hi1 hi2, hl6 i2 hi3 hi4]
                  · rw [hl6 i1 hi1 hi2, hba]
                    omega
              have hacc' : keyAccB d c (p + (fr0.depth + 1)) = true := by
                rw [← Nat.add_assoc]
                exact hcacc
              have hrc : rc ≤ sa.length := by omega
              refine ⟨⟨lc, rc, some c, fr0.depth + 1⟩, ?_, c, rfl, hcwf, hacc',
                ⟨ipx, hl1, hl2, hipp⟩, hrc, hframe⟩
              apply List.mem_append_left
              rw [List.mem_reverse]
              exact hl5
        · -- the target frame sits deeper in the stack
          simp only [walkLoopF]
          cases hk : fr.key with
          | none =>
            dsimp only
            by_cases hov : count + (fr.r - fr.l) > B
            · rw [if_pos hov]
              exact Or.inl rfl
            · rw [if_neg hov]
              exact ih rest _ _ (stack_weight_tail fr rest f hfuel)
                (Or.inr ⟨fr0, hfrt, k0, hk0, hwf0, hacc0, hcont0, hrlen0, hpre0⟩)
          | some k =>
            dsimp only
            by_cases hterm : (k.empt || decide (fr.r - fr.l ≤ 100)) = true
            · rw [if_pos hterm]
              by_cases hov : count + (fr.r - fr.l) > B
              · rw [if_pos hov]
                exact Or.inl rfl
              · rw [if_neg hov]
                exact ih rest _ _ (stack_weight_tail fr rest f hfuel)
                  (Or.inr ⟨fr0, hfrt, k0, hk0, hwf0, hacc0, hcont0, hrlen0, hpre0⟩)
            · rw [if_neg hterm]
              exact ih _ _ _ (stack_weight_expand d sa fr k rest f hk hfuel)
                (Or.inr ⟨fr0, List.mem_append_right _ hfrt, k0, hk0, hwf0, hacc0,
                  hcont0, hrlen0, hpre0⟩)

/-- Conservativeness from the walker's initial state: an accepted
position of a sorted, complete suffix array survives into the candidate
buffer unless the walk aborts over budget. -/
theorem walk_conservative (d : List Byte) (sa : List Nat) (B : Nat)
    (key : IndexKey) (p : Nat)
    (hsorted : sa.Pairwise (fun i j => suffixLE d i j = true))
    (hlen : sa.length = d.length) (hmem : p ∈ sa)
    (hkWF : keyWFB key = true) (hacc : keyAccB d key p = true) :
    (walkLoop d sa B [⟨0, d.length, some key, 0⟩] 0 []).1 = B + 1
    ∨ p ∈ (walkLoop d sa B [⟨0, d.length, some key, 0⟩] 0 []).2 := by
  obtain ⟨ipx, hlt, hget⟩ := List.getElem_of_mem hmem
  apply walkLoopF_conservative d sa B hsorted p _ _ 0 []
    (Nat.lt_succ_self _)
  right
  have hacc' : keyAccB d key (p + 0) = true := by
    rw [Nat.add_zero]
    exact hacc
  have hgd : sa.getD ipx 0 = p := by
    rw [List.getD_eq_getElem?_getD, List.getElem?_eq_getElem hlt]
    exact hget
  have hprez : framePre d sa 0 d.length 0 := by
    intro i1 i2 _ _ _ _ u hu
    exact absurd hu (Nat.not_lt_zero u)
  exact ⟨⟨0, d.length, some key, 0⟩, List.mem_cons_self _ _, key, rfl, hkWF, hacc',
    ⟨ipx, Nat.zero_le _, show ipx < d.length by omega, hgd⟩,
    show d.length ≤ sa.length by omega, hprez⟩

/-- Every buffered candidate is an element of the initial buffer or of
the suffix array. -/
theorem walk_buf_mem (d : List Byte) (sa : List Nat) (B : Nat) :
    ∀ (fuel : Nat) (stack : List WFrame) (count : Nat) (buf : List Nat) (x : Nat),
      x ∈ (walkLoopF d sa B fuel stack count buf).2 →
      x ∈ buf ∨ x ∈ sa := by
  intro fuel
  induction fuel with
  | zero =>
    intro stack count buf x hx
    exact Or.inl hx
  | succ f ih =>
    intro stack count buf x hx
    cases stack with
    | nil =>
      simp only [walkLoopF] at hx
      exact Or.inl hx
    | cons fr rest =>
      simp only [walkLoopF] at hx
      have hslice : ∀ y, y ∈ buf ++ (sa.drop fr.l).take (fr.r - fr.l) →
          y ∈ buf ∨ y ∈ sa := by
        intro y hy
        rcases List.mem_append.mp hy with h1 | h2
        · exact Or.inl h1
        · exact Or.inr (List.mem_of_mem_drop (List.mem_of_mem_take h2))
      cases hk : fr.key with
      | none =>
        rw [hk] at hx
        dsimp only at hx
        by_cases hov : count + (fr.r - fr.l) > B
        · rw [if_pos hov] at hx
          exact Or.inl hx
        · rw [if_neg hov] at hx
          rcases ih _ _ _ x hx with h1 | h2
          · exact hslice x h1
          · exact Or.inr h2
      | some k =>
        rw [hk] at hx
        dsimp only at hx
        by_cases hterm : (k.empt || decide (fr.r - fr.l ≤ 100)) = true
        · rw [if_pos hterm] at hx
          by_cases hov : count + (fr.r - fr.l) > B
          · rw [if_pos hov] at hx
            exact Or.inl hx
          · rw [if_neg hov] at hx
            rcases ih _ _ _ x hx with h1 | h2
            · exact hslice x h1
            · exact Or.inr h2
        · rw [if_neg hterm] at hx
          exact ih _ _ _ x hx

/-! ### Effect lemmas for the resolver with the cap removed -/

theorem exit_early_none (env : Env) (s : SState) (hmm : env.maxMatches = none)
    (hex : s.exitr = .kExitNone) : exit_early env s = (false, s) := by
  unfold exit_early
  rw [if_neg (by rw [hex]; simp), hmm]

theorem exit_early_state_id (env : Env) (s : SState) (hmm : env.maxMatches = none) :
    (exit_early env s).2 = s := by
  unfold exit_early
  rw [hmm]
  split_ifs <;> rfl

theorem vfStep_keep (env : Env) (line mtch : Piece) (gs : Group × SState) (fno : Nat)
    (hmm : env.maxMatches = none) :
    (vfStep env line mtch gs fno).2.out = gs.2.out
    ∧ (vfStep env line mtch gs fno).2.exitr = gs.2.exitr := by
  unfold vfStep
  by_cases ha : acceptSF env (env.files.getD fno dummySF)
  · rw [if_neg (by rw [ha]; simp)]
    dsimp only
    rw [exit_early_state_id env gs.2 hmm]
    by_cases hb : (exit_early env gs.2).1 = true
    · rw [if_pos hb]
      exact ⟨rfl, rfl⟩
    · rw [if_neg hb]
      exact ⟨(try_match_frame env gs.1 line mtch _ gs.2).1,
        (try_match_frame env gs.1 line mtch _ gs.2).2.1⟩
  · have ha' : acceptSF env (env.files.getD fno dummySF) = false := by
      revert ha
      cases acceptSF env (env.files.getD fno dummySF) <;> simp
    rw [if_pos (by rw [ha']; rfl)]
    exact ⟨rfl, rfl⟩

theorem visitFiles_keep (env : Env) (line mtch : Piece) (hmm : env.maxMatches = none) :
    ∀ (fnos : List Nat) (gs : Group × SState),
      (visitFiles env line mtch fnos gs).2.out = gs.2.out
      ∧ (visitFiles env line mtch fnos gs).2.exitr = gs.2.exitr := by
  intro fnos
  induction fnos with
  | nil => intro gs; exact ⟨rfl, rfl⟩
  | cons f rest ih =>
    intro gs
    unfold visitFiles at ih ⊢
    rw [List.foldl_cons]
    obtain ⟨h1, h2⟩ := ih (vfStep env line mtch gs f)
    obtain ⟨h3, h4⟩ := vfStep_keep env line mtch gs f hmm
    exact ⟨h1.trans h3, h2.trans h4⟩

theorem fmbStep_keep (env : Env) (line mtch : Piece) (loff : Nat)
    (gs : Group × SState) (cf : ChunkFile) (hmm : env.maxMatches = none) :
    (fmbStep env line mtch loff gs cf).2.out = gs.2.out
    ∧ (fmbStep env line mtch loff gs cf).2.exitr = gs.2.exitr := by
  unfold fmbStep
  by_cases hc : cf.left ≤ loff ∧ loff ≤ cf.right
  · rw [if_pos hc]
    exact visitFiles_keep env line mtch hmm cf.files gs
  · rw [if_neg hc]
    exact ⟨rfl, rfl⟩

theorem fmbFold_keep (env : Env) (line mtch : Piece) (loff : Nat)
    (hmm : env.maxMatches = none) :
    ∀ (cfs : List ChunkFile) (gs : Group × SState),
      (cfs.foldl (fmbStep env line mtch loff) gs).2.out = gs.2.out
      ∧ (cfs.foldl (fmbStep env line mtch loff) gs).2.exitr = gs.2.exitr := by
  intro cfs
  induction cfs with
  | nil => intro gs; exact ⟨rfl, rfl⟩
  | cons cf rest ih =>
    intro gs
    rw [List.foldl_cons]
    obtain ⟨h1, h2⟩ := ih (fmbStep env line mtch loff gs cf)
    obtain ⟨h3, h4⟩ := fmbStep_keep env line mtch loff gs cf hmm
    exact ⟨h1.trans h3, h2.trans h4⟩

theorem findMatchTree_keep (env : Env) (line mtch : Piece) (loff : Nat)
    (hmm : env.maxMatches = none) :
    ∀ (t : CFTree) (gs : Group × SState),
      (findMatchTree env line mtch loff t gs).2.out = gs.2.out
      ∧ (findMatchTree env line mtch loff t gs).2.exitr = gs.2.exitr := by
  intro t
  induction t with
  | nil => intro gs; exact ⟨rfl, rfl⟩
  | node cf l r rl ihl ihr =>
    intro gs
    unfold findMatchTree
    by_cases hex : gs.2.exitr ≠ .kExitNone
    · rw [if_pos hex]
      exact ⟨rfl, rfl⟩
    · rw [if_neg hex]
      by_cases hpr : loff > rl
      · rw [if_pos hpr]
        exact ⟨rfl, rfl⟩
      · rw [if_neg hpr]
        dsimp only
        obtain ⟨a1, a2⟩ := ihl gs
        have hmidk : ∀ gs1 : Group × SState,
            ((if cf.left ≤ loff ∧ loff ≤ cf.right
              then visitFiles env line mtch cf.files gs1 else gs1)).2.out = gs1.2.out
            ∧ ((if cf.left ≤ loff ∧ loff ≤ cf.right
              then visitFiles env line mtch cf.files gs1 else gs1)).2.exitr
                = gs1.2.exitr := by
          intro gs1
          by_cases hc : cf.left ≤ loff ∧ loff ≤ cf.right
          · rw [if_pos hc]
            exact visitFiles_keep env line mtch hmm cf.files gs1
          · rw [if_neg hc]
            exact ⟨rfl, rfl⟩
        obtain ⟨b1, b2⟩ := hmidk (findMatchTree env line mtch loff l gs)
        by_cases hcl : cf.left ≤ loff
        · rw [if_pos hcl]
          obtain ⟨c1, c2⟩ := ihr ((if cf.left ≤ loff ∧ loff ≤ cf.right
            then visitFiles env line mtch cf.files (findMatchTree env line mtch loff l gs)
            else findMatchTree env line mtch loff l gs))
          exact ⟨(c1.trans b1).trans a1, (c2.trans b2).trans a2⟩
        · rw [if_neg hcl]
          exact ⟨b1.trans a1, b2.trans a2⟩

theorem find_match_keep (env : Env) (chunk : Chunk) (mtch line : Piece) (s : SState)
    (hmm : env.maxMatches = none) :
    (∃ t, (find_match env chunk mtch line s).out = s.out ++ t)
    ∧ (find_match env chunk mtch line s).exitr = s.exitr := by
  unfold find_match
  by_cases hf : env.flagIndex
  · rw [if_neg (by rw [hf]; simp)]
    dsimp only
    obtain ⟨h1, h2⟩ := findMatchTree_keep env line mtch line.off hmm chunk.tree
      (mkGroup chunk.data mtch line, s)
    unfold finish_group
    constructor
    · exact ⟨_, by rw [h1]⟩
    · exact h2
  · have hf' : env.flagIndex = false := by
      revert hf
      cases env.flagIndex <;> simp
    rw [if_pos (by rw [hf']; rfl)]
    unfold find_match_brute
    dsimp only
    obtain ⟨h1, h2⟩ := fmbFold_keep env line mtch line.off hmm chunk.cfiles
      (mkGroup chunk.data mtch line, s)
    unfold finish_group
    constructor
    · exact ⟨_, by rw [h1]⟩
    · exact h2

/-! ### The pairs a resolved line contributes are independent of the
match piece and of the incoming state -/

/-- The relation between two resolver runs over the same line: equal
group maps, both exit-free, and each with its own fixed queue. -/
def SimR (O1 O2 : List MatchResult) (x y : Group × SState) : Prop :=
  x.1.gmap = y.1.gmap ∧ x.2.exitr = .kExitNone ∧ y.2.exitr = .kExitNone
  ∧ x.2.out = O1 ∧ y.2.out = O2

theorem tmStep_gmap_rel (env env' : Env) (hfp : env.filePat = none)
    (hfp' : env'.filePat = none) (sf : SearchFile) (ctx : MatchContext)
    (p : GitPath) (g1 g2 : Group) (s1 s2 : SState) (hg : g1.gmap = g2.gmap) :
    (tmStep env sf ctx (g1, s1) p).1.gmap = (tmStep env' sf ctx (g2, s2) p).1.gmap := by
  unfold tmStep
  have h1 : acceptPath env p = true := by
    unfold acceptPath
    rw [hfp]
  have h2 : acceptPath env' p = true := by
    unfold acceptPath
    rw [hfp']
  rw [h1, h2]
  simp only [Bool.not_true, Bool.false_eq_true, if_false]
  rw [hg]
  cases hlk : mapLookup g2.gmap p.path with
  | none => rfl
  | some l =>
    dsimp only
    by_cases hfile : (l.getLast?.getD ctx).file ≠ sf.no
    · rw [if_pos hfile, if_pos hfile]
    · rw [if_neg hfile, if_neg hfile, hg]

theorem pathsFold_gmap_rel (env env' : Env) (hfp : env.filePat = none)
    (hfp' : env'.filePat = none) (sf : SearchFile) (ctx : MatchContext) :
    ∀ (ps : List GitPath) (g1 g2 : Group) (s1 s2 : SState), g1.gmap = g2.gmap →
      (ps.foldl (tmStep env sf ctx) (g1, s1)).1.gmap
      = (ps.foldl (tmStep env' sf ctx) (g2, s2)).1.gmap := by
  intro ps
  induction ps with
  | nil => intro g1 g2 s1 s2 hg; exact hg
  | cons p rest ih =>
    intro g1 g2 s1 s2 hg
    rw [List.foldl_cons, List.foldl_cons]
    have hstep := tmStep_gmap_rel env env' hfp hfp' sf ctx p g1 g2 s1 s2 hg
    exact ih (tmStep env sf ctx (g1, s1) p).1 (tmStep env' sf ctx (g2, s2) p).1
      (tmStep env sf ctx (g1, s1) p).2 (tmStep env' sf ctx (g2, s2) p).2 hstep

theorem try_match_gmap_rel (env env' : Env) (hfp : env.filePat = none)
    (hfp' : env'.filePat = none) (hcd : env.chunksData = env'.chunksData)
    (g1 g2 : Group) (line mtch1 mtch2 : Piece) (sf : SearchFile) (s1 s2 : SState)
    (hg : g1.gmap = g2.gmap) :
    (try_match env g1 line mtch1 sf s1).1.gmap
    = (try_match env' g2 line mtch2 sf s2).1.gmap := by
  unfold try_match
  rw [hcd]
  cases hl : lnoLoop env'.chunksData line sf.content 1 0 with
  | mk lno oi =>
    cases oi with
    | none => exact hg
    | some si =>
      exact pathsFold_gmap_rel env env' hfp hfp' sf _ sf.paths g1 g2 s1 s2 hg

theorem vfStep_rel (env env' : Env) (hfp : env.filePat = none)
    (hfp' : env'.filePat = none) (hmm : env.maxMatches = none)
    (hmm' : env'.maxMatches = none) (hfs : env.files = env'.files)
    (hcd : env.chunksData = env'.chunksData) (line mtch1 mtch2 : Piece)
    (O1 O2 : List MatchResult) (x y : Group × SState) (fno : Nat)
    (h : SimR O1 O2 x y) :
    SimR O1 O2 (vfStep env line mtch1 x fno) (vfStep env' line mtch2 y fno) := by
  obtain ⟨hg, hx1, hy1, ho1, ho2⟩ := h
  unfold vfStep
  have ha1 : acceptSF env (env.files.getD fno dummySF) = true := by
    unfold acceptSF
    rw [hfp]
  have ha2 : acceptSF env' (env'.files.getD fno dummySF) = true := by
    unfold acceptSF
    rw [hfp']
  rw [if_neg (show ¬ (!acceptSF env (env.files.getD fno dummySF)) = true by
    rw [ha1]; simp)]
  rw [if_neg (show ¬ (!acceptSF env' (env'.files.getD fno dummySF)) = true by
    rw [ha2]; simp)]
  dsimp only
  rw [exit_early_none env x.2 hmm hx1, exit_early_none env' y.2 hmm' hy1]
  dsimp only
  simp only [Bool.false_eq_true, if_false]
  rw [hfs]
  refine ⟨?_, ?_, ?_, ?_, ?_⟩
  · exact try_match_gmap_rel env env' hfp hfp' hcd x.1 y.1 line mtch1 mtch2 _ x.2 y.2 hg
  · exact ((try_match_frame env x.1 line mtch1 _ x.2).2.1).trans hx1
  · exact ((try_match_frame env' y.1 line mtch2 _ y.2).2.1).trans hy1
  · exact ((try_match_frame env x.1 line mtch1 _ x.2).1).trans ho1
  · exact ((try_match_frame env' y.1 line mtch2 _ y.2).1).trans ho2

theorem visitFiles_rel (env env' : Env) (hfp : env.filePat = none)
    (hfp' : env'.filePat = none) (hmm : env.maxMatches = none)
    (hmm' : env'.maxMatches = none) (hfs : env.files = env'.files)
    (hcd : env.chunksData = env'.chunksData) (line mtch1 mtch2 : Piece)
    (O1 O2 : List MatchResult) :
    ∀ (fnos : List Nat) (x y : Group × SState), SimR O1 O2 x y →
      SimR O1 O2 (visitFiles env line mtch1 fnos x) (visitFiles env' line mtch2 fnos y) := by
  intro fnos
  induction fnos with
  | nil => intro x y h; exact h
  | cons f rest ih =>
    intro x y h
    unfold visitFiles at ih ⊢
    rw [List.foldl_cons, List.foldl_cons]
    exact ih _ _ (vfStep_rel env env' hfp hfp' hmm hmm' hfs hcd line mtch1 mtch2
      O1 O2 x y f h)

theorem fmbStep_rel (env env' : Env) (hfp : env.filePat = none)
    (hfp' : env'.filePat = none) (hmm : env.maxMatches = none)
    (hmm' : env'.maxMatches = none) (hfs : env.files = env'.files)
    (hcd : env.chunksData = env'.chunksData) (line mtch1 mtch2 : Piece)
    (loff : Nat) (O1 O2 : List MatchResult) (x y : Group × SState) (cf : ChunkFile)
    (h : SimR O1 O2 x y) :
    SimR O1 O2 (fmbStep env line mtch1 loff x cf) (fmbStep env' line mtch2 loff y cf) := by
  unfold fmbStep
  by_cases hc : cf.left ≤ loff ∧ loff ≤ cf.right
  · rw [if_pos hc, if_pos hc]
    exact visitFiles_rel env env' hfp hfp' hmm hmm' hfs hcd line mtch1 mtch2
      O1 O2 cf.files x y h
  · rw [if_neg hc, if_neg hc]
    exact h

theorem fmbFold_rel (env env' : Env) (hfp : env.filePat = none)
    (hfp' : env'.filePat = none) (hmm : env.maxMatches = none)
    (hmm' : env'.maxMatches = none) (hfs : env.files = env'.files)
    (hcd : env.chunksData = env'.chunksData) (line mtch1 mtch2 : Piece)
    (loff : Nat) (O1 O2 : List MatchResult) :
    ∀ (cfs : List ChunkFile) (x y : Group × SState), SimR O1 O2 x y →
      SimR O1 O2 (cfs.foldl (fmbStep env line mtch1 loff) x)
        (cfs.foldl (fmbStep env' line mtch2 loff) y) := by
  intro cfs
  induction cfs with
  | nil => intro x y h; exact h
  | cons cf rest ih =>
    intro x y h
    rw [List.foldl_cons, List.foldl_cons]
    exact ih _ _ (fmbStep_rel env env' hfp hfp' hmm hmm' hfs hcd line mtch1 mtch2
      loff O1 O2 x y cf h)

theorem outPairs_append (a b : List MatchResult) :
    outPairs (a ++ b) = outPairs a ++ outPairs b := by
  unfold outPairs
  rw [List.flatMap_append]

theorem outPairs_groupMap (m : List (String × List MatchContext)) (ln : Piece)
    (a b : Nat) :
    outPairs (m.map (fun kv => ⟨ln, a, b, kv.2⟩))
      = m.flatMap (fun kv => kv.2.map (fun c => (c.file, c.lno))) := by
  induction m with
  | nil => rfl
  | cons kv rest ih =>
    simp only [List.map_cons, List.flatMap_cons, ← ih]
    rfl

/-- The canonical environment a line's contribution is measured in:
same arena and chunk data, no file pattern, no cap, brute-force
resolution. -/
def canonEnv (files : List SearchFile) (cd : List (List Byte)) : Env :=
  ⟨files, cd, none, false, none, fun _ _ => false⟩

/-- The `(file, line-number)` pairs that resolving a given line pushes,
independently of the match piece and of the searcher state. -/
def linePairs (files : List SearchFile) (cd : List (List Byte)) (chunk : Chunk)
    (line : Piece) : List (Nat × Nat) :=
  outPairs (find_match_brute (canonEnv files cd) chunk line line SState.init).out

theorem find_match_brute_pairs (env : Env) (chunk : Chunk) (mtch line : Piece)
    (s : SState) (hfp : env.filePat = none) (hmm : env.maxMatches = none)
    (hex : s.exitr = .kExitNone) :
    outPairs (find_match_brute env chunk mtch line s).out
      = outPairs s.out ++ linePairs env.files env.chunksData chunk line := by
  have hrel := fmbFold_rel env (canonEnv env.files env.chunksData) hfp rfl hmm rfl
    rfl rfl line mtch line line.off s.out [] chunk.cfiles
    (mkGroup chunk.data mtch line, s) (mkGroup chunk.data line line, SState.init)
    ⟨by rw [mkGroup_gmap, mkGroup_gmap], hex, rfl, rfl, rfl⟩
  obtain ⟨hg, _, _, ho1, ho2⟩ := hrel
  unfold find_match_brute linePairs find_match_brute finish_group
  dsimp only
  rw [outPairs_append, outPairs_append, outPairs_groupMap, outPairs_groupMap,
    hg, ho1, ho2]
  simp [outPairs]

/-! ### The chunk-file BST walk visits exactly the brute-force records -/

/-- In-order record list of a chunk-file tree. -/
def treeList : CFTree → List ChunkFile
  | .nil => []
  | .node cf l r _ => treeList l ++ cf :: treeList r

theorem buildTreeF_list :
    ∀ (fuel : Nat) (l : List ChunkFile), l.length ≤ fuel →
      treeList (buildTreeF fuel l) = l := by
  intro fuel
  induction fuel with
  | zero =>
    intro l h
    have hl : l = [] := List.length_eq_zero.mp (by omega)
    subst hl
    rfl
  | succ f ih =>
    intro l h
    cases l with
    | nil => rfl
    | cons x xs =>
      simp only [buildTreeF, treeList]
      have hmid : (x :: xs).length / 2 < (x :: xs).length := by
        simp only [List.length_cons]
        omega
      rw [ih ((x :: xs).take ((x :: xs).length / 2))
          (by rw [List.length_take]; simp only [List.length_cons] at h ⊢; omega),
        ih ((x :: xs).drop ((x :: xs).length / 2 + 1))
          (by rw [List.length_drop]; simp only [List.length_cons] at h ⊢; omega)]
      rw [List.getD_eq_getElem?_getD, List.getElem?_eq_getElem hmid]
      show (x :: xs).take ((x :: xs).length / 2)
          ++ (x :: xs)[(x :: xs).length / 2] :: (x :: xs).drop ((x :: xs).length / 2 + 1)
        = x :: xs
      rw [← List.drop_eq_getElem_cons hmid]
      exact List.take_append_drop _ _

/-- Every `right_limit` in the tree bounds the `right` endpoints of its
subtree. -/
def rlAll : CFTree → Prop
  | .nil => True
  | .node cf l r rl => rlAll l ∧ rlAll r ∧ cf.right ≤ rl
      ∧ (∀ x ∈ treeList l, x.right ≤ rl) ∧ (∀ x ∈ treeList r, x.right ≤ rl)

theorem buildTreeF_rlAll :
    ∀ (fuel : Nat) (l : List ChunkFile), l.length ≤ fuel →
      rlAll (buildTreeF fuel l) ∧ ∀ x ∈ l, x.right ≤ (buildTreeF fuel l).rlimit := by
  intro fuel
  induction fuel with
  | zero =>
    intro l h
    have hl : l = [] := List.length_eq_zero.mp (by omega)
    subst hl
    exact ⟨trivial, by simp⟩
  | succ f ih =>
    intro l h
    cases l with
    | nil => exact ⟨trivial, by simp⟩
    | cons x xs =>
      simp only [buildTreeF]
      have hlen : (x :: xs).length = xs.length + 1 := by simp
      obtain ⟨ra1, rb1⟩ := ih ((x :: xs).take ((x :: xs).length / 2))
        (by rw [List.length_take]; simp only [List.length_cons] at h ⊢; omega)
      obtain ⟨ra2, rb2⟩ := ih ((x :: xs).drop ((x :: xs).length / 2 + 1))
        (by rw [List.length_drop]; simp only [List.length_cons] at h ⊢; omega)
      have hmid : (x :: xs).length / 2 < (x :: xs).length := by
        simp only [List.length_cons]
        omega
      have hlt := buildTreeF_list f ((x :: xs).take ((x :: xs).length / 2))
        (by rw [List.length_take]; simp only [List.length_cons] at h ⊢; omega)
      have hrt := buildTreeF_list f ((x :: xs).drop ((x :: xs).length / 2 + 1))
        (by rw [List.length_drop]; simp only [List.length_cons] at h ⊢; omega)
      have hcf : (x :: xs).getD ((x :: xs).length / 2) ⟨0, 0, []⟩
          = (x :: xs)[(x :: xs).length / 2] := by
        rw [List.getD_eq_getElem?_getD, List.getElem?_eq_getElem hmid]
        rfl
      simp only [CFTree.rlimit] at rb1 rb2
      constructor
      · simp only [rlAll, CFTree.rlimit]
        refine ⟨ra1, ra2, by omega, ?_, ?_⟩
        · intro z hz
          rw [hlt] at hz
          have := rb1 z hz
          omega
        · intro z hz
          rw [hrt] at hz
          have := rb2 z hz
          omega
      · intro z hz
        have hsplit : (x :: xs) = (x :: xs).take ((x :: xs).length / 2)
            ++ (x :: xs)[(x :: xs).length / 2] :: (x :: xs).drop ((x :: xs).length / 2 + 1) := by
          rw [← List.drop_eq_getElem_cons hmid, List.take_append_drop]
        rw [hsplit] at hz
        simp only [CFTree.rlimit]
        rcases List.mem_append.mp hz with h6 | h7
        · have := rb1 z h6
          omega
        · rcases List.mem_cons.mp h7 with h8 | h9
          · subst h8
            rw [← hcf]
            omega
          · have := rb2 z h9
            omega

theorem vfStep_id (env : Env) (line mtch : Piece) (gs : Group × SState) (fno : Nat)
    (h : gs.2.exitr ≠ .kExitNone) : vfStep env line mtch gs fno = gs := by
  unfold vfStep
  by_cases ha : acceptSF env (env.files.getD fno dummySF)
  · rw [if_neg (by rw [ha]; simp)]
    dsimp only
    have he : exit_early env gs.2 = (true, gs.2) := by
      unfold exit_early
      rw [if_pos h]
    rw [he, if_pos (show ((true, gs.2) : Bool × SState).1 = true from rfl)]
  · have ha' : acceptSF env (env.files.getD fno dummySF) = false := by
      revert ha
      cases acceptSF env (env.files.getD fno dummySF) <;> simp
    rw [if_pos (by rw [ha']; rfl)]

theorem visitFiles_id (env : Env) (line mtch : Piece) :
    ∀ (fnos : List Nat) (gs : Group × SState), gs.2.exitr ≠ .kExitNone →
      visitFiles env line mtch fnos gs = gs := by
  intro fnos
  induction fnos with
  | nil => intro gs _; rfl
  | cons f rest ih =>
    intro gs h
    unfold visitFiles at ih ⊢
    rw [List.foldl_cons, vfStep_id env line mtch gs f h]
    exact ih gs h

theorem fmbStep_id (env : Env) (line mtch : Piece) (loff : Nat)
    (gs : Group × SState) (cf : ChunkFile) (h : gs.2.exitr ≠ .kExitNone) :
    fmbStep env line mtch loff gs cf = gs := by
  unfold fmbStep
  by_cases hc : cf.left ≤ loff ∧ loff ≤ cf.right
  · rw [if_pos hc]
    exact visitFiles_id env line mtch cf.files gs h
  · rw [if_neg hc]

theorem foldl_fmb_id (env : Env) (line mtch : Piece) (loff : Nat) :
    ∀ (cfs : List ChunkFile) (gs : Group × SState), gs.2.exitr ≠ .kExitNone →
      cfs.foldl (fmbStep env line mtch loff) gs = gs := by
  intro cfs
  induction cfs with
  | nil => intro gs _; rfl
  | cons cf rest ih =>
    intro gs h
    rw [List.foldl_cons, fmbStep_id env line mtch loff gs cf h]
    exact ih gs h

theorem foldl_fmb_skip (env : Env) (line mtch : Piece) (loff : Nat) :
    ∀ (cfs : List ChunkFile) (gs : Group × SState),
      (∀ cf ∈ cfs, ¬(cf.left ≤ loff ∧ loff ≤ cf.right)) →
      cfs.foldl (fmbStep env line mtch loff) gs = gs := by
  intro cfs
  induction cfs with
  | nil => intro gs _; rfl
  | cons cf rest ih =>
    intro gs h
    rw [List.foldl_cons]
    have hstep : fmbStep env line mtch loff gs cf = gs := by
      unfold fmbStep
      rw [if_neg (h cf (List.mem_cons_self _ _))]
    rw [hstep]
    exact ih gs (fun cf2 h2 => h cf2 (List.mem_cons_of_mem _ h2))

theorem findMatchTree_eq (env : Env) (line mtch : Piece) (loff : Nat) :
    ∀ (t : CFTree), rlAll t → (treeList t).Pairwise (fun a b => a.left ≤ b.left) →
      ∀ gs, findMatchTree env line mtch loff t gs
        = (treeList t).foldl (fmbStep env line mtch loff) gs := by
  intro t
  induction t with
  | nil => intro _ _ gs; rfl
  | node cf lt rt rl ihl ihr =>
    intro hrl hsort gs
    obtain ⟨hrl1, hrl2, hrc, hbl, hbr⟩ := hrl
    simp only [treeList] at hsort ⊢
    rw [List.pairwise_append] at hsort
    obtain ⟨hs1, hs2, hs3⟩ := hsort
    rw [List.pairwise_cons] at hs2
    unfold findMatchTree
    by_cases hex : gs.2.exitr ≠ .kExitNone
    · rw [if_pos hex]
      exact (foldl_fmb_id env line mtch loff _ gs hex).symm
    · rw [if_neg hex]
      by_cases hpr : loff > rl
      · rw [if_pos hpr]
        symm
        apply foldl_fmb_skip
        intro cf2 h2
        rcases List.mem_append.mp h2 with h3 | h4
        · have := hbl cf2 h3
          omega
        · rcases List.mem_cons.mp h4 with h5 | h6
          · subst h5
            omega
          · have := hbr cf2 h6
            omega
      · rw [if_neg hpr]
        dsimp only
        rw [List.foldl_append, List.foldl_cons]
        rw [← ihl hrl1 hs1 gs]
        have hmid : (if cf.left ≤ loff ∧ loff ≤ cf.right
            then visitFiles env line mtch cf.files (findMatchTree env line mtch loff lt gs)
            else findMatchTree env line mtch loff lt gs)
            = fmbStep env line mtch loff (findMatchTree env line mtch loff lt gs) cf := rfl
        rw [hmid]
        by_cases hcl : cf.left ≤ loff
        · rw [if_pos hcl]
          exact ihr hrl2 hs2.2 _
        · rw [if_neg hcl]
          symm
          apply foldl_fmb_skip
          intro cf2 h2
          have := hs2.1 cf2 h2
          omega

theorem find_match_eq_brute (env : Env) (chunk : Chunk) (mtch line : Piece)
    (s : SState) (htree : chunk.tree = buildTree chunk.cfiles)
    (hsortL : chunk.cfiles.Pairwise (fun a b => a.left ≤ b.left)) :
    find_match env chunk mtch line s = find_match_brute env chunk mtch line s := by
  unfold find_match
  by_cases hf : env.flagIndex
  · rw [if_neg (by rw [hf]; simp)]
    dsimp only
    obtain ⟨hra, hrb⟩ := buildTreeF_rlAll (chunk.cfiles.length + 1) chunk.cfiles
      (by omega)
    have hlist := buildTreeF_list (chunk.cfiles.length + 1) chunk.cfiles (by omega)
    have he := findMatchTree_eq env line mtch line.off
      (buildTreeF (chunk.cfiles.length + 1) chunk.cfiles) hra
      (by rw [hlist]; exact hsortL) (mkGroup chunk.data mtch line, s)
    rw [hlist] at he
    rw [htree]
    unfold buildTree
    rw [he]
    rfl
  · have hf' : env.flagIndex = false := by
      revert hf
      cases env.flagIndex <;> simp
    rw [if_pos (by rw [hf']; rfl)]

theorem find_match_pairs (env : Env) (chunk : Chunk) (mtch line : Piece) (s : SState)
    (hfp : env.filePat = none) (hmm : env.maxMatches = none)
    (hex : s.exitr = .kExitNone) (htree : chunk.tree = buildTree chunk.cfiles)
    (hsortL : chunk.cfiles.Pairwise (fun a b => a.left ≤ b.left)) :
    outPairs (find_match env chunk mtch line s).out
      = outPairs s.out ++ linePairs env.files env.chunksData chunk line := by
  rw [find_match_eq_brute env chunk mtch line s htree hsortL]
  exact find_match_brute_pairs env chunk mtch line s hfp hmm hex

theorem find_match_exitr (env : Env) (chunk : Chunk) (mtch line : Piece) (s : SState)
    (hmm : env.maxMatches = none) :
    (find_match env chunk mtch line s).exitr = s.exitr :=
  (find_match_keep env chunk mtch line s hmm).2

theorem find_match_out_mono (env : Env) (chunk : Chunk) (mtch line : Piece)
    (s : SState) (hmm : env.maxMatches = none) :
    ∃ t, (find_match env chunk mtch line s).out = s.out ++ t :=
  (find_match_keep env chunk mtch line s hmm).1

/-! ### The confirmation scan: state growth -/

theorem next_range_nofp (env : Env) (cfs : List ChunkFile)
    (finger pos endpos maxpos : Nat) (hfp : env.filePat = none) :
    next_range env cfs finger pos endpos maxpos = (finger, pos, endpos) := by
  unfold next_range
  rw [if_pos (Or.inl (by rw [hfp]; rfl))]

theorem fsLoop_keep (env : Env) (M : Matcher) (ci : Nat) (chunk : Chunk)
    (maxpos : Nat) (hmm : env.maxMatches = none) :
    ∀ (fuel finger pos endv : Nat) (s : SState), s.exitr = .kExitNone →
      (∃ t, (fsLoop env M ci chunk maxpos fuel finger pos endv s).2.out = s.out ++ t)
      ∧ (fsLoop env M ci chunk maxpos fuel finger pos endv s).2.exitr = .kExitNone := by
  intro fuel
  induction fuel with
  | zero =>
    intro finger pos endv s hex
    exact ⟨⟨[], by simp [fsLoop]⟩, hex⟩
  | succ f ih =>
    intro finger pos endv s hex
    simp only [fsLoop]
    by_cases h1 : pos ≥ maxpos
    · rw [if_pos h1]
      exact ⟨⟨[], by simp⟩, hex⟩
    · rw [if_neg h1, exit_early_none env s hmm hex]
      dsimp only
      simp only [Bool.false_eq_true, if_false]
      by_cases h2 : (if pos ≥ endv
          then next_range env chunk.cfiles finger pos maxpos maxpos
          else (finger, pos, endv)).2.1 ≥ maxpos
      · rw [if_pos h2]
        exact ⟨⟨[], by simp⟩, hex⟩
      · rw [if_neg h2]
        cases hm : M chunk.data
            (if pos ≥ endv
              then next_range env chunk.cfiles finger pos maxpos maxpos
              else (finger, pos, endv)).2.1
            (if (if pos ≥ endv
                  then next_range env chunk.cfiles finger pos maxpos maxpos
                  else (finger, pos, endv)).2.2
                - (if pos ≥ endv
                  then next_range env chunk.cfiles finger pos maxpos maxpos
                  else (finger, pos, endv)).2.1 > kMaxScan
              then line_end chunk.data
                ((if pos ≥ endv
                  then next_range env chunk.cfiles finger pos maxpos maxpos
                  else (finger, pos, endv)).2.1 + kMaxScan)
              else (if pos ≥ endv
                  then next_range env chunk.cfiles finger pos maxpos maxpos
                  else (finger, pos, endv)).2.2) with
        | none => exact ih _ _ _ s hex
        | some p =>
          obtain ⟨ms, me⟩ := p
          dsimp only
          by_cases hv : utf8_valid ((chunk.data.drop
              (find_line chunk.data ⟨ci, 0, chunk.data.length⟩ ms (me - ms)).off).take
              (find_line chunk.data ⟨ci, 0, chunk.data.length⟩ ms (me - ms)).len) = true
          · rw [if_pos hv]
            have hex2 : (find_match env chunk ⟨ci, ms, me - ms⟩
                (find_line chunk.data ⟨ci, 0, chunk.data.length⟩ ms (me - ms)) s).exitr
                = .kExitNone := by
              rw [find_match_exitr _ _ _ _ _ hmm]
              exact hex
            obtain ⟨⟨t1, ht1⟩, hex3⟩ := ih _ _ _ _ hex2
            obtain ⟨t0, ht0⟩ := find_match_out_mono env chunk ⟨ci, ms, me - ms⟩
              (find_line chunk.data ⟨ci, 0, chunk.data.length⟩ ms (me - ms)) s hmm
            refine ⟨⟨t0 ++ t1, ?_⟩, hex3⟩
            rw [ht1, ht0, List.append_assoc]
          · rw [if_neg hv]
            exact ih _ _ _ s hex

/-! ### Characterization vocabulary for the per-chunk emitted pairs -/

/-- Spec wording: line `L` (a line-start offset) holds a match of the
abstract match predicate `MP`. -/
def lineHit (d : List Byte) (MP : Nat → Nat → Prop) (L : Nat) : Prop :=
  ∃ s e, s ≤ e ∧ e + 1 ≤ d.length ∧ MP s e ∧ flStart d s = L

/-- Spec wording: the pair `pr` belongs to some matching, UTF-8-valid
line of the chunk. -/
def chunkPairs (files : List SearchFile) (cd : List (List Byte))
    (MP : Nat → Nat → Prop) (ci : Nat) (chunk : Chunk) (pr : Nat × Nat) : Prop :=
  ∃ L, lineHit chunk.data MP L
    ∧ utf8_valid ((chunk.data.drop L).take (line_end chunk.data L - L)) = true
    ∧ pr ∈ linePairs files cd chunk ⟨ci, L, line_end chunk.data L - L⟩

/-- Modelled from the spec: the contract between RE2's window `Match`
and the abstract match predicate `MP` — soundness of a hit, matches
never contain `'\n'`, completeness of a miss, and leftmost choice.
Stated over decidably bounded windows. -/
def MContract (d : List Byte) (M : Matcher) (MP : Nat → Nat → Prop) : Prop :=
  (∀ pos, pos ≤ d.length → ∀ limit, limit ≤ d.length → M d pos limit ≠ none →
    pos ≤ ((M d pos limit).getD (0, 0)).1
    ∧ ((M d pos limit).getD (0, 0)).1 ≤ ((M d pos limit).getD (0, 0)).2
    ∧ ((M d pos limit).getD (0, 0)).2 ≤ limit
    ∧ MP ((M d pos limit).getD (0, 0)).1 ((M d pos limit).getD (0, 0)).2)
  ∧ (∀ s, s ≤ d.length → ∀ e, e ≤ d.length → MP s e →
      ∀ j, j < e → s ≤ j → d.getD j 0 ≠ NL)
  ∧ (∀ pos, pos ≤ d.length → ∀ limit, limit ≤ d.length →
      ∀ e, e ≤ limit → ∀ s, s ≤ e → pos ≤ s → M d pos limit = none → ¬ MP s e)
  ∧ (∀ pos, pos ≤ d.length → ∀ limit, limit ≤ d.length →
      ∀ e', e' ≤ limit → ∀ s', s' ≤ e' → pos ≤ s' → M d pos limit ≠ none →
        s' < ((M d pos limit).getD (0, 0)).1 → ¬ MP s' e')

theorem fsLoop_sound (env : Env) (M : Matcher) (MP : Nat → Nat → Prop)
    (ci : Nat) (chunk : Chunk) (maxpos : Nat)
    (hfp : env.filePat = none) (hmm : env.maxMatches = none)
    (htree : chunk.tree = buildTree chunk.cfiles)
    (hsortL : chunk.cfiles.Pairwise (fun a b => a.left ≤ b.left))
    (hc : MContract chunk.data M MP)
    (hmaxle : maxpos + 1 ≤ chunk.data.length)
    (hmaxNL : chunk.data.getD maxpos 0 = NL) :
    ∀ (fuel finger pos endv : Nat) (s : SState), s.exitr = .kExitNone →
      (endv ≤ maxpos ∨ endv ≤ pos) →
      ∀ pr, pr ∈ outPairs (fsLoop env M ci chunk maxpos fuel finger pos endv s).2.out →
        pr ∈ outPairs s.out
        ∨ chunkPairs env.files env.chunksData MP ci chunk pr := by
  intro fuel
  induction fuel with
  | zero =>
    intro finger pos endv s hex hendv pr hpr
    simp only [fsLoop] at hpr
    exact Or.inl hpr
  | succ f ih =>
    intro finger pos endv s hex hendv pr hpr
    simp only [fsLoop] at hpr
    by_cases h1 : pos ≥ maxpos
    · rw [if_pos h1] at hpr
      exact Or.inl hpr
    · rw [if_neg h1, exit_early_none env s hmm hex] at hpr
      dsimp only at hpr
      simp only [Bool.false_eq_true, if_false] at hpr
      set tri := (if pos ≥ endv
        then next_range env chunk.cfiles finger pos maxpos maxpos
        else (finger, pos, endv)) with htri
      have htri1 : tri.2.1 = pos := by
        rw [htri]
        by_cases h : pos ≥ endv
        · rw [if_pos h, next_range_nofp env chunk.cfiles finger pos maxpos maxpos hfp]
        · rw [if_neg h]
      have htri2 : tri.2.2 ≤ maxpos := by
        rw [htri]
        by_cases h : pos ≥ endv
        · rw [if_pos h, next_range_nofp env chunk.cfiles finger pos maxpos maxpos hfp]
        · rw [if_neg h]
          dsimp only
          omega
      have h2 : ¬ (tri.2.1 ≥ maxpos) := by
        rw [htri1]
        exact h1
      rw [if_neg h2] at hpr
      set limit := (if tri.2.2 - tri.2.1 > kMaxScan
        then line_end chunk.data (tri.2.1 + kMaxScan)
        else tri.2.2) with hlimit
      have hlim_le : limit ≤ maxpos := by
        rw [hlimit]
        by_cases h : tri.2.2 - tri.2.1 > kMaxScan
        · rw [if_pos h]
          exact line_end_min chunk.data _ maxpos (by omega) hmaxNL
        · rw [if_neg h]
          exact htri2
      cases hm : M chunk.data tri.2.1 limit with
      | none =>
        rw [hm] at hpr
        exact ih tri.1 (limit + 1) tri.2.2 s hex (Or.inl htri2) pr hpr
      | some p =>
        obtain ⟨ms, me⟩ := p
        rw [hm] at hpr
        dsimp only at hpr
        have hfacts := hc.1 tri.2.1 (by omega) limit (by omega) (by rw [hm]; simp)
        rw [hm] at hfacts
        simp only [Option.getD_some] at hfacts
        obtain ⟨hf1, hf2, hf3, hfMP⟩ := hfacts
        have hms_len : ms ≤ chunk.data.length := by omega
        have hme_len : me ≤ chunk.data.length := by omega
        have hms_me : ms + (me - ms) = me := by omega
        have hLle : flStart chunk.data ms ≤ ms := flStart_le chunk.data ms
        have hnonl : ∀ j, flStart chunk.data ms ≤ j → j < me →
            chunk.data.getD j 0 ≠ NL := by
          intro j hj1 hj2
          by_cases hjm : j < ms
          · exact flStart_no_nl chunk.data ms j hj1 hjm
          · exact hc.2.1 ms hms_len me hme_len hfMP j hj2 (by omega)
        have hLme : line_end chunk.data (flStart chunk.data ms)
            = line_end chunk.data me :=
          line_end_congr chunk.data (flStart chunk.data ms) me (by omega)
            hme_len hnonl
        have hline : find_line chunk.data ⟨ci, 0, chunk.data.length⟩ ms (me - ms)
            = ⟨ci, flStart chunk.data ms,
                line_end chunk.data (flStart chunk.data ms)
                  - flStart chunk.data ms⟩ := by
          rw [find_line_whole, hms_me, hLme]
        rw [hline] at hpr
        dsimp only at hpr
        have hhit : lineHit chunk.data MP (flStart chunk.data ms) :=
          ⟨ms, me, by omega, by omega, hfMP, rfl⟩
        by_cases hv : utf8_valid ((chunk.data.drop (flStart chunk.data ms)).take
            (line_end chunk.data (flStart chunk.data ms)
              - flStart chunk.data ms)) = true
        · rw [if_pos hv] at hpr
          have hex2 : (find_match env chunk ⟨ci, ms, me - ms⟩
              ⟨ci, flStart chunk.data ms,
                line_end chunk.data (flStart chunk.data ms)
                  - flStart chunk.data ms⟩ s).exitr = .kExitNone := by
            rw [find_match_exitr _ _ _ _ _ hmm]
            exact hex
          rcases ih tri.1 _ tri.2.2 _ hex2 (Or.inl htri2) pr hpr with hold | hnew
          · rw [find_match_pairs env chunk _ _ s hfp hmm hex htree hsortL] at hold
            rcases List.mem_append.mp hold with ho1 | ho2
            · exact Or.inl ho1
            · exact Or.inr ⟨flStart chunk.data ms, hhit, hv, ho2⟩
          · exact Or.inr hnew
        · rw [if_neg hv] at hpr
          exact ih tri.1 _ tri.2.2 s hex (Or.inl htri2) pr hpr

theorem fsLoop_complete (env : Env) (M : Matcher) (MP : Nat → Nat → Prop)
    (ci : Nat) (chunk : Chunk) (maxpos : Nat)
    (hfp : env.filePat = none) (hmm : env.maxMatches = none)
    (htree : chunk.tree = buildTree chunk.cfiles)
    (hsortL : chunk.cfiles.Pairwise (fun a b => a.left ≤ b.left))
    (hc : MContract chunk.data M MP)
    (hmaxle : maxpos + 1 ≤ chunk.data.length)
    (hmaxNL : chunk.data.getD maxpos 0 = NL)
    (sT eT : Nat) (hMP : MP sT eT) (hse : sT ≤ eT) (heb : eT ≤ maxpos)
    (hsNL : chunk.data.getD sT 0 ≠ NL)
    (hvT : utf8_valid ((chunk.data.drop (flStart chunk.data sT)).take
      (line_end chunk.data (flStart chunk.data sT) - flStart chunk.data sT)) = true) :
    ∀ (fuel finger pos endv : Nat) (s : SState), s.exitr = .kExitNone →
      maxpos + 1 ≤ fuel + pos → pos ≤ sT → (endv = maxpos ∨ endv ≤ pos) →
      ∀ pr, pr ∈ linePairs env.files env.chunksData chunk
          ⟨ci, flStart chunk.data sT,
            line_end chunk.data (flStart chunk.data sT) - flStart chunk.data sT⟩ →
        pr ∈ outPairs (fsLoop env M ci chunk maxpos fuel finger pos endv s).2.out := by
  have hsT_ne : sT ≠ maxpos := fun h => hsNL (h ▸ hmaxNL)
  have hsT_lt : sT < maxpos := by omega
  have heT_lineEnd : eT ≤ line_end chunk.data sT := by
    have hq := line_end_min chunk.data sT maxpos (by omega) hmaxNL
    by_contra hcon
    push_neg at hcon
    have hnl := line_end_nl chunk.data sT (by omega)
    exact hc.2.1 sT (by omega) eT (by omega) hMP (line_end chunk.data sT)
      hcon (line_end_ge chunk.data sT (by omega)) hnl
  intro fuel
  induction fuel with
  | zero =>
    intro finger pos endv s hex hfuel hpos hendv pr hpr
    have : False := by omega
    exact this.elim
  | succ f ih =>
    intro finger pos endv s hex hfuel hpos hendv pr hpr
    simp only [fsLoop]
    rw [if_neg (show ¬ pos ≥ maxpos by omega), exit_early_none env s hmm hex]
    dsimp only
    simp only [Bool.false_eq_true, if_false]
    set tri := (if pos ≥ endv
      then next_range env chunk.cfiles finger pos maxpos maxpos
      else (finger, pos, endv)) with htri
    have htri1 : tri.2.1 = pos := by
      rw [htri]
      by_cases h : pos ≥ endv
      · rw [if_pos h, next_range_nofp env chunk.cfiles finger pos maxpos maxpos hfp]
      · rw [if_neg h]
    have htri4 : tri.2.2 = maxpos := by
      rw [htri]
      by_cases h : pos ≥ endv
      · rw [if_pos h, next_range_nofp env chunk.cfiles finger pos maxpos maxpos hfp]
      · rw [if_neg h]
        dsimp only
        omega
    have h2 : ¬ (tri.2.1 ≥ maxpos) := by
      rw [htri1]
      omega
    rw [if_neg h2]
    set limit := (if tri.2.2 - tri.2.1 > kMaxScan
      then line_end chunk.data (tri.2.1 + kMaxScan)
      else tri.2.2) with hlimit
    have hlim_le : limit ≤ maxpos := by
      rw [hlimit]
      by_cases h : tri.2.2 - tri.2.1 > kMaxScan
      · rw [if_pos h]
        exact line_end_min chunk.data _ maxpos (by omega) hmaxNL
      · rw [if_neg h]
        omega
    have hlim_ge : pos ≤ limit := by
      rw [hlimit]
      by_cases h : tri.2.2 - tri.2.1 > kMaxScan
      · rw [if_pos h]
        have := line_end_ge chunk.data (tri.2.1 + kMaxScan) (by omega)
        omega
      · rw [if_neg h]
        omega
    have hlimNL : chunk.data.getD limit 0 = NL := by
      rw [hlimit]
      by_cases h : tri.2.2 - tri.2.1 > kMaxScan
      · rw [if_pos h]
        apply line_end_nl
        have := line_end_min chunk.data (tri.2.1 + kMaxScan) maxpos (by omega) hmaxNL
        omega
      · rw [if_neg h, htri4]
        exact hmaxNL
    cases hm : M chunk.data tri.2.1 limit with
    | none =>
      have hsT_gt : limit < sT := by
        by_contra hcon
        push_neg at hcon
        have heTlim : eT ≤ limit := by
          have := line_end_min chunk.data sT limit hcon hlimNL
          omega
        exact hc.2.2.1 tri.2.1 (by omega) limit (by omega) eT heTlim sT hse
          (by omega) hm hMP
      exact ih tri.1 (limit + 1) tri.2.2 s hex (by omega) (by omega)
        (Or.inl htri4) pr hpr
    | some p =>
      obtain ⟨ms, me⟩ := p
      dsimp only
      have hfacts := hc.1 tri.2.1 (by omega) limit (by omega) (by rw [hm]; simp)
      rw [hm] at hfacts
      simp only [Option.getD_some] at hfacts
      obtain ⟨hf1, hf2, hf3, hfMP⟩ := hfacts
      have hms_len : ms ≤ chunk.data.length := by omega
      have hme_len : me ≤ chunk.data.length := by omega
      have hms_me : ms + (me - ms) = me := by omega
      have hLle : flStart chunk.data ms ≤ ms := flStart_le chunk.data ms
      have hnonl : ∀ j, flStart chunk.data ms ≤ j → j < me →
          chunk.data.getD j 0 ≠ NL := by
        intro j hj1 hj2
        by_cases hjm : j < ms
        · exact flStart_no_nl chunk.data ms j hj1 hjm
        · exact hc.2.1 ms hms_len me hme_len hfMP j hj2 (by omega)
      have hLme : line_end chunk.data (flStart chunk.data ms)
          = line_end chunk.data me :=
        line_end_congr chunk.data (flStart chunk.data ms) me (by omega)
          hme_len hnonl
      have hline : find_line chunk.data ⟨ci, 0, chunk.data.length⟩ ms (me - ms)
          = ⟨ci, flStart chunk.data ms,
              line_end chunk.data (flStart chunk.data ms)
                - flStart chunk.data ms⟩ := by
        rw [find_line_whole, hms_me, hLme]
      rw [hline]
      dsimp only
      have hle_ms : line_end chunk.data ms
          = line_end chunk.data (flStart chunk.data ms) :=
        (line_end_congr chunk.data (flStart chunk.data ms) ms (by omega)
          hms_len (fun j hj1 hj2 => flStart_no_nl chunk.data ms j hj1 hj2)).symm
      have hms_le : ms ≤ sT := by
        by_contra hcon
        push_neg at hcon
        have hsTlim : sT ≤ limit := by omega
        have heTlim : eT ≤ limit := by
          have := line_end_min chunk.data sT limit hsTlim hlimNL
          omega
        have hc4 := hc.2.2.2 tri.2.1 (by omega) limit (by omega) eT heTlim sT hse
          (by omega) (by rw [hm]; simp)
        rw [hm] at hc4
        simp only [Option.getD_some] at hc4
        exact hc4 hcon hMP
      have hlineEnd_ge : ms ≤ line_end chunk.data (flStart chunk.data ms) := by
        have := line_end_ge chunk.data ms hms_len
        omega
      by_cases hsame : flStart chunk.data ms = flStart chunk.data sT
      · rw [hsame]
        rw [if_pos hvT]
        have hs2 := find_match_pairs env chunk ⟨ci, ms, me - ms⟩
          ⟨ci, flStart chunk.data sT,
            line_end chunk.data (flStart chunk.data sT) - flStart chunk.data sT⟩
          s hfp hmm hex htree hsortL
        have hex2 : (find_match env chunk ⟨ci, ms, me - ms⟩
            ⟨ci, flStart chunk.data sT,
              line_end chunk.data (flStart chunk.data sT) - flStart chunk.data sT⟩
            s).exitr = .kExitNone := by
          rw [find_match_exitr _ _ _ _ _ hmm]
          exact hex
        obtain ⟨⟨t1, ht1⟩, _⟩ := fsLoop_keep env M ci chunk maxpos hmm f tri.1
          (flStart chunk.data sT
            + (line_end chunk.data (flStart chunk.data sT) - flStart chunk.data sT)
            + 1) tri.2.2 _ hex2
        rw [ht1, outPairs_append]
        apply List.mem_append_left
        rw [hs2]
        exact List.mem_append_right _ hpr
      · have hsT_far : line_end chunk.data ms < sT := by
          by_contra hcon
          push_neg at hcon
          exact hsame (flStart_of_between chunk.data ms sT hms_le hcon).symm
        by_cases hv : utf8_valid ((chunk.data.drop (flStart chunk.data ms)).take
            (line_end chunk.data (flStart chunk.data ms)
              - flStart chunk.data ms)) = true
        · rw [if_pos hv]
          have hex2 : (find_match env chunk ⟨ci, ms, me - ms⟩
              ⟨ci, flStart chunk.data ms,
                line_end chunk.data (flStart chunk.data ms)
                  - flStart chunk.data ms⟩ s).exitr = .kExitNone := by
            rw [find_match_exitr _ _ _ _ _ hmm]
            exact hex
          exact ih tri.1 _ tri.2.2 _ hex2 (by omega) (by omega) (Or.inl htri4) pr hpr
        · rw [if_neg hv]
          exact ih tri.1 _ tri.2.2 s hex (by omega) (by omega) (Or.inl htri4) pr hpr

/-! ### The candidate loop of `search_lines` -/

theorem mp_le_line_end (d : List Byte) (M : Matcher) (MP : Nat → Nat → Prop)
    (hc : MContract d M MP) (sT eT : Nat) (hMP : MP sT eT) (hse : sT ≤ eT)
    (heT : eT ≤ d.length) : eT ≤ line_end d sT := by
  by_contra hcon
  push_neg at hcon
  have hlt : line_end d sT < d.length := by omega
  have hnl := line_end_nl d sT hlt
  exact hc.2.1 sT (by omega) eT heT hMP (line_end d sT)
    hcon (line_end_ge d sT (by omega)) hnl

theorem line_start_le (d : List Byte) (x : Nat) : line_start d x ≤ x := by
  unfold line_start
  cases he : memrchr d NL x with
  | none => exact Nat.zero_le x
  | some i =>
    dsimp only
    have := (memrchr_some_spec d NL x i he).1
    omega

/-- A suffix accepted by a well-formed non-empty key starts at an
in-range, non-newline byte. -/
theorem keyAcc_no_nl (d : List Byte) (k : IndexKey) (hkWF : keyWFB k = true)
    (hkem : k.empt = false) (p : Nat) (hacc : keyAccB d k p = true) :
    p < d.length ∧ d.getD p 0 ≠ NL := by
  cases k with
  | node e rs =>
    have he : e = false := by
      simp only [IndexKey.empt, Bool.or_eq_false_iff] at hkem
      exact hkem.1
    rw [keyAccB, he, Bool.false_or] at hacc
    obtain ⟨lo, hi, c, hm, h1, h2, _⟩ := keyAccBL_exists d rs p hacc
    rw [keyWFB] at hkWF
    obtain ⟨_, _, hrange, _⟩ := keyWFBL_mem rs hkWF lo hi c hm
    have hne : byteD d p ≠ NL := by
      rcases hrange with hlt | hgt
      · simp only [NL] at hlt ⊢
        omega
      · simp only [NL] at hgt ⊢
        omega
    have hp : p < d.length := by
      by_contra hp
      push_neg at hp
      exact hne (getD_nl_out d p hp)
    refine ⟨hp, ?_⟩
    unfold byteD at hne
    rw [getD_in_range d p 0 NL hp]
    exact hne

theorem slLoop_keep (env : Env) (M : Matcher) (ci : Nat) (chunk : Chunk)
    (hmm : env.maxMatches = none) :
    ∀ (cands : List Nat) (finger minv maxv : Nat) (s : SState),
      s.exitr = .kExitNone →
      (∃ t, (slLoop env M ci chunk cands finger minv maxv s).2.out = s.out ++ t)
      ∧ (slLoop env M ci chunk cands finger minv maxv s).2.exitr = .kExitNone := by
  intro cands
  induction cands with
  | nil =>
    intro finger minv maxv s hex
    simp only [slLoop]
    rw [exit_early_none env s hmm hex]
    dsimp only
    simp only [Bool.false_eq_true, if_false, full_search_range]
    exact fsLoop_keep env M ci chunk _ hmm _ _ _ _ s hex
  | cons x xs ih =>
    intro finger minv maxv s hex
    simp only [slLoop]
    rw [exit_early_none env s hmm hex]
    dsimp only
    simp only [Bool.false_eq_true, if_false]
    by_cases h1 : x < maxv
    · rw [if_pos h1]
      exact ih finger minv maxv s hex
    · rw [if_neg h1]
      by_cases h2 : x < maxv + kMinSkip
      · rw [if_pos h2]
        exact ih finger minv x s hex
      · rw [if_neg h2]
        simp only [full_search_range]
        obtain ⟨⟨t0, ht0⟩, hex0⟩ := fsLoop_keep env M ci chunk
          (line_end chunk.data maxv) hmm (chunk.data.length + 2) finger minv minv
          s hex
        obtain ⟨⟨t1, ht1⟩, hex1⟩ := ih _ (line_start chunk.data x) x _ hex0
        exact ⟨⟨t0 ++ t1, by rw [ht1, ht0, List.append_assoc]⟩, hex1⟩

theorem slLoop_sound (env : Env) (M : Matcher) (MP : Nat → Nat → Prop)
    (ci : Nat) (chunk : Chunk)
    (hfp : env.filePat = none) (hmm : env.maxMatches = none)
    (htree : chunk.tree = buildTree chunk.cfiles)
    (hsortL : chunk.cfiles.Pairwise (fun a b => a.left ≤ b.left))
    (hc : MContract chunk.data M MP)
    (hne : chunk.data.length ≠ 0)
    (hlastNL : chunk.data.getD (chunk.data.length - 1) 0 = NL) :
    ∀ (cands : List Nat) (finger minv maxv : Nat) (s : SState),
      s.exitr = .kExitNone → maxv < chunk.data.length →
      (∀ z ∈ cands, z < chunk.data.length) →
      ∀ pr, pr ∈ outPairs (slLoop env M ci chunk cands finger minv maxv s).2.out →
        pr ∈ outPairs s.out
        ∨ chunkPairs env.files env.chunksData MP ci chunk pr := by
  intro cands
  induction cands with
  | nil =>
    intro finger minv maxv s hex hmaxb _ pr hpr
    simp only [slLoop] at hpr
    rw [exit_early_none env s hmm hex] at hpr
    dsimp only at hpr
    simp only [Bool.false_eq_true, if_false, full_search_range] at hpr
    have hlem : line_end chunk.data maxv ≤ chunk.data.length - 1 :=
      line_end_min chunk.data maxv (chunk.data.length - 1) (by omega) hlastNL
    exact fsLoop_sound env M MP ci chunk (line_end chunk.data maxv) hfp hmm htree
      hsortL hc (by omega) (line_end_nl chunk.data maxv (by omega)) _ finger minv
      minv s hex (Or.inr (Nat.le_refl minv)) pr hpr
  | cons x xs ih =>
    intro finger minv maxv s hex hmaxb hbound pr hpr
    have hxlen : x < chunk.data.length := hbound x (List.mem_cons_self _ _)
    have hbound' : ∀ z ∈ xs, z < chunk.data.length :=
      fun z hz => hbound z (List.mem_cons_of_mem _ hz)
    simp only [slLoop] at hpr
    rw [exit_early_none env s hmm hex] at hpr
    dsimp only at hpr
    simp only [Bool.false_eq_true, if_false] at hpr
    by_cases h1 : x < maxv
    · rw [if_pos h1] at hpr
      exact ih finger minv maxv s hex hmaxb hbound' pr hpr
    · rw [if_neg h1] at hpr
      by_cases h2 : x < maxv + kMinSkip
      · rw [if_pos h2] at hpr
        exact ih finger minv x s hex hxlen hbound' pr hpr
      · rw [if_neg h2] at hpr
        simp only [full_search_range] at hpr
        have hlem : line_end chunk.data maxv ≤ chunk.data.length - 1 :=
          line_end_min chunk.data maxv (chunk.data.length - 1) (by omega) hlastNL
        obtain ⟨_, hex0⟩ := fsLoop_keep env M ci chunk
          (line_end chunk.data maxv) hmm (chunk.data.length + 2) finger minv minv
          s hex
        rcases ih _ (line_start chunk.data x) x _ hex0 hxlen hbound' pr hpr
          with hold | hnew
        · exact fsLoop_sound env M MP ci chunk (line_end chunk.data maxv) hfp hmm
            htree hsortL hc (by omega) (line_end_nl chunk.data maxv (by omega)) _
            finger minv minv s hex (Or.inr (Nat.le_refl minv)) pr hold
        · exact Or.inr hnew

theorem slLoop_complete (env : Env) (M : Matcher) (MP : Nat → Nat → Prop)
    (ci : Nat) (chunk : Chunk)
    (hfp : env.filePat = none) (hmm : env.maxMatches = none)
    (htree : chunk.tree = buildTree chunk.cfiles)
    (hsortL : chunk.cfiles.Pairwise (fun a b => a.left ≤ b.left))
    (hc : MContract chunk.data M MP)
    (hne : chunk.data.length ≠ 0)
    (hlastNL : chunk.data.getD (chunk.data.length - 1) 0 = NL)
    (sT eT : Nat) (hMP : MP sT eT) (hse : sT ≤ eT)
    (heT : eT + 1 ≤ chunk.data.length)
    (hsNL : chunk.data.getD sT 0 ≠ NL)
    (hvT : utf8_valid ((chunk.data.drop (flStart chunk.data sT)).take
      (line_end chunk.data (flStart chunk.data sT) - flStart chunk.data sT)) = true) :
    ∀ (cands : List Nat) (finger minv maxv : Nat) (s : SState),
      s.exitr = .kExitNone →
      cands.Pairwise (fun a b => a ≤ b) →
      (∀ z ∈ cands, maxv ≤ z) →
      (∀ z ∈ cands, z < chunk.data.length) →
      maxv < chunk.data.length → minv ≤ maxv →
      (sT ∈ cands ∨ (minv ≤ sT ∧ sT ≤ maxv)) →
      ∀ pr, pr ∈ linePairs env.files env.chunksData chunk
          ⟨ci, flStart chunk.data sT,
            line_end chunk.data (flStart chunk.data sT) - flStart chunk.data sT⟩ →
        pr ∈ outPairs (slLoop env M ci chunk cands finger minv maxv s).2.out := by
  have heTle : eT ≤ line_end chunk.data sT :=
    mp_le_line_end chunk.data M MP hc sT eT hMP hse (by omega)
  intro cands
  induction cands with
  | nil =>
    intro finger minv maxv s hex _ _ _ hmaxb hminmax hcover pr hpr
    rcases hcover with habs | ⟨hw1, hw2⟩
    · exact absurd habs (List.not_mem_nil sT)
    simp only [slLoop]
    rw [exit_early_none env s hmm hex]
    dsimp only
    simp only [Bool.false_eq_true, if_false, full_search_range]
    have hlem : line_end chunk.data maxv ≤ chunk.data.length - 1 :=
      line_end_min chunk.data maxv (chunk.data.length - 1) (by omega) hlastNL
    have hmono : line_end chunk.data sT ≤ line_end chunk.data maxv :=
      line_end_mono chunk.data sT maxv hw2 (by omega)
    exact fsLoop_complete env M MP ci chunk (line_end chunk.data maxv) hfp hmm
      htree hsortL hc (by omega) (line_end_nl chunk.data maxv (by omega))
      sT eT hMP hse (by omega) hsNL hvT _ finger minv minv s hex (by omega) hw1
      (Or.inr (Nat.le_refl minv)) pr hpr
  | cons x xs ih =>
    intro finger minv maxv s hex hsorted hmx hbound hmaxb hminmax hcover pr hpr
    have hxlen : x < chunk.data.length := hbound x (List.mem_cons_self _ _)
    have hbound' : ∀ z ∈ xs, z < chunk.data.length :=
      fun z hz => hbound z (List.mem_cons_of_mem _ hz)
    have hxz : ∀ z ∈ xs, x ≤ z := (List.pairwise_cons.mp hsorted).1
    have hsorted' : xs.Pairwise (fun a b => a ≤ b) :=
      (List.pairwise_cons.mp hsorted).2
    have hmaxx : maxv ≤ x := hmx x (List.mem_cons_self _ _)
    simp only [slLoop]
    rw [exit_early_none env s hmm hex]
    dsimp only
    simp only [Bool.false_eq_true, if_false]
    rw [if_neg (show ¬ x < maxv by omega)]
    by_cases h2 : x < maxv + kMinSkip
    · rw [if_pos h2]
      apply ih finger minv x s hex hsorted' hxz hbound' hxlen (by omega) _ pr hpr
      rcases hcover with hmem | ⟨hw1, hw2⟩
      · rcases List.mem_cons.mp hmem with hh | ht
        · exact Or.inr ⟨by omega, by omega⟩
        · exact Or.inl ht
      · exact Or.inr ⟨hw1, by omega⟩
    · rw [if_neg h2]
      simp only [full_search_range]
      have hlem : line_end chunk.data maxv ≤ chunk.data.length - 1 :=
        line_end_min chunk.data maxv (chunk.data.length - 1) (by omega) hlastNL
      obtain ⟨_, hex0⟩ := fsLoop_keep env M ci chunk
        (line_end chunk.data maxv) hmm (chunk.data.length + 2) finger minv minv
        s hex
      rcases hcover with hmem | ⟨hw1, hw2⟩
      · -- the target is a later candidate: the recursion captures it
        apply ih _ (line_start chunk.data x) x _ hex0 hsorted' hxz hbound' hxlen
          (line_start_le chunk.data x) _ pr hpr
        rcases List.mem_cons.mp hmem with hh | ht
        · exact Or.inr ⟨by rw [hh]; exact line_start_le chunk.data x, by omega⟩
        · exact Or.inl ht
      · -- the target is inside the flushed window
        have hmono : line_end chunk.data sT ≤ line_end chunk.data maxv :=
          line_end_mono chunk.data sT maxv hw2 (by omega)
        have hcap := fsLoop_complete env M MP ci chunk (line_end chunk.data maxv)
          hfp hmm htree hsortL hc (by omega)
          (line_end_nl chunk.data maxv (by omega)) sT eT hMP hse (by omega) hsNL
          hvT (chunk.data.length + 2) finger minv minv s hex (by omega) hw1
          (Or.inr (Nat.le_refl minv)) pr hpr
        obtain ⟨⟨t, ht⟩, _⟩ := slLoop_keep env M ci chunk hmm xs _
          (line_start chunk.data x) x _ hex0
        rw [ht, outPairs_append]
        exact List.mem_append_left _ hcap

/-! ### Per-chunk characterization: the full scan -/

theorem full_search_chunk_keep (env : Env) (M : Matcher) (ci : Nat)
    (chunk : Chunk) (hmm : env.maxMatches = none) (s : SState)
    (hex : s.exitr = .kExitNone) :
    (∃ t, (full_search_chunk env M ci chunk s).out = s.out ++ t)
    ∧ (full_search_chunk env M ci chunk s).exitr = .kExitNone := by
  unfold full_search_chunk full_search_range
  exact fsLoop_keep env M ci chunk (chunk.data.length - 1) hmm
    (chunk.data.length + 2) 0 0 0 s hex

/-- The full (unfiltered) scan of a chunk emits exactly the pairs of the
UTF-8-valid lines holding a match, on top of what was already queued. -/
theorem full_search_chunk_pairs (env : Env) (M : Matcher) (MP : Nat → Nat → Prop)
    (ci : Nat) (chunk : Chunk)
    (hfp : env.filePat = none) (hmm : env.maxMatches = none)
    (htree : chunk.tree = buildTree chunk.cfiles)
    (hsortL : chunk.cfiles.Pairwise (fun a b => a.left ≤ b.left))
    (hc : MContract chunk.data M MP)
    (hne : chunk.data.length ≠ 0)
    (hlastNL : chunk.data.getD (chunk.data.length - 1) 0 = NL)
    (hMPnl : ∀ s' e', MP s' e' → s' ≤ e' → e' + 1 ≤ chunk.data.length →
      chunk.data.getD s' 0 ≠ NL)
    (s : SState) (hex : s.exitr = .kExitNone) :
    ∀ pr, pr ∈ outPairs (full_search_chunk env M ci chunk s).out ↔
      pr ∈ outPairs s.out
      ∨ chunkPairs env.files env.chunksData MP ci chunk pr := by
  intro pr
  constructor
  · intro hpr
    unfold full_search_chunk full_search_range at hpr
    exact fsLoop_sound env M MP ci chunk (chunk.data.length - 1) hfp hmm htree
      hsortL hc (by omega) hlastNL _ 0 0 0 s hex (Or.inr (Nat.le_refl 0)) pr hpr
  · intro h
    rcases h with hold | hnew
    · obtain ⟨⟨t, ht⟩, _⟩ := full_search_chunk_keep env M ci chunk hmm s hex
      rw [ht, outPairs_append]
      exact List.mem_append_left _ hold
    · obtain ⟨L, ⟨sT, eT, hse, heT, hMP, hfl⟩, hv, hpr⟩ := hnew
      subst hfl
      unfold full_search_chunk full_search_range
      exact fsLoop_complete env M MP ci chunk (chunk.data.length - 1) hfp hmm
        htree hsortL hc (by omega) hlastNL sT eT hMP hse (by omega)
        (hMPnl sT eT hMP hse heT) hv (chunk.data.length + 2) 0 0 0 s hex
        (by omega) (by omega) (Or.inr (Nat.le_refl 0)) pr hpr

/-! ### Per-chunk characterization: the filtered path -/

theorem search_lines_keep (env : Env) (M : Matcher) (ci : Nat) (chunk : Chunk)
    (indexes : List Nat) (count : Nat) (hmm : env.maxMatches = none)
    (s : SState) (hex : s.exitr = .kExitNone) :
    (∃ t, (search_lines env M ci chunk indexes count s).out = s.out ++ t)
    ∧ (search_lines env M ci chunk indexes count s).exitr = .kExitNone := by
  unfold search_lines
  by_cases h0 : count = 0
  · rw [if_pos h0]
    exact ⟨⟨[], (List.append_nil _).symm⟩, hex⟩
  · rw [if_neg h0]
    by_cases h1 : count * kMinFilterRatio > chunk.data.length
    · rw [if_pos h1]
      exact full_search_chunk_keep env M ci chunk hmm s hex
    · rw [if_neg h1]
      by_cases h2 : (env.filePat.isSome
          && env.densityFallback count chunk.data.length) = true
      · rw [if_pos h2]
        exact full_search_chunk_keep env M ci chunk hmm s hex
      · rw [if_neg h2]
        cases hs : isortBy (fun a b => decide (a ≤ b)) (indexes.take count) with
        | nil => exact ⟨⟨[], (List.append_nil _).symm⟩, hex⟩
        | cons x0 rest =>
          exact slLoop_keep env M ci chunk hmm rest 0 (line_start chunk.data x0)
            x0 s hex

theorem filtered_search_keep (env : Env) (M : Matcher) (ci : Nat) (chunk : Chunk)
    (key : IndexKey) (hmm : env.maxMatches = none)
    (s : SState) (hex : s.exitr = .kExitNone) :
    (∃ t, (filtered_search env M ci chunk key s).out = s.out ++ t)
    ∧ (filtered_search env M ci chunk key s).exitr = .kExitNone := by
  unfold filtered_search
  exact search_lines_keep env M ci chunk _ _ hmm s hex

/-- The index-driven path emits exactly the pairs of the UTF-8-valid
lines holding a match, on top of what was already queued: the walker is
conservative (`walk_conservative`), so every matching line survives into
the candidate set whenever the walk completes within budget, and every
over-budget or unselective outcome falls back to the full scan. -/
theorem filtered_search_pairs (env : Env) (M : Matcher) (MP : Nat → Nat → Prop)
    (ci : Nat) (chunk : Chunk) (key : IndexKey)
    (hfp : env.filePat = none) (hmm : env.maxMatches = none)
    (htree : chunk.tree = buildTree chunk.cfiles)
    (hsortL : chunk.cfiles.Pairwise (fun a b => a.left ≤ b.left))
    (hc : MContract chunk.data M MP)
    (hne : chunk.data.length ≠ 0)
    (hlastNL : chunk.data.getD (chunk.data.length - 1) 0 = NL)
    (hsalen : chunk.suffixes.length = chunk.data.length)
    (hsamem : ∀ p, p < chunk.data.length → p ∈ chunk.suffixes)
    (hsabound : ∀ x ∈ chunk.suffixes, x < chunk.data.length)
    (hsasorted : chunk.suffixes.Pairwise
      (fun i j => suffixLE chunk.data i j = true))
    (hsize : chunk.data.length ≤ kChunkSize)
    (hkWF : keyWFB key = true) (hkem : key.empt = false)
    (hkAcc : ∀ s' e', MP s' e' → s' ≤ e' → e' + 1 ≤ chunk.data.length →
      keyAccB chunk.data key s' = true)
    (s : SState) (hex : s.exitr = .kExitNone) :
    ∀ pr, pr ∈ outPairs (filtered_search env M ci chunk key s).out ↔
      pr ∈ outPairs s.out
      ∨ chunkPairs env.files env.chunksData MP ci chunk pr := by
  have hMPnl : ∀ s' e', MP s' e' → s' ≤ e' → e' + 1 ≤ chunk.data.length →
      chunk.data.getD s' 0 ≠ NL :=
    fun s' e' h1 h2 h3 =>
      (keyAcc_no_nl chunk.data key hkWF hkem s' (hkAcc s' e' h1 h2 h3)).2
  intro pr
  simp only [filtered_search]
  set B := kChunkSize / kMinFilterRatio with hB
  set cb := walkLoop chunk.data chunk.suffixes B
    [⟨0, chunk.data.length, some key, 0⟩] 0 [] with hcb
  have hbud : cb.2.length ≤ B ∧ (cb.1 = B + 1 ∨ (cb.1 ≤ B ∧ cb.1 = cb.2.length)) := by
    rw [hcb]
    unfold walkLoop
    apply walkLoopF_budget chunk.data chunk.suffixes B _ _ 0 [] _ rfl (Nat.zero_le _)
    intro fr hfr
    simp only [List.mem_singleton] at hfr
    subst hfr
    refine ⟨Nat.zero_le _, ?_⟩
    show chunk.data.length ≤ chunk.suffixes.length
    omega
  have hcons : ∀ p, p < chunk.data.length → keyAccB chunk.data key p = true →
      cb.1 = B + 1 ∨ p ∈ cb.2 := by
    intro p hp hacc
    rw [hcb]
    exact walk_conservative chunk.data chunk.suffixes B key p hsasorted hsalen
      (hsamem p hp) hkWF hacc
  have hbufmem : ∀ x ∈ cb.2, x < chunk.data.length := by
    intro x hx
    rw [hcb] at hx
    unfold walkLoop at hx
    rcases walk_buf_mem chunk.data chunk.suffixes B _ _ _ _ x hx with h0 | h1
    · exact absurd h0 (List.not_mem_nil x)
    · exact hsabound x h1
  unfold search_lines
  by_cases h0 : cb.1 = 0
  · rw [if_pos h0]
    constructor
    · exact fun hpr => Or.inl hpr
    · intro h
      rcases h with hold | hnew
      · exact hold
      · exfalso
        obtain ⟨L, ⟨sT, eT, hseT, heTT, hMPT, hfl⟩, hv, hpr2⟩ := hnew
        have hacc := hkAcc sT eT hMPT hseT heTT
        have hsTlt := (keyAcc_no_nl chunk.data key hkWF hkem sT hacc).1
        rcases hcons sT hsTlt hacc with hb | hm
        · omega
        · rcases hbud.2 with hb2 | ⟨_, hlen0⟩
          · omega
          · have hnil : cb.2 = [] := List.eq_nil_of_length_eq_zero (by omega)
            rw [hnil] at hm
            exact absurd hm (List.not_mem_nil sT)
  · rw [if_neg h0]
    by_cases h1 : cb.1 * kMinFilterRatio > chunk.data.length
    · rw [if_pos h1]
      exact full_search_chunk_pairs env M MP ci chunk hfp hmm htree hsortL hc hne
        hlastNL hMPnl s hex pr
    · rw [if_neg h1]
      have hfps : env.filePat.isSome = false := by rw [hfp]; rfl
      rw [hfps]
      simp only [Bool.false_and, Bool.false_eq_true, if_false]
      have hcnt : cb.1 = cb.2.length ∧ cb.1 ≤ B := by
        rcases hbud.2 with hb2 | ⟨hle, heq⟩
        · exfalso
          have h50 : kMinFilterRatio = 50 := rfl
          rw [h50] at h1 hB
          omega
        · exact ⟨heq, hle⟩
      obtain ⟨hcl, hcble⟩ := hcnt
      rw [hcl, List.take_length]
      cases hs : isortBy (fun a b => decide (a ≤ b)) cb.2 with
      | nil =>
        constructor
        · exact fun hpr => Or.inl hpr
        · intro h
          rcases h with hold | hnew
          · exact hold
          · exfalso
            obtain ⟨L, ⟨sT, eT, hseT, heTT, hMPT, hfl⟩, hv, hpr2⟩ := hnew
            have hacc := hkAcc sT eT hMPT hseT heTT
            have hsTlt := (keyAcc_no_nl chunk.data key hkWF hkem sT hacc).1
            rcases hcons sT hsTlt hacc with hb | hm
            · omega
            · have hmem : sT ∈ isortBy (fun a b : Nat => decide (a ≤ b)) cb.2 :=
                (isort_mem cb.2 sT).mpr hm
              rw [hs] at hmem
              exact absurd hmem (List.not_mem_nil sT)
      | cons x0 rest =>
        have hmem_iff : ∀ a : Nat, a ∈ x0 :: rest ↔ a ∈ cb.2 := by
          intro a
          rw [← hs]
          exact isort_mem cb.2 a
        have hx0 : x0 < chunk.data.length :=
          hbufmem x0 ((hmem_iff x0).mp (List.mem_cons_self _ _))
        have hrest : ∀ z ∈ rest, z < chunk.data.length :=
          fun z hz => hbufmem z ((hmem_iff z).mp (List.mem_cons_of_mem _ hz))
        have hsort2 : (x0 :: rest).Pairwise (fun a b : Nat => a ≤ b) := by
          rw [← hs]
          exact isort_sorted cb.2
        have hxz : ∀ z ∈ rest, x0 ≤ z := (List.pairwise_cons.mp hsort2).1
        have hsortr : rest.Pairwise (fun a b : Nat => a ≤ b) :=
          (List.pairwise_cons.mp hsort2).2
        constructor
        · intro hpr
          exact slLoop_sound env M MP ci chunk hfp hmm htree hsortL hc hne
            hlastNL rest 0 (line_start chunk.data x0) x0 s hex hx0 hrest pr hpr
        · intro h
          rcases h with hold | hnew
          · obtain ⟨⟨t, ht⟩, _⟩ := slLoop_keep env M ci chunk hmm rest 0
              (line_start chunk.data x0) x0 s hex
            rw [ht, outPairs_append]
            exact List.mem_append_left _ hold
          · obtain ⟨L, ⟨sT, eT, hseT, heTT, hMPT, hfl⟩, hv, hpr2⟩ := hnew
            subst hfl
            have hacc := hkAcc sT eT hMPT hseT heTT
            have hsTlt := (keyAcc_no_nl chunk.data key hkWF hkem sT hacc).1
            have hsTmem : sT ∈ x0 :: rest := by
              apply (hmem_iff sT).mpr
              rcases hcons sT hsTlt hacc with hb | hm
              · omega
              · exact hm
            apply slLoop_complete env M MP ci chunk hfp hmm htree hsortL hc hne
              hlastNL sT eT hMPT hseT heTT
              (keyAcc_no_nl chunk.data key hkWF hkem sT hacc).2 hv rest 0
              (line_start chunk.data x0) x0 s hex hsortr hxz hrest hx0
              (line_start_le chunk.data x0) _ pr hpr2
            rcases List.mem_cons.mp hsTmem with hh | ht
            · exact Or.inr ⟨by rw [hh]; exact line_start_le chunk.data x0,
                Nat.le_of_eq hh⟩
            · exact Or.inl ht

/-! ### Environment congruence: the searcher never reads `flagIndex` or
the density estimate outside the dispatch and dead branches, so two
environments agreeing on files, chunk data, file pattern and cap drive
identical scans. -/

theorem acceptPath_congr (env1 env2 : Env) (h3 : env1.filePat = env2.filePat) :
    acceptPath env1 = acceptPath env2 := by
  funext p
  unfold acceptPath
  rw [h3]

theorem acceptSF_congr (env1 env2 : Env) (h3 : env1.filePat = env2.filePat) :
    acceptSF env1 = acceptSF env2 := by
  funext sf
  unfold acceptSF
  rw [h3, acceptPath_congr env1 env2 h3]

theorem acceptList_congr (env1 env2 : Env) (h1 : env1.files = env2.files)
    (h3 : env1.filePat = env2.filePat) :
    acceptList env1 = acceptList env2 := by
  funext fnos
  unfold acceptList
  rw [h1, acceptSF_congr env1 env2 h3]

theorem exit_early_congr (env1 env2 : Env)
    (h4 : env1.maxMatches = env2.maxMatches) :
    exit_early env1 = exit_early env2 := by
  funext s
  unfold exit_early
  rw [h4]

theorem tmStep_congr (env1 env2 : Env) (h3 : env1.filePat = env2.filePat) :
    tmStep env1 = tmStep env2 := by
  funext sf ctx gs p
  unfold tmStep
  rw [acceptPath_congr env1 env2 h3]

theorem tryMatchPaths_congr (env1 env2 : Env) (h3 : env1.filePat = env2.filePat) :
    tryMatchPaths env1 = tryMatchPaths env2 := by
  funext sf ctx acc
  unfold tryMatchPaths
  rw [tmStep_congr env1 env2 h3]

theorem try_match_congr (env1 env2 : Env)
    (h2 : env1.chunksData = env2.chunksData)
    (h3 : env1.filePat = env2.filePat) :
    try_match env1 = try_match env2 := by
  funext g line mtch sf s
  unfold try_match
  rw [h2, tryMatchPaths_congr env1 env2 h3]

theorem vfStep_congr (env1 env2 : Env) (h1 : env1.files = env2.files)
    (h2 : env1.chunksData = env2.chunksData)
    (h3 : env1.filePat = env2.filePat)
    (h4 : env1.maxMatches = env2.maxMatches) :
    vfStep env1 = vfStep env2 := by
  funext line mtch gs fno
  unfold vfStep
  rw [h1, acceptSF_congr env1 env2 h3, exit_early_congr env1 env2 h4,
    try_match_congr env1 env2 h2 h3]

theorem visitFiles_congr (env1 env2 : Env) (h1 : env1.files = env2.files)
    (h2 : env1.chunksData = env2.chunksData)
    (h3 : env1.filePat = env2.filePat)
    (h4 : env1.maxMatches = env2.maxMatches) :
    visitFiles env1 = visitFiles env2 := by
  funext line mtch fnos gs
  unfold visitFiles
  rw [vfStep_congr env1 env2 h1 h2 h3 h4]

theorem fmbStep_congr (env1 env2 : Env) (h1 : env1.files = env2.files)
    (h2 : env1.chunksData = env2.chunksData)
    (h3 : env1.filePat = env2.filePat)
    (h4 : env1.maxMatches = env2.maxMatches) :
    fmbStep env1 = fmbStep env2 := by
  funext line mtch loff gs cf
  unfold fmbStep
  rw [visitFiles_congr env1 env2 h1 h2 h3 h4]

theorem find_match_brute_congr (env1 env2 : Env) (h1 : env1.files = env2.files)
    (h2 : env1.chunksData = env2.chunksData)
    (h3 : env1.filePat = env2.filePat)
    (h4 : env1.maxMatches = env2.maxMatches) :
    find_match_brute env1 = find_match_brute env2 := by
  funext chunk mtch line s
  unfold find_match_brute
  rw [fmbStep_congr env1 env2 h1 h2 h3 h4]

theorem find_match_congr (env1 env2 : Env) (chunk : Chunk)
    (h1 : env1.files = env2.files)
    (h2 : env1.chunksData = env2.chunksData)
    (h3 : env1.filePat = env2.filePat)
    (h4 : env1.maxMatches = env2.maxMatches)
    (htree : chunk.tree = buildTree chunk.cfiles)
    (hsortL : chunk.cfiles.Pairwise (fun a b => a.left ≤ b.left)) :
    find_match env1 chunk = find_match env2 chunk := by
  funext mtch line s
  rw [find_match_eq_brute env1 chunk mtch line s htree hsortL,
    find_match_eq_brute env2 chunk mtch line s htree hsortL,
    find_match_brute_congr env1 env2 h1 h2 h3 h4]

theorem fsLoop_congr (env1 env2 : Env) (M : Matcher) (ci : Nat) (chunk : Chunk)
    (maxpos : Nat)
    (h1 : env1.files = env2.files)
    (h2 : env1.chunksData = env2.chunksData)
    (h3 : env1.filePat = env2.filePat)
    (h4 : env1.maxMatches = env2.maxMatches)
    (hfp1 : env1.filePat = none)
    (htree : chunk.tree = buildTree chunk.cfiles)
    (hsortL : chunk.cfiles.Pairwise (fun a b => a.left ≤ b.left)) :
    ∀ (fuel finger pos endv : Nat) (s : SState),
      fsLoop env1 M ci chunk maxpos fuel finger pos endv s
      = fsLoop env2 M ci chunk maxpos fuel finger pos endv s := by
  have hfp2 : env2.filePat = none := by rw [← h3]; exact hfp1
  intro fuel
  induction fuel with
  | zero => intro finger pos endv s; rfl
  | succ f ih =>
    intro finger pos endv s
    simp only [fsLoop, exit_early_congr env1 env2 h4,
      next_range_nofp env1 chunk.cfiles finger pos maxpos maxpos hfp1,
      next_range_nofp env2 chunk.cfiles finger pos maxpos maxpos hfp2,
      find_match_congr env1 env2 chunk h1 h2 h3 h4 htree hsortL, ih]

theorem full_search_chunk_congr (env1 env2 : Env) (M : Matcher) (ci : Nat)
    (chunk : Chunk)
    (h1 : env1.files = env2.files)
    (h2 : env1.chunksData = env2.chunksData)
    (h3 : env1.filePat = env2.filePat)
    (h4 : env1.maxMatches = env2.maxMatches)
    (hfp1 : env1.filePat = none)
    (htree : chunk.tree = buildTree chunk.cfiles)
    (hsortL : chunk.cfiles.Pairwise (fun a b => a.left ≤ b.left))
    (s : SState) :
    full_search_chunk env1 M ci chunk s = full_search_chunk env2 M ci chunk s := by
  unfold full_search_chunk full_search_range
  rw [fsLoop_congr env1 env2 M ci chunk (chunk.data.length - 1) h1 h2 h3 h4 hfp1
    htree hsortL]

/-! ### The dispatch and the driver -/

/-- What `chunk::finalize` guarantees for every sealed chunk (spec §3):
nonempty `'\n'`-terminated data, a suffix array that is a sorted
permutation of all offsets, `chunk_file` records sorted by `left` with
their BST, and data within the chunk capacity. -/
def ChunkWF (ch : Chunk) : Prop :=
  ch.data.length ≠ 0
  ∧ ch.data.getD (ch.data.length - 1) 0 = NL
  ∧ ch.suffixes.length = ch.data.length
  ∧ (∀ p, p < ch.data.length → p ∈ ch.suffixes)
  ∧ (∀ x ∈ ch.suffixes, x < ch.data.length)
  ∧ ch.suffixes.Pairwise (fun i j => suffixLE ch.data i j = true)
  ∧ ch.cfiles.Pairwise (fun a b => a.left ≤ b.left)
  ∧ ch.tree = buildTree ch.cfiles
  ∧ ch.data.length ≤ kChunkSize

theorem searcher_stepA_congr (env1 env2 : Env) (M : Matcher)
    (idx : Option IndexKey) (ci : Nat) (chunk : Chunk)
    (h1 : env1.files = env2.files)
    (h2 : env1.chunksData = env2.chunksData)
    (h3 : env1.filePat = env2.filePat)
    (h4 : env1.maxMatches = env2.maxMatches)
    (hfp1 : env1.filePat = none)
    (htree : chunk.tree = buildTree chunk.cfiles)
    (hsortL : chunk.cfiles.Pairwise (fun a b => a.left ≤ b.left))
    (hA : idx = none ∨ ∃ k, idx = some k ∧ k.empt = true)
    (s : SState) :
    searcher_step env1 M idx ci chunk s = searcher_step env2 M idx ci chunk s := by
  unfold searcher_step
  by_cases he : s.exitr ≠ .kExitNone
  · rw [if_pos he, if_pos he]
  · rw [if_neg he, if_neg he]
    rcases hA with hnone | ⟨k, hk, hke⟩
    · subst hnone
      exact full_search_chunk_congr env1 env2 M ci chunk h1 h2 h3 h4 hfp1
        htree hsortL s
    · subst hk
      dsimp only
      rw [hke]
      simp only [Bool.not_true, Bool.and_false, Bool.false_eq_true, if_false]
      exact full_search_chunk_congr env1 env2 M ci chunk h1 h2 h3 h4 hfp1
        htree hsortL s

/-- One driver step over a chunk with a non-empty key: for either value
of the `--index` flag, the emitted pairs are exactly the matching
UTF-8-valid lines of the chunk, on top of the queue so far. -/
theorem searcher_stepB_pairs (cor : Corpus) (M : Matcher)
    (MPf : List Byte → Nat → Nat → Prop) (k : IndexKey) (fi : Bool)
    (df : Nat → Nat → Bool) (i : Nat) (ch : Chunk)
    (hwf : ChunkWF ch) (hc : MContract ch.data M (MPf ch.data))
    (hkWF : keyWFB k = true) (hkem : k.empt = false)
    (hkAcc : ∀ s' e', MPf ch.data s' e' → s' ≤ e' → e' + 1 ≤ ch.data.length →
      keyAccB ch.data k s' = true)
    (s : SState) (hex : s.exitr = .kExitNone) :
    (searcher_step ⟨cor.files, cor.chunks.map Chunk.data, none, fi, none, df⟩
      M (some k) i ch s).exitr = .kExitNone
    ∧ ∀ pr, pr ∈ outPairs (searcher_step
        ⟨cor.files, cor.chunks.map Chunk.data, none, fi, none, df⟩
        M (some k) i ch s).out ↔
      pr ∈ outPairs s.out
      ∨ chunkPairs cor.files (cor.chunks.map Chunk.data) (MPf ch.data) i ch pr := by
  obtain ⟨hne, hlastNL, hsalen, hsamem, hsabound, hsasorted, hsortL, htree,
    hsize⟩ := hwf
  unfold searcher_step
  rw [if_neg (show ¬ s.exitr ≠ .kExitNone by rw [hex]; simp)]
  dsimp only
  rw [hkem]
  cases fi with
  | true =>
    simp only [Bool.not_false, Bool.and_self, if_true]
    constructor
    · exact (filtered_search_keep _ M i ch k rfl s hex).2
    · intro pr
      have hiff := filtered_search_pairs
        ⟨cor.files, cor.chunks.map Chunk.data, none, true, none, df⟩ M
        (MPf ch.data) i ch k rfl rfl htree hsortL hc hne hlastNL hsalen hsamem
        hsabound hsasorted hsize hkWF hkem hkAcc s hex pr
      dsimp only at hiff
      exact hiff
  | false =>
    simp only [Bool.not_false, Bool.false_and, Bool.false_eq_true, if_false]
    constructor
    · exact (full_search_chunk_keep _ M i ch rfl s hex).2
    · intro pr
      have hMPnl : ∀ s' e', MPf ch.data s' e' → s' ≤ e' →
          e' + 1 ≤ ch.data.length → ch.data.getD s' 0 ≠ NL :=
        fun s' e' ha hb hcc =>
          (keyAcc_no_nl ch.data k hkWF hkem s' (hkAcc s' e' ha hb hcc)).2
      have hiff := full_search_chunk_pairs
        ⟨cor.files, cor.chunks.map Chunk.data, none, false, none, df⟩ M
        (MPf ch.data) i ch rfl rfl htree hsortL hc hne hlastNL hMPnl s hex pr
      dsimp only at hiff
      exact hiff

/-- C1: for every finalized corpus and every pattern — modelled by a
window matcher `M` satisfying the RE2 contract `MContract` for the match
predicate `MPf`, and an analyzer key that is sound for the pattern
(every match's start suffix is accepted) — with the match cap and the
timeout removed (`maxMatches = none`, no deadline) and no file filter,
the set of `(file, line number)` pairs emitted with indexing enabled
equals the set emitted with indexing disabled. -/
theorem index_equivalence (cor : Corpus) (M : Matcher)
    (MPf : List Byte → Nat → Nat → Prop) (idx : Option IndexKey)
    (df df2 : Nat → Nat → Bool)
    (hcw : ∀ ch ∈ cor.chunks, ChunkWF ch)
    (hc : ∀ ch ∈ cor.chunks, MContract ch.data M (MPf ch.data))
    (hkey : ∀ kk, idx = some kk → kk.empt = false →
      keyWFB kk = true ∧ ∀ ch ∈ cor.chunks, ∀ s', s' ≤ ch.data.length →
        ∀ e', e' ≤ ch.data.length → MPf ch.data s' e' →
          keyAccB ch.data kk s' = true) :
    ∀ pr, pr ∈ outPairs (run_search cor M idx none true none df).out ↔
      pr ∈ outPairs (run_search cor M idx none false none df2).out := by
  intro pr
  simp only [run_search]
  have hAB : (idx = none ∨ ∃ k, idx = some k ∧ k.empt = true)
      ∨ ∃ k, idx = some k ∧ k.empt = false := by
    cases idx with
    | none => exact Or.inl (Or.inl rfl)
    | some k =>
      cases hke : k.empt with
      | true => exact Or.inl (Or.inr ⟨k, rfl, hke⟩)
      | false => exact Or.inr ⟨k, rfl, hke⟩
  rcases hAB with hA | ⟨k, hk, hke⟩
  · -- no key, or an empty key: both runs perform the same full scans
    have hrun : ∀ (l : List Nat), (∀ i ∈ l, i < cor.chunks.length) →
        ∀ s : SState,
        l.foldl (fun s i => searcher_step
          ⟨cor.files, cor.chunks.map Chunk.data, none, true, none, df⟩
          M idx i (cor.chunks.getD i emptyChunk) s) s
        = l.foldl (fun s i => searcher_step
          ⟨cor.files, cor.chunks.map Chunk.data, none, false, none, df2⟩
          M idx i (cor.chunks.getD i emptyChunk) s) s := by
      intro l
      induction l with
      | nil => intro _ s; rfl
      | cons i l2 ih =>
        intro hb s
        have hil : i < cor.chunks.length := hb i (List.mem_cons_self _ _)
        have hmem : cor.chunks.getD i emptyChunk ∈ cor.chunks := by
          rw [List.getD_eq_getElem cor.chunks emptyChunk hil]
          exact List.getElem_mem hil
        obtain ⟨_, _, _, _, _, _, hsortL, htree, _⟩ := hcw _ hmem
        simp only [List.foldl_cons]
        rw [searcher_stepA_congr
          ⟨cor.files, cor.chunks.map Chunk.data, none, true, none, df⟩
          ⟨cor.files, cor.chunks.map Chunk.data, none, false, none, df2⟩
          M idx i (cor.chunks.getD i emptyChunk) rfl rfl rfl rfl rfl htree
          hsortL hA s]
        exact ih (fun j hj => hb j (List.mem_cons_of_mem _ hj)) _
    rw [hrun (List.range cor.chunks.length)
      (fun i hi => List.mem_range.mp hi) SState.init]
  · -- a non-empty key: both runs emit exactly the matching lines
    subst hk
    obtain ⟨hkWF, hkAccAll⟩ := hkey k rfl hke
    have hrun : ∀ (l : List Nat), (∀ i ∈ l, i < cor.chunks.length) →
        ∀ s1 s2 : SState, s1.exitr = .kExitNone → s2.exitr = .kExitNone →
        (∀ q, q ∈ outPairs s1.out ↔ q ∈ outPairs s2.out) →
        (l.foldl (fun s i => searcher_step
          ⟨cor.files, cor.chunks.map Chunk.data, none, true, none, df⟩
          M (some k) i (cor.chunks.getD i emptyChunk) s) s1).exitr = .kExitNone
        ∧ (l.foldl (fun s i => searcher_step
          ⟨cor.files, cor.chunks.map Chunk.data, none, false, none, df2⟩
          M (some k) i (cor.chunks.getD i emptyChunk) s) s2).exitr = .kExitNone
        ∧ ∀ q, q ∈ outPairs (l.foldl (fun s i => searcher_step
            ⟨cor.files, cor.chunks.map Chunk.data, none, true, none, df⟩
            M (some k) i (cor.chunks.getD i emptyChunk) s) s1).out
          ↔ q ∈ outPairs (l.foldl (fun s i => searcher_step
            ⟨cor.files, cor.chunks.map Chunk.data, none, false, none, df2⟩
            M (some k) i (cor.chunks.getD i emptyChunk) s) s2).out := by
      intro l
      induction l with
      | nil => intro _ s1 s2 h1 h2 h3; exact ⟨h1, h2, h3⟩
      | cons i l2 ih =>
        intro hb s1 s2 hex1 hex2 hiff
        have hil : i < cor.chunks.length := hb i (List.mem_cons_self _ _)
        have hmem : cor.chunks.getD i emptyChunk ∈ cor.chunks := by
          rw [List.getD_eq_getElem cor.chunks emptyChunk hil]
          exact List.getElem_mem hil
        have hwf := hcw _ hmem
        have hcm := hc _ hmem
        have hkAcc : ∀ s' e',
            MPf (cor.chunks.getD i emptyChunk).data s' e' → s' ≤ e' →
            e' + 1 ≤ (cor.chunks.getD i emptyChunk).data.length →
            keyAccB (cor.chunks.getD i emptyChunk).data k s' = true :=
          fun s' e' hm hse hlen =>
            hkAccAll _ hmem s' (by omega) e' (by omega) hm
        obtain ⟨hexA, hpairsA⟩ := searcher_stepB_pairs cor M MPf k true df i _
          hwf hcm hkWF hke hkAcc s1 hex1
        obtain ⟨hexB, hpairsB⟩ := searcher_stepB_pairs cor M MPf k false df2 i _
          hwf hcm hkWF hke hkAcc s2 hex2
        simp only [List.foldl_cons]
        apply ih (fun j hj => hb j (List.mem_cons_of_mem _ hj)) _ _ hexA hexB
        intro q
        rw [hpairsA q, hpairsB q, hiff q]
    obtain ⟨_, _, hfinal⟩ := hrun (List.range cor.chunks.length)
      (fun i hi => List.mem_range.mp hi) SState.init SState.init rfl rfl
      (fun q => Iff.rfl)
    exact hfinal pr

instance (ch : Chunk) : Decidable (ChunkWF ch) := by
  unfold ChunkWF
  infer_instance

instance (d : List Byte) (M : Matcher) (MP : Nat → Nat → Prop)
    [∀ s e, Decidable (MP s e)] : Decidable (MContract d M MP) := by
  unfold MContract
  refine @instDecidableAnd _ _ ?_ (@instDecidableAnd _ _ ?_
    (@instDecidableAnd _ _ ?_ ?_))
  · infer_instance
  · infer_instance
  · refine @Nat.decidableBallLE _ _ fun pos hpos => ?_
    refine @Nat.decidableBallLE _ _ fun limit hlim => ?_
    refine @Nat.decidableBallLE _ _ fun e he => ?_
    refine @Nat.decidableBallLE _ _ fun s hs => ?_
    infer_instance
  · refine @Nat.decidableBallLE _ _ fun pos hpos => ?_
    refine @Nat.decidableBallLE _ _ fun limit hlim => ?_
    refine @Nat.decidableBallLE _ _ fun e he => ?_
    refine @Nat.decidableBallLE _ _ fun s hs => ?_
    infer_instance

/-- The `"ba."` match predicate used by the concrete scenario. -/
def MPBaDot (d : List Byte) (s e : Nat) : Prop :=
  e = s + 3 ∧ s + 3 ≤ d.length ∧ d.getD s 0 = 98 ∧ d.getD (s + 1) 0 = 97
  ∧ d.getD (s + 2) 0 ≠ NL

instance (d : List Byte) (s e : Nat) : Decidable (MPBaDot d s e) := by
  unfold MPBaDot
  infer_instance

theorem index_equivalence_witness :
    ((0, 2) ∈ outPairs (run_search corpusA matchBaDot (some keyBa) none true
        none (fun _ _ => false)).out
      ↔ (0, 2) ∈ outPairs (run_search corpusA matchBaDot (some keyBa) none
        false none (fun _ _ => false)).out) :=
  index_equivalence corpusA matchBaDot MPBaDot (some keyBa)
    (fun _ _ => false) (fun _ _ => false)
    (by decide) (by decide)
    (fun kk hk hke => by
      injection hk with h
      subst h
      exact ⟨by decide, by decide⟩)
    (0, 2)

end Codesearch
